import Mathlib

/-! Result-stream decoder of the ClickHouse driver (`rows.go`).

A shallow embedding of `rows.go`: the stream state `rows`, the packet
dispatcher `receiveData`, the iterator operations `Columns`, `Next`,
`HasNextResultSet`, `NextResultSet`, `Close`, the two type accessors and the
block transposer `convertBlockToDriverValues`.

Go slices are lists (a nil slice is the empty list: the code only looks at
`len`), an `error` result is an `Option Error` (`none` is `nil`), and a call
that can panic returns `Except Fault _`. The counts of a block are unsigned
64-bit numbers, `int` has 64 bits, and `make` panics on a capacity that is
negative or beyond what the allocator addresses; running out of memory within
that limit is not modelled.
-/

namespace ClickHouse

/-! ## Values, errors, faults -/

/-- A `driver.Value`: an opaque scalar that the decoder only relocates. -/
inductive Value where
  | int (i : Int)
  | str (s : String)
  | null
  deriving DecidableEq, Repr

/-- A non-nil Go `error` value. -/
inductive Error where
  /-- The sentinel `io.EOF`. -/
  | EOF
  /-- A transport or decode failure reported by the connection's decoder. -/
  | io (msg : String)
  /-- A server exception, as produced by the exception decoder. -/
  | exception (code : Int) (msg : String)
  /-- An error built by `fmt.Errorf`. -/
  | errorf (msg : String)
  deriving DecidableEq, Repr

/-- The ways a call can fail to return: a run-time panic of the Go program, or
the recursion bound of the embedding being used up (shown never to happen). -/
inductive Fault where
  | indexOutOfRange
  /-- The panic of `make` on a capacity out of range. -/
  | capOutOfRange
  | outOfFuel
  deriving DecidableEq, Repr

deriving instance DecidableEq for Except

/-- Slice indexing `xs[i]`: panics when `i` is out of range. -/
def sliceAt {α : Type} (xs : List α) (i : Nat) : Except Fault α :=
  match xs[i]? with
  | some x => .ok x
  | none => .error .indexOutOfRange

/-- The loop `for i := 0; i < n; i++ { acc = append(acc, f(i)) }` started on an
empty `acc`: the iterations run in increasing order of `i` and the first panic
aborts the loop. -/
def forAppend {α : Type} (f : Nat → Except Fault α) : Nat → Except Fault (List α)
  | 0 => .ok []
  | n + 1 =>
    match forAppend f n with
    | .error e => .error e
    | .ok acc =>
      match f n with
      | .error e => .error e
      | .ok x => .ok (acc ++ [x])

/-! ## Blocks -/

/-- Modelled from the spec: a `column.Column` accessor of `lib/column`, which is
not part of the source at hand: its name, its server-side type name and a
descriptor of its runtime (scan) type. -/
structure Column where
  Name : String
  CHType : String
  ScanType : String
  deriving DecidableEq, Repr

/-- Modelled from the spec: a `data.Block` of `lib/data`, which is not part of
the source at hand: ordered column accessors, column count, row count and the
column-major values. The two counts are unsigned 64-bit numbers, held as
naturals below 2^64. -/
structure Block where
  Columns : List Column
  NumColumns : Nat
  NumRows : Nat
  Values : List (List Value)
  deriving DecidableEq, Repr

/-- Modelled from the spec: `block.ColumnNames()`, the ordered names of the
block's column accessors. -/
def Block.ColumnNames (block : Block) : List String :=
  block.Columns.map Column.Name

/-- The conversion `int(n)` of an unsigned 64-bit count to the 64-bit `int`: the
same 64 bits read in two's complement, so a count from 2^63 on comes out
negative. -/
def int (n : Nat) : Int :=
  if n % 2 ^ 64 < 2 ^ 63 then ((n % 2 ^ 64 : Nat) : Int) else ((n % 2 ^ 64 : Nat) : Int) - 2 ^ 64

/-- The most bytes that one allocation of the Go runtime can have on a 64-bit
platform (`maxAlloc` of the runtime). -/
def maxAlloc : Nat := 2 ^ 48

/-- The built-in `make([]T, 0, n)` for elements of `size` bytes, as far as it can
panic: the capacity is out of range when it is negative or when `n` elements
take more than `maxAlloc` bytes. -/
def make (size : Nat) (n : Int) : Except Fault Unit :=
  if n < 0 ∨ maxAlloc < size * n.toNat then .error .capOutOfRange else .ok ()

/-- The function `convertBlockToDriverValues`: the result is made with capacity
`int(block.NumRows)` (its elements are slice headers of 24 bytes); for each row
number below `int(block.NumRows)` a row is made with capacity
`block.NumColumns` (its elements are interface values of 16 bytes) and built by
appending `block.Values[columnNum][rowNum]` for each column number below
`int(block.NumColumns)`. -/
def convertBlockToDriverValues (block : Block) : Except Fault (List (List Value)) :=
  match make 24 (int block.NumRows) with
  | .error e => .error e
  | .ok _ =>
    forAppend (fun rowNum =>
      match make 16 block.NumColumns with
      | .error e => .error e
      | .ok _ =>
        forAppend (fun columnNum =>
          match sliceAt block.Values columnNum with
          | .error e => .error e
          | .ok col => sliceAt col rowNum) (int block.NumColumns).toNat) (int block.NumRows).toNat

/-! ## Packets and the connection -/

/-- Modelled from the spec: the packet tag constants of `lib/protocol`, which
are not part of the source at hand. Their values are left open; they are
pairwise distinct, as the cases of one Go `switch` have to be. -/
structure Protocol where
  ServerException : Nat
  ServerProgress : Nat
  ServerProfileInfo : Nat
  ServerData : Nat
  ServerTotals : Nat
  ServerExtremes : Nat
  ServerEndOfStream : Nat
  distinct : [ServerException, ServerProgress, ServerProfileInfo, ServerData,
    ServerTotals, ServerExtremes, ServerEndOfStream].Nodup

/-- The case of `switch packet` in `receiveData` that a tag value selects. -/
inductive Case where
  | exception
  | progress
  | profileInfo
  | data
  | totals
  | extremes
  | endOfStream
  | unexpected
  deriving DecidableEq, Repr

/-- The dispatch of `switch packet`: the cases are tried in the order of the
source, and `default` is taken when none matches. -/
def Protocol.case (P : Protocol) (packet : Nat) : Case :=
  if packet = P.ServerException then .exception
  else if packet = P.ServerProgress then .progress
  else if packet = P.ServerProfileInfo then .profileInfo
  else if packet = P.ServerData then .data
  else if packet = P.ServerTotals then .totals
  else if packet = P.ServerExtremes then .extremes
  else if packet = P.ServerEndOfStream then .endOfStream
  else .unexpected

/-- The payload of a `Progress` packet. -/
structure progress where
  rows : Nat
  bytes : Nat
  totalRows : Nat
  deriving DecidableEq, Repr

/-- The payload of a `ProfileInfo` packet. -/
structure profileInfo where
  rows : Nat
  bytes : Nat
  blocks : Nat
  deriving DecidableEq, Repr

/-- Modelled from the spec: one packet as the connection's decoder delivers it.
The decoder is not part of the source at hand, so a packet records what each
of its operations returns when called on it: `tag` is the result of
`decoder.Uvarint()`, and the other fields are the results of `ch.exception`,
`ch.progress`, `ch.profileInfo` and `ch.readBlock` on the rest of the packet.
The exception decoder always yields an error (a decode failure or the server
exception itself). -/
structure Packet where
  tag : Except Error Nat
  exception : Error := Error.io "malformed exception"
  progress : Except Error progress := Except.error (Error.io "malformed progress")
  profileInfo : Except Error profileInfo := Except.error (Error.io "malformed profile info")
  block : Except Error Block := Except.error (Error.io "malformed block")
  deriving DecidableEq

/-- Modelled from the spec: the connection handle `*clickhouse` with its
decoder. `wire` holds the packets not read yet, `closed` records
`conn.Close()`, and `reads` counts the decoder operations attempted so far.
Logging (`logf`) is not modelled. -/
structure clickhouse where
  wire : List Packet
  closed : Bool
  reads : Nat
  deriving DecidableEq

/-- Modelled from the spec: `driver.ErrBadConn`, the error of a read for which
a closed connection has nothing buffered any more. -/
def ErrBadConn : Error := Error.io "driver: bad connection"

/-- The error of a read attempted when the peer has nothing more to send. -/
def errExhausted : Error := Error.io "unexpected end of connection"

/-! ## The stream state -/

/-- The struct `rows`. -/
structure rows where
  ch : clickhouse
  columns : List String
  index : Nat
  values : List (List Value)
  totals : List (List Value)
  extremes : List (List Value)
  blockColumns : List Column
  allDataIsReceived : Bool
  deriving DecidableEq

/-- The stream after `n` more decoder operations, with `rest` left to read. -/
def rows.consumed (s : rows) (rest : List Packet) (n : Nat) : rows :=
  { s with ch := { s.ch with wire := rest, reads := s.ch.reads + n } }

/-- The statement `rows.ch.conn.Close()`. -/
def rows.connClose (s : rows) : rows :=
  { s with ch := { s.ch with closed := true } }

/-- Lines 127-133 of `receiveData`: the first block that carries columns
resolves the column names and the column accessors. -/
def rows.resolve (s : rows) (block : Block) : rows :=
  if s.columns.length = 0 ∧ block.Columns.length ≠ 0 then
    { s with columns := block.ColumnNames, blockColumns := block.Columns }
  else s

/-- The inner `switch block.Reset(); packet` of `receiveData`. -/
def rows.route (s : rows) (c : Case) (values : List (List Value)) : rows :=
  match c with
  | .data => { s with index := 0, values := values }
  | .totals => { s with totals := values }
  | .extremes => { s with extremes := values }
  | _ => s

/-- The body of `receiveData` for a packet whose block has been decoded:
`none` means that the `for` loop goes on to the next packet. -/
def rows.onBlock (s : rows) (c : Case) (block : Block) :
    Except Fault (Option (Option Error) × rows) :=
  let s1 := s.resolve block
  if s.columns.length = 0 ∧ block.Columns.length ≠ 0 ∧ block.NumRows = 0 then
    .ok (some none, s1)
  else
    match convertBlockToDriverValues block with
    | .error e => .error e
    | .ok values =>
      let s2 := s1.route c values
      if s2.values.length ≠ 0 then .ok (some none, s2) else .ok (none, s2)

/-- The loop of `receiveData`, by recursion on the packets that the connection
still holds (`wire` is `s.ch.wire`). Each turn reads one packet tag. The code
calls the decoder without looking at the connection, so a packet that is still
there is read whether or not `conn.Close()` has been called; only the error of
a read that finds nothing depends on it. -/
def receiveDataOn (P : Protocol) : List Packet → rows → Except Fault (Option Error × rows)
  | [], s =>
    .ok (some (if s.ch.closed then ErrBadConn else errExhausted), s.consumed [] 1)
  | p :: rest, s =>
    match p.tag with
    | .error err => .ok (some err, s.consumed rest 1)
    | .ok packet =>
      match P.case packet with
      | .exception => .ok (some p.exception, s.consumed rest 2)
      | .progress =>
        match p.progress with
        | .error err => .ok (some err, s.consumed rest 2)
        | .ok _ => receiveDataOn P rest (s.consumed rest 2)
      | .profileInfo =>
        match p.profileInfo with
        | .error err => .ok (some err, s.consumed rest 2)
        | .ok _ => receiveDataOn P rest (s.consumed rest 2)
      | .endOfStream =>
        .ok (none, { s.consumed rest 1 with allDataIsReceived := true })
      | .unexpected =>
        .ok (some (Error.errorf ("unexpected packet [" ++ toString packet ++ "] from server")),
          (s.consumed rest 1).connClose)
      | c =>
        match p.block with
        | .error err => .ok (some err, s.consumed rest 2)
        | .ok block =>
          match (s.consumed rest 2).onBlock c block with
          | .error e => .error e
          | .ok (some r, s2) => .ok (r, s2)
          | .ok (none, s2) => receiveDataOn P rest s2

/-- The method `rows.receiveData`. -/
def rows.receiveData (P : Protocol) (s : rows) : Except Fault (Option Error × rows) :=
  receiveDataOn P s.ch.wire s

/-- The method `rows.Columns`: the result of the dispatch cycle is dropped. -/
def rows.Columns (P : Protocol) (s : rows) : Except Fault (List String × rows) :=
  if s.columns.length = 0 then
    match s.receiveData P with
    | .error e => .error e
    | .ok (_, s1) => .ok (s1.columns, s1)
  else .ok (s.columns, s)

/-- Indexing `xs[idx]` with an `int`: a negative index panics as well. -/
def sliceAtInt {α : Type} (xs : List α) (idx : Int) : Except Fault α :=
  if idx < 0 then .error .indexOutOfRange else sliceAt xs idx.toNat

/-- The method `rows.ColumnTypeScanType`. -/
def rows.ColumnTypeScanType (s : rows) (idx : Int) : Except Fault String :=
  match sliceAtInt s.blockColumns idx with
  | .error e => .error e
  | .ok c => .ok c.ScanType

/-- The method `rows.ColumnTypeDatabaseTypeName`. -/
def rows.ColumnTypeDatabaseTypeName (s : rows) (idx : Int) : Except Fault String :=
  match sliceAtInt s.blockColumns idx with
  | .error e => .error e
  | .ok c => .ok c.CHType

/-- Lines 43-54 of `Next`: the `begin:` loop that runs dispatch cycles while no
row is buffered at the cursor. The result `none` means that a row is there. -/
def rows.nextBegin (P : Protocol) : Nat → rows → Except Fault (Option Error × rows)
  | 0, _ => .error .outOfFuel
  | fuel + 1, s =>
    if s.values.length ≤ s.index then
      if s.allDataIsReceived then .ok (some Error.EOF, s)
      else
        match s.receiveData P with
        | .error e => .error e
        | .ok (some err, s1) => .ok (some err, s1)
        | .ok (none, s1) => rows.nextBegin P fuel s1
    else .ok (none, s)

/-- Lines 61-65 of `Next`: the read-ahead loop. -/
def rows.readAhead (P : Protocol) : Nat → rows → Except Fault (Option Error × rows)
  | 0, _ => .error .outOfFuel
  | fuel + 1, s =>
    if !(s.allDataIsReceived || s.values.length != 0) then
      match s.receiveData P with
      | .error e => .error e
      | .ok (some err, s1) => .ok (some err, s1)
      | .ok (none, s1) => rows.readAhead P fuel s1
    else .ok (none, s)

/-- Lines 55-57 of `Next`: `dest[i] = row[i]` for each index of `dest`. -/
def copyRow (row dest : List Value) : Except Fault (List Value) :=
  forAppend (fun i => sliceAt row i) dest.length

/-- Lines 55-67 of `Next`, reached with a row at the cursor: the row is copied
into `dest`, the cursor moves on, and when the buffer is used up it is cleared
and the read-ahead loop runs. -/
def rows.nextRow (P : Protocol) (s1 : rows) (dest : List Value) :
    Except Fault (Option Error × rows × List Value) :=
  match sliceAt s1.values s1.index with
  | .error e => .error e
  | .ok row =>
    match copyRow row dest with
    | .error e => .error e
    | .ok dest1 =>
      let s2 := { s1 with index := s1.index + 1 }
      if s2.values.length ≤ s2.index then
        match rows.readAhead P (s2.ch.wire.length + 1) { s2 with values := [] } with
        | .error e => .error e
        | .ok (some err, s3) => .ok (some err, s3, dest1)
        | .ok (none, s3) => .ok (none, s3, dest1)
      else .ok (none, s2, dest1)

/-- The method `rows.Next`. It returns the error, the stream and `dest` as the
call leaves them. Each dispatch cycle that returns nil has read a packet, so
the two loops make at most one turn more than there are packets left. -/
def rows.Next (P : Protocol) (s : rows) (dest : List Value) :
    Except Fault (Option Error × rows × List Value) :=
  match rows.nextBegin P (s.ch.wire.length + 1) s with
  | .error e => .error e
  | .ok (some err, s1) => .ok (some err, s1, dest)
  | .ok (none, s1) => s1.nextRow P dest

/-- The method `rows.HasNextResultSet`. -/
def rows.HasNextResultSet (s : rows) : Bool :=
  s.totals.length != 0 || s.extremes.length != 0

/-- The loop `for _, value := range src { rows.values = append(rows.values, value) }`. -/
def appendEach (values src : List (List Value)) : List (List Value) :=
  src.foldl (fun acc value => acc ++ [value]) values

/-- The method `rows.NextResultSet`. -/
def rows.NextResultSet (s : rows) : Option Error × rows :=
  if s.totals.length ≠ 0 then
    (none, { s with values := appendEach s.values s.totals, index := 0, totals := [] })
  else if s.extremes.length ≠ 0 then
    (none, { s with values := appendEach s.values s.extremes, index := 0, extremes := [] })
  else (some Error.EOF, s)

/-- The method `rows.Close`. -/
def rows.Close (s : rows) : Option Error × rows :=
  (none, s)

/-- A stream on which nothing has been read yet. -/
def rows.fresh (wire : List Packet) : rows :=
  { ch := { wire := wire, closed := false, reads := 0 }
    columns := []
    index := 0
    values := []
    totals := []
    extremes := []
    blockColumns := []
    allDataIsReceived := false }

/-- A client that calls `Next` `n` times in a row on the same `dest`; it
collects, for each call, the error returned and `dest` as the call left it. -/
def rows.NextN (P : Protocol) : Nat → rows → List Value →
    Except Fault (List (Option Error × List Value) × rows × List Value)
  | 0, s, dest => .ok ([], s, dest)
  | n + 1, s, dest =>
    match s.Next P dest with
    | .error e => .error e
    | .ok (err, s1, dest1) =>
      match rows.NextN P n s1 dest1 with
      | .error e => .error e
      | .ok (rest, s2, dest2) => .ok ((err, dest1) :: rest, s2, dest2)

/-- The tag values of the ClickHouse native protocol, for worked examples. -/
def native : Protocol :=
  { ServerException := 2
    ServerProgress := 3
    ServerProfileInfo := 6
    ServerData := 1
    ServerTotals := 7
    ServerExtremes := 8
    ServerEndOfStream := 5
    distinct := by decide }

/-- The block of the worked example: columns `id` and `name`, two rows. -/
def exampleBlock : Block :=
  { Columns := [⟨"id", "UInt8", "uint8"⟩, ⟨"name", "String", "string"⟩]
    NumColumns := 2
    NumRows := 2
    Values := [[.int 1, .int 2], [.str "a", .str "b"]] }

/-! ## Specification-side notions -/

/-- Row `r` of a block, read across its columns. -/
def Block.row (b : Block) (r : Nat) : List Value :=
  b.Values.map (fun col => col.getD r Value.null)

/-- The rows of a block in row order. -/
def Block.rows (b : Block) : List (List Value) :=
  (List.range b.NumRows).map b.row

/-- The shape of a block: `Values` has `NumColumns` columns of exactly `NumRows`
values each. -/
def Block.Shaped (b : Block) : Prop :=
  b.Values.length = b.NumColumns ∧ ∀ col ∈ b.Values, col.length = b.NumRows

instance (b : Block) : Decidable b.Shaped := by
  unfold Block.Shaped; infer_instance

/-- The counts of the block are capacities that `make` accepts: `NumRows` slice
headers are within `maxAlloc` and, when there is a row to make, so are
`NumColumns` values. -/
def Block.Allocatable (b : Block) : Prop :=
  24 * b.NumRows ≤ maxAlloc ∧ (b.NumRows = 0 ∨ 16 * b.NumColumns ≤ maxAlloc)

instance (b : Block) : Decidable b.Allocatable := by
  unfold Block.Allocatable; infer_instance

/-- The block is rectangular: it has the shape that its counts announce, and
its counts are capacities that `make` accepts. -/
def Block.Rect (b : Block) : Prop :=
  b.Shaped ∧ b.Allocatable

instance (b : Block) : Decidable b.Rect := by
  unfold Block.Rect; infer_instance

/-- A block without columns that announces 2^63 rows. -/
def hugeBlock : Block :=
  { Columns := [], NumColumns := 0, NumRows := 2 ^ 63, Values := [] }

/-- Re-grouping of row tuples by column index: column `c` is
`[result[0][c], ..., result[R-1][c]]`. -/
def regroup (C : Nat) (result : List (List Value)) : List (List Value) :=
  (List.range C).map (fun c => result.filterMap (fun row => row[c]?))

/-- A one-column block with the given rows, named `n`. -/
def oneColumn (rs : List Int) : Block :=
  { Columns := [⟨"n", "Int64", "int64"⟩]
    NumColumns := 1
    NumRows := rs.length
    Values := [rs.map Value.int] }

/-- A query with totals and extremes on the wire: one data block with the row
`10`, a totals block with the row `100`, an extremes block with the rows `1`
and `9`, then end of stream. -/
def deferredWire : List Packet :=
  [{ tag := .ok native.ServerData, block := .ok (oneColumn [10]) },
   { tag := .ok native.ServerTotals, block := .ok (oneColumn [100]) },
   { tag := .ok native.ServerExtremes, block := .ok (oneColumn [1, 9]) },
   { tag := .ok native.ServerEndOfStream }]

/-- Two totals blocks in a row, then end of stream. -/
def twoTotalsWire : List Packet :=
  [{ tag := .ok native.ServerTotals, block := .ok (oneColumn [1]) },
   { tag := .ok native.ServerTotals, block := .ok (oneColumn [2]) },
   { tag := .ok native.ServerEndOfStream }]

/-- What a packet of a well-behaved result stream carries, besides the
end-of-stream marker: a decoded informational payload or a decoded block. -/
inductive Item where
  | progress (r : progress)
  | profileInfo (r : profileInfo)
  | data (b : Block)
  | totals (b : Block)
  | extremes (b : Block)

/-- The packet `p` has the tag of the item and decodes to it successfully. -/
def Packet.Carries (P : Protocol) (p : Packet) : Item → Prop
  | .progress r => p.tag = .ok P.ServerProgress ∧ p.progress = .ok r
  | .profileInfo r => p.tag = .ok P.ServerProfileInfo ∧ p.profileInfo = .ok r
  | .data b => p.tag = .ok P.ServerData ∧ p.block = .ok b
  | .totals b => p.tag = .ok P.ServerTotals ∧ p.block = .ok b
  | .extremes b => p.tag = .ok P.ServerExtremes ∧ p.block = .ok b

/-- The item is an informational payload or a rectangular Data block with `C`
columns (and any number of rows). -/
def Item.Main (C : Nat) : Item → Prop
  | .progress _ => True
  | .profileInfo _ => True
  | .data b => b.Rect ∧ b.NumColumns = C
  | .totals _ => False
  | .extremes _ => False

/-- The item is an informational payload, a rectangular Data block with `C`
columns, or a rectangular Totals or Extremes block with `C` columns and at
least one row. -/
def Item.Sound (C : Nat) : Item → Prop
  | .progress _ => True
  | .profileInfo _ => True
  | .data b => b.Rect ∧ b.NumColumns = C
  | .totals b => b.Rect ∧ b.NumColumns = C ∧ 1 ≤ b.NumRows
  | .extremes b => b.Rect ∧ b.NumColumns = C ∧ 1 ≤ b.NumRows

/-- The rows of the main result set: the rows of the Data blocks, in block
order and then in row order. -/
def mainRows : List Item → List (List Value)
  | [] => []
  | .data b :: rest => b.rows ++ mainRows rest
  | _ :: rest => mainRows rest

/-- The rows of the last Totals block among the items, `init` when there is none. -/
def lastTotals : List Item → List (List Value) → List (List Value)
  | [], init => init
  | .totals b :: rest, _ => lastTotals rest b.rows
  | _ :: rest, init => lastTotals rest init

/-- The rows of the last Extremes block among the items, `init` when there is none. -/
def lastExtremes : List Item → List (List Value) → List (List Value)
  | [], init => init
  | .extremes b :: rest, _ => lastExtremes rest b.rows
  | _ :: rest, init => lastExtremes rest init

/-- The results of calls of `Next` that deliver the given rows one by one. -/
def delivered (rs : List (List Value)) : List (Option Error × List Value) :=
  rs.map (fun r => (none, r))

/-- What a run of the dispatcher keeps: from the stream `s` with the items `items`
still to come, it has reached the stream `s1` with `items1` still to come; the
connection is open, the buffered rows have `C` values each, and the rows and
deferred result sets still to be delivered are the same. -/
structure Kept (C : Nat) (items : List Item) (s : rows) (items1 : List Item) (s1 : rows) :
    Prop where
  closed : s1.ch.closed = false
  sound : ∀ it ∈ items1, it.Sound C
  width : ∀ row ∈ s1.values, row.length = C
  main : s1.values ++ mainRows items1 = mainRows items
  totals : lastTotals items1 s1.totals = lastTotals items s.totals
  extremes : lastExtremes items1 s1.extremes = lastExtremes items s.extremes

/-- A new block of rows is buffered with the cursor on its first row, and the
packets of `items1`, the end-of-stream marker `eos` and `tail` are still to be read. -/
def Ready (P : Protocol) (eos : Packet) (tail : List Packet) (s1 : rows) (items1 : List Item) :
    Prop :=
  s1.values ≠ [] ∧ s1.index = 0 ∧ s1.allDataIsReceived = false ∧
    ∃ pk1, List.Forall₂ (Packet.Carries P) pk1 items1 ∧ s1.ch.wire = pk1 ++ eos :: tail

/-- The end-of-stream marker has been read and no row is buffered. -/
def Finished (tail : List Packet) (s1 : rows) (items1 : List Item) : Prop :=
  s1.values = [] ∧ s1.allDataIsReceived = true ∧ items1 = [] ∧ s1.ch.wire = tail

/-- No row is buffered and the stream is not terminated: the dispatch cycle
returned on a block that only resolved the column metadata. -/
def Paused (P : Protocol) (eos : Packet) (tail : List Packet) (s1 : rows) (items1 : List Item) :
    Prop :=
  s1.values = [] ∧ s1.allDataIsReceived = false ∧
    ∃ pk1, List.Forall₂ (Packet.Carries P) pk1 items1 ∧ s1.ch.wire = pk1 ++ eos :: tail

/-- The states of a stream that is read over a well-behaved sequence of packets:
the connection is open, the items still to come are sound, the buffered rows
have `C` values each, the buffer is empty or has a row at the cursor, and
either the stream is not terminated and the packets of `items`, the marker
`eos` and `tail` are still to be read, or it is terminated with no item left. -/
structure Streaming (P : Protocol) (C : Nat) (eos : Packet) (tail : List Packet) (s : rows)
    (items : List Item) : Prop where
  closed : s.ch.closed = false
  sound : ∀ it ∈ items, it.Sound C
  width : ∀ row ∈ s.values, row.length = C
  cursor : s.values = [] ∨ s.index < s.values.length
  conn : (s.allDataIsReceived = false ∧
      ∃ pk, List.Forall₂ (Packet.Carries P) pk items ∧ s.ch.wire = pk ++ eos :: tail) ∨
    (s.allDataIsReceived = true ∧ items = [])

/-- The rows that the current result set still has to deliver: the buffered
rows from the cursor on, then the rows of the Data blocks still to come. -/
def pending (s : rows) (items : List Item) : List (List Value) :=
  s.values.drop s.index ++ mainRows items

instance (C : Nat) (it : Item) : Decidable (it.Main C) := by
  cases it <;> unfold Item.Main <;> infer_instance

instance (C : Nat) (it : Item) : Decidable (it.Sound C) := by
  cases it <;> unfold Item.Sound <;> infer_instance

/-- The number of rows that the Data blocks among the items announce: `r1 + ... + rn`. -/
def rowCount : List Item → Nat
  | [] => 0
  | .data b :: rest => b.NumRows + rowCount rest
  | _ :: rest => rowCount rest

/-- The stream of the worked example with a progress packet in front: progress,
the data block `exampleBlock`, end of stream. -/
def exampleWire : List Packet :=
  [{ tag := .ok native.ServerProgress, progress := .ok ⟨2, 16, 2⟩ },
   { tag := .ok native.ServerData, block := .ok exampleBlock },
   { tag := .ok native.ServerEndOfStream }]

/-- The query of `deferredWire` with the extremes block sent before the totals block. -/
def extremesFirstWire : List Packet :=
  [{ tag := .ok native.ServerData, block := .ok (oneColumn [10]) },
   { tag := .ok native.ServerExtremes, block := .ok (oneColumn [1, 9]) },
   { tag := .ok native.ServerTotals, block := .ok (oneColumn [100]) },
   { tag := .ok native.ServerEndOfStream }]

/-- Outcome (a) of a dispatch cycle: the last packet read is a Data packet, the
row buffer holds the rows of its block, which are not empty, and the cursor is 0. -/
def PostRows (P : Protocol) (last : Packet) (s1 : rows) : Prop :=
  last.tag = .ok P.ServerData ∧
    ∃ b, last.block = .ok b ∧ s1.values = b.rows ∧ s1.values ≠ [] ∧ s1.index = 0

/-- Outcome (b) of a dispatch cycle: the last packet read is the end-of-stream
marker and the stream is terminated. -/
def PostEnd (P : Protocol) (last : Packet) (s1 : rows) : Prop :=
  last.tag = .ok P.ServerEndOfStream ∧ s1.allDataIsReceived = true

/-- Outcome (c) of a dispatch cycle started on `s`: the column names were not
resolved before, and the last packet read carries a block with at least one
column and no row, from which the column names and accessors are resolved; no
row is buffered. -/
def PostMeta (P : Protocol) (s : rows) (last : Packet) (s1 : rows) : Prop :=
  ∃ t b, last.tag = .ok t ∧ (P.case t = .data ∨ P.case t = .totals ∨ P.case t = .extremes) ∧
    last.block = .ok b ∧ b.Columns ≠ [] ∧ b.NumRows = 0 ∧ s.columns = [] ∧
    s1.columns = b.ColumnNames ∧ s1.blockColumns = b.Columns ∧ s1.values = []

/-- The block that the packet decodes to, if any, is rectangular. -/
def Packet.Rect (p : Packet) : Prop :=
  ∀ b, p.block = .ok b → b.Rect

instance (p : Packet) : Decidable p.Rect :=
  match h : p.block with
  | .ok b =>
    if hb : b.Rect then
      isTrue (by intro b1 hb1; rw [h] at hb1; cases hb1; exact hb)
    else isFalse (fun hall => hb (hall b h))
  | .error _ => isTrue (by intro b1 hb1; rw [h] at hb1; cases hb1)

/-- A stream whose first packet has the unknown tag 9; an end-of-stream marker follows. -/
def desyncWire : List Packet :=
  [{ tag := .ok 9 }, { tag := .ok native.ServerEndOfStream }]

/-- The stream that the dispatch cycle leaves after reading the unknown tag of
`desyncWire`: the connection is closed and one decoder operation has been made. -/
def desyncStream : rows :=
  { rows.fresh [] with
    ch := { wire := [{ tag := .ok native.ServerEndOfStream }], closed := true, reads := 1 } }

/-- The packet has the Totals tag or the Extremes tag. -/
def Packet.Deferred (P : Protocol) (p : Packet) : Prop :=
  p.tag = .ok P.ServerTotals ∨ p.tag = .ok P.ServerExtremes

/-- From `s` to `s1` the packets `consumed` were read off the connection, and
if none of them was a Totals or Extremes packet the two deferred slots are the same. -/
def Untouched (P : Protocol) (s s1 : rows) : Prop :=
  ∃ consumed, s.ch.wire = consumed ++ s1.ch.wire ∧
    ((∀ p ∈ consumed, ¬ p.Deferred P) → s1.totals = s.totals ∧ s1.extremes = s.extremes)

/-- A call of `Columns` or of `Next` by the client. -/
inductive Call where
  | columns
  | next (dest : List Value)

/-- The stream after a call of `Columns` or `Next`, whatever the call returned. -/
def rows.call (P : Protocol) (s : rows) : Call → Except Fault rows
  | .columns =>
    match s.Columns P with
    | .error e => .error e
    | .ok (_, s1) => .ok s1
  | .next dest =>
    match s.Next P dest with
    | .error e => .error e
    | .ok (_, s1, _) => .ok s1

/-- The stream after a sequence of calls of `Columns` and `Next`. -/
def rows.calls (P : Protocol) (s : rows) : List Call → Except Fault rows
  | [] => .ok s
  | c :: cs =>
    match s.call P c with
    | .error e => .error e
    | .ok s1 => rows.calls P s1 cs

/-- A data block with the row `10`, a totals block without rows, end of stream. -/
def emptyTotalsWire : List Packet :=
  [{ tag := .ok native.ServerData, block := .ok (oneColumn [10]) },
   { tag := .ok native.ServerTotals, block := .ok (oneColumn []) },
   { tag := .ok native.ServerEndOfStream }]

/-- The cursor is on a buffered row, or the row buffer is empty. -/
def rows.CursorOk (s : rows) : Prop :=
  s.values = [] ∨ s.index < s.values.length

/-- A call of one of the five operations of the iterator by the client. -/
inductive Op where
  | columns
  | next (dest : List Value)
  | hasNextResultSet
  | nextResultSet
  | close

/-- The stream after a call of an operation, whatever the call returned. -/
def rows.op (P : Protocol) (s : rows) : Op → Except Fault rows
  | .columns =>
    match s.Columns P with
    | .error e => .error e
    | .ok (_, s1) => .ok s1
  | .next dest =>
    match s.Next P dest with
    | .error e => .error e
    | .ok (_, s1, _) => .ok s1
  | .hasNextResultSet => .ok s
  | .nextResultSet => .ok s.NextResultSet.2
  | .close => .ok s.Close.2

/-- The stream after a sequence of calls of the operations. -/
def rows.ops (P : Protocol) (s : rows) : List Op → Except Fault rows
  | [] => .ok s
  | o :: os =>
    match s.op P o with
    | .error e => .error e
    | .ok s1 => rows.ops P s1 os

/-- A data block with the rows `10` and `20`, then a server exception, then a
data block with the row `30` and the end-of-stream marker. -/
def exceptionWire : List Packet :=
  [{ tag := .ok native.ServerData, block := .ok (oneColumn [10, 20]) },
   { tag := .ok native.ServerException, exception := Error.exception 60 "Table does not exist" },
   { tag := .ok native.ServerData, block := .ok (oneColumn [30]) },
   { tag := .ok native.ServerEndOfStream }]

/-- The stream over `exceptionWire` once its first row has been read: the row
`20` is the last buffered one and the exception packet comes next. -/
def lastRowStream : rows :=
  { rows.fresh (exceptionWire.drop 1) with
    columns := ["n"]
    blockColumns := [⟨"n", "Int64", "int64"⟩]
    values := [[Value.int 10], [Value.int 20]]
    index := 1 }

/-- A result that ends at once, with no block: the end-of-stream marker. What
follows on the connection is not part of this result: a data block with the
row `30` and another end-of-stream marker. -/
def endOnlyWire : List Packet :=
  [{ tag := .ok native.ServerEndOfStream },
   { tag := .ok native.ServerData, block := .ok (oneColumn [30]) },
   { tag := .ok native.ServerEndOfStream }]

/-- A query that fails at once: a server exception, then the end-of-stream marker. -/
def failedQueryWire : List Packet :=
  [{ tag := .ok native.ServerException, exception := Error.exception 60 "Table does not exist" },
   { tag := .ok native.ServerEndOfStream }]

/-- From `s` to `s1` the column names and the column accessors are the same,
provided the column names of `s` are resolved. -/
def KeepsColumns (s s1 : rows) : Prop :=
  s.columns ≠ [] → s1.columns = s.columns ∧ s1.blockColumns = s.blockColumns

/-- The item is an informational payload. -/
def Item.Info : Item → Prop
  | .progress _ => True
  | .profileInfo _ => True
  | .data _ => False
  | .totals _ => False
  | .extremes _ => False

instance (it : Item) : Decidable it.Info := by
  cases it <;> unfold Item.Info <;> infer_instance

/-- The packet is a Progress or ProfileInfo packet that decodes successfully. -/
def Packet.IsInfo (P : Protocol) (p : Packet) : Prop :=
  (p.tag = .ok P.ServerProgress ∧ ∃ r, p.progress = .ok r) ∨
    (p.tag = .ok P.ServerProfileInfo ∧ ∃ r, p.profileInfo = .ok r)

/-- The packet sequence `w1` is the sequence `w` with successfully decoded
informational packets inserted at any positions. -/
inductive Padded (P : Protocol) : List Packet → List Packet → Prop where
  | nil : Padded P [] []
  | keep (p : Packet) {w w1 : List Packet} : Padded P w w1 → Padded P (p :: w) (p :: w1)
  | insert (q : Packet) {w w1 : List Packet} :
    q.IsInfo P → Padded P w w1 → Padded P w (q :: w1)

/-- The two streams have the same column names and accessors, row buffer,
cursor, totals, extremes and terminated flag, and both connections are open or
both are closed. -/
def SameFields (s t : rows) : Prop :=
  s.columns = t.columns ∧ s.index = t.index ∧ s.values = t.values ∧ s.totals = t.totals ∧
    s.extremes = t.extremes ∧ s.blockColumns = t.blockColumns ∧
    s.allDataIsReceived = t.allDataIsReceived ∧ s.ch.closed = t.ch.closed

/-- Two runs of a dispatch cycle agree: both panic alike, or both return the
same value and leave streams with the same fields, the packets left on the two
connections being the same up to inserted informational packets. -/
def Agree (P : Protocol) :
    Except Fault (Option Error × rows) → Except Fault (Option Error × rows) → Prop
  | .ok (r, s1), .ok (r1, t1) => r = r1 ∧ SameFields s1 t1 ∧ Padded P s1.ch.wire t1.ch.wire
  | .error e, .error e1 => e = e1
  | _, _ => False

/-- The turns of the `begin:` loop of `Next` (lines 43-54): from the stream `s`
the loop reaches the head of a turn on the stream `t`, each turn before it
having run a dispatch cycle, with no row at the cursor on a stream that is not
terminated, that returned nil. -/
inductive rows.Begins (P : Protocol) : rows → rows → Prop where
  | here (s : rows) : rows.Begins P s s
  | turn {s s1 t : rows} : s.values.length ≤ s.index → s.allDataIsReceived = false →
    s.receiveData P = .ok (none, s1) → rows.Begins P s1 t → rows.Begins P s t

/-- The turns of the read-ahead loop of `Next` (lines 61-65): from the stream
`s` the loop reaches the head of a turn on the stream `t`, each turn before it
having run a dispatch cycle, with an empty row buffer on a stream that is not
terminated, that returned nil. -/
inductive rows.Aheads (P : Protocol) : rows → rows → Prop where
  | here (s : rows) : rows.Aheads P s s
  | turn {s s1 t : rows} : s.allDataIsReceived = false → s.values = [] →
    s.receiveData P = .ok (none, s1) → rows.Aheads P s1 t → rows.Aheads P s t

/-! ## Facts about slices and the transposer -/

theorem sliceAt_of_lt {α : Type} (xs : List α) (i : Nat) (h : i < xs.length) :
    sliceAt xs i = .ok xs[i] := by
  simp [sliceAt, List.getElem?_eq_getElem h]

theorem sliceAt_of_le {α : Type} (xs : List α) (i : Nat) (h : xs.length ≤ i) :
    sliceAt xs i = .error .indexOutOfRange := by
  simp [sliceAt, List.getElem?_eq_none h]

theorem forAppend_eq_ok {α : Type} (f : Nat → Except Fault α) (l : List α) :
    ∀ n, l.length = n → (∀ i (h : i < l.length), f i = .ok l[i]) → forAppend f n = .ok l := by
  intro n
  induction n generalizing l with
  | zero =>
    intro hl _
    have : l = [] := List.length_eq_zero.mp hl
    simp [forAppend, this]
  | succ n ih =>
    intro hl hf
    have hne : l ≠ [] := by intro h; simp [h] at hl
    obtain ⟨init, x, rfl⟩ : ∃ init x, l = init ++ [x] :=
      ⟨l.dropLast, l.getLast hne, (List.dropLast_append_getLast hne).symm⟩
    have hlen : init.length = n := by simpa using hl
    have h1 : forAppend f n = .ok init := by
      apply ih init hlen
      intro i hi
      have := hf i (by simp; omega)
      rw [this, List.getElem_append_left hi]
    have h2 : f n = .ok x := by
      have := hf n (by simp; omega)
      rw [this]
      simp [← hlen]
    simp [forAppend, h1, h2]

theorem Block.row_length (b : Block) (r : Nat) : (b.row r).length = b.Values.length := by
  simp [Block.row]

theorem Block.rows_length (b : Block) : b.rows.length = b.NumRows := by
  simp [Block.rows]

theorem int_of_lt (n : Nat) (h : n < 2 ^ 63) : int n = n := by
  unfold int
  have h1 : n % 2 ^ 64 = n := Nat.mod_eq_of_lt (by omega)
  rw [h1, if_pos h]

theorem int_of_ge (n : Nat) (h1 : 2 ^ 63 ≤ n) (h2 : n < 2 ^ 64) : int n < 0 := by
  unfold int
  have h3 : n % 2 ^ 64 = n := Nat.mod_eq_of_lt h2
  rw [h3, if_neg (by omega)]
  have : ((n : Nat) : Int) < 2 ^ 64 := by exact_mod_cast h2
  omega

theorem make_ok (size n : Nat) (h : size * n ≤ maxAlloc) : make size (n : Int) = .ok () := by
  unfold make
  rw [if_neg]
  intro h1
  rcases h1 with h1 | h1
  · omega
  · simp at h1; omega

theorem make_error (size n : Nat) (h : maxAlloc < size * n) :
    make size (n : Int) = .error .capOutOfRange := by
  unfold make
  rw [if_pos]
  right
  simpa using h

theorem make_neg (size : Nat) (n : Int) (h : n < 0) : make size n = .error .capOutOfRange := by
  unfold make
  rw [if_pos (Or.inl h)]

theorem Block.Allocatable.rows_lt {b : Block} (h : b.Allocatable) : b.NumRows < 2 ^ 63 := by
  have := h.1
  unfold maxAlloc at this
  omega

theorem convertBlockToDriverValues_shaped (b : Block) (h : b.Shaped) (ha : b.Allocatable) :
    convertBlockToDriverValues b = .ok b.rows := by
  unfold convertBlockToDriverValues
  have hR : int b.NumRows = b.NumRows := int_of_lt _ ha.rows_lt
  rw [hR, make_ok 24 b.NumRows ha.1]
  simp only [Int.toNat_ofNat]
  apply forAppend_eq_ok _ _ _ b.rows_length
  intro r hr
  have hr2 : r < b.NumRows := by simpa [Block.rows] using hr
  have hcap : 16 * b.NumColumns ≤ maxAlloc := by
    rcases ha.2 with h0 | h0
    · omega
    · exact h0
  have hC : int b.NumColumns = b.NumColumns :=
    int_of_lt _ (by unfold maxAlloc at hcap; omega)
  have : b.rows[r] = b.row r := by simp [Block.rows]
  rw [this, make_ok 16 b.NumColumns hcap, hC]
  simp only [Int.toNat_ofNat]
  apply forAppend_eq_ok _ _ _ (by rw [Block.row_length]; exact h.1)
  intro c hc
  have hc2 : c < b.Values.length := by simpa [Block.row] using hc
  have hcol : (b.Values[c]).length = b.NumRows := h.2 _ (List.getElem_mem hc2)
  rw [sliceAt_of_lt _ _ hc2]
  simp only []
  rw [sliceAt_of_lt _ _ (by omega)]
  have hr3 : r < (b.Values[c]).length := by omega
  simp [Block.row, List.getElem?_eq_getElem hr3]

theorem convertBlockToDriverValues_rect (b : Block) (h : b.Rect) :
    convertBlockToDriverValues b = .ok b.rows :=
  convertBlockToDriverValues_shaped b h.1 h.2

theorem forAppend_succ_error {α : Type} (f : Nat → Except Fault α) (e : Fault)
    (h0 : f 0 = .error e) : ∀ n, 0 < n → forAppend f n = .error e := by
  intro n
  induction n with
  | zero => intro h; omega
  | succ n ih =>
    intro _
    unfold forAppend
    cases n with
    | zero => simp [forAppend, h0]
    | succ m => rw [ih (by omega)]

theorem convertBlockToDriverValues_cap (b : Block) (hR : b.NumRows < 2 ^ 64)
    (ha : ¬ b.Allocatable) :
    convertBlockToDriverValues b = .error .capOutOfRange := by
  unfold convertBlockToDriverValues
  by_cases h63 : b.NumRows < 2 ^ 63
  · have hint : int b.NumRows = b.NumRows := int_of_lt _ h63
    rw [hint]
    by_cases h1 : 24 * b.NumRows ≤ maxAlloc
    · rw [make_ok 24 b.NumRows h1]
      simp only [Int.toNat_ofNat]
      have h2 : b.NumRows ≠ 0 ∧ maxAlloc < 16 * b.NumColumns := by
        unfold Block.Allocatable at ha
        constructor
        · intro h0; exact ha ⟨h1, Or.inl h0⟩
        · by_contra h3; exact ha ⟨h1, Or.inr (by omega)⟩
      apply forAppend_succ_error _ _ _ _ (by omega)
      rw [make_error 16 b.NumColumns h2.2]
    · rw [make_error 24 b.NumRows (by omega)]
  · rw [make_neg 24 _ (int_of_ge _ (by omega) hR)]

theorem Block.row_getElem? (b : Block) (r c : Nat) (hc : c < b.Values.length) :
    (b.row r)[c]? = some ((b.Values[c]).getD r Value.null) := by
  simp [Block.row, List.getElem?_eq_getElem hc]

theorem regroup_rows (b : Block) (h : b.Shaped) : regroup b.NumColumns b.rows = b.Values := by
  apply List.ext_getElem
  · simp [regroup, h.1]
  · intro c h1 h2
    have hcol : (b.Values[c]).length = b.NumRows := h.2 _ (List.getElem_mem h2)
    have hfm : b.rows.filterMap (fun row => row[c]?)
        = (List.range b.NumRows).map (fun r => (b.Values[c]).getD r Value.null) := by
      simp only [Block.rows, List.filterMap_map]
      rw [← List.filterMap_eq_map]
      apply List.filterMap_congr
      intro r _
      simp [Function.comp, Block.row_getElem? b r c h2]
    simp only [regroup, List.getElem_map, List.getElem_range, hfm]
    apply List.ext_getElem
    · simp [hcol]
    · intro r hr1 hr2
      simp [List.getElem?_eq_getElem hr2]

/-- C2, as the code has it: for a block whose `Values` has C columns of exactly
R values each (R being an unsigned 64-bit count), when `make` accepts the
two capacities (24 R bytes of row headers within the allocation limit and, if
there is a row, 16 C bytes of values) the transposer returns exactly R rows of
length C with `result[r][c] = Values[c][r]`, re-grouping the result by column
index gives back the column arrays, and a block with no rows gives the empty
sequence; when `make` does not accept them the call panics with a capacity out
of range. -/
theorem C2_transposition (block : Block) (h : block.Shaped) (hR : block.NumRows < 2 ^ 64) :
    (block.Allocatable →
      ∃ result, convertBlockToDriverValues block = .ok result ∧
        result.length = block.NumRows ∧
        (∀ row ∈ result, row.length = block.NumColumns) ∧
        (∀ r c, r < block.NumRows → c < block.NumColumns →
          ∃ v, (result[r]?.bind fun row => row[c]?) = some v ∧
            (block.Values[c]?.bind fun col => col[r]?) = some v) ∧
        regroup block.NumColumns result = block.Values ∧
        (block.NumRows = 0 → result = [])) ∧
    (¬ block.Allocatable → convertBlockToDriverValues block = .error .capOutOfRange) := by
  refine ⟨fun ha => ⟨block.rows, convertBlockToDriverValues_shaped block h ha, block.rows_length,
    ?_, ?_, regroup_rows block h, ?_⟩, convertBlockToDriverValues_cap block hR⟩
  · intro row hrow
    simp only [Block.rows, List.mem_map, List.mem_range] at hrow
    obtain ⟨r, _, rfl⟩ := hrow
    rw [Block.row_length, h.1]
  · intro r c hr hc
    have hc2 : c < block.Values.length := by rw [h.1]; exact hc
    have hcol : (block.Values[c]).length = block.NumRows := h.2 _ (List.getElem_mem hc2)
    have hr2 : r < (block.Values[c]).length := by omega
    refine ⟨(block.Values[c])[r], ?_, ?_⟩
    · have h1 : block.rows[r]? = some (block.row r) := by
        simp [Block.rows, List.getElem?_range hr, hr]
      simp [h1, Block.row_getElem? block r c hc2, List.getElem?_eq_getElem hr2]
    · simp [List.getElem?_eq_getElem hc2, List.getElem?_eq_getElem hr2]
  · intro h0
    simp [Block.rows, h0]

/-- The block of the worked example: columns `id` and `name`, rows `(1, a)` and `(2, b)`. -/
theorem C2_transposition_witness :
    exampleBlock.Shaped ∧ exampleBlock.NumRows < 2 ^ 64 ∧ exampleBlock.Allocatable ∧
    ((exampleBlock.Allocatable →
      ∃ result, convertBlockToDriverValues exampleBlock = .ok result ∧
        result.length = exampleBlock.NumRows ∧
        (∀ row ∈ result, row.length = exampleBlock.NumColumns) ∧
        (∀ r c, r < exampleBlock.NumRows → c < exampleBlock.NumColumns →
          ∃ v, (result[r]?.bind fun row => row[c]?) = some v ∧
            (exampleBlock.Values[c]?.bind fun col => col[r]?) = some v) ∧
        regroup exampleBlock.NumColumns result = exampleBlock.Values ∧
        (exampleBlock.NumRows = 0 → result = [])) ∧
    (¬ exampleBlock.Allocatable →
      convertBlockToDriverValues exampleBlock = .error .capOutOfRange)) :=
  ⟨by decide, by decide, by decide, C2_transposition exampleBlock (by decide) (by decide)⟩

/-- C2 as stated fails: the block without columns that announces 2^63 rows has
0 columns of 2^63 values each, and the transposer panics on it, because
`int(block.NumRows)` is negative and `make` refuses the capacity; so does the
same block with 2^62 rows, whose capacity is beyond the allocation limit. -/
theorem C2_counterexample :
    hugeBlock.Shaped ∧
    convertBlockToDriverValues hugeBlock = .error .capOutOfRange ∧
    int hugeBlock.NumRows = -(2 ^ 63) ∧
    ({ hugeBlock with NumRows := 2 ^ 62 } : Block).Shaped ∧
    convertBlockToDriverValues { hugeBlock with NumRows := 2 ^ 62 } = .error .capOutOfRange := by
  refine ⟨by decide, by rfl, by rfl, by decide, by rfl⟩

/-! ## The tag dispatch -/

theorem Protocol.ne (P : Protocol) :
    P.ServerException ≠ P.ServerProgress ∧ P.ServerException ≠ P.ServerProfileInfo ∧
    P.ServerException ≠ P.ServerData ∧ P.ServerException ≠ P.ServerTotals ∧
    P.ServerException ≠ P.ServerExtremes ∧ P.ServerException ≠ P.ServerEndOfStream ∧
    P.ServerProgress ≠ P.ServerProfileInfo ∧ P.ServerProgress ≠ P.ServerData ∧
    P.ServerProgress ≠ P.ServerTotals ∧ P.ServerProgress ≠ P.ServerExtremes ∧
    P.ServerProgress ≠ P.ServerEndOfStream ∧ P.ServerProfileInfo ≠ P.ServerData ∧
    P.ServerProfileInfo ≠ P.ServerTotals ∧ P.ServerProfileInfo ≠ P.ServerExtremes ∧
    P.ServerProfileInfo ≠ P.ServerEndOfStream ∧ P.ServerData ≠ P.ServerTotals ∧
    P.ServerData ≠ P.ServerExtremes ∧ P.ServerData ≠ P.ServerEndOfStream ∧
    P.ServerTotals ≠ P.ServerExtremes ∧ P.ServerTotals ≠ P.ServerEndOfStream ∧
    P.ServerExtremes ≠ P.ServerEndOfStream := by
  have h := P.distinct
  simp only [List.nodup_cons, List.mem_cons, List.mem_singleton, not_or, List.not_mem_nil,
    not_false_eq_true, List.nodup_nil, and_true] at h
  tauto

theorem Protocol.case_exception (P : Protocol) : P.case P.ServerException = .exception := by
  simp [Protocol.case]

theorem Protocol.case_progress (P : Protocol) : P.case P.ServerProgress = .progress := by
  have h := P.ne
  simp [Protocol.case, Ne.symm h.1]

theorem Protocol.case_profileInfo (P : Protocol) : P.case P.ServerProfileInfo = .profileInfo := by
  have h := P.ne
  simp [Protocol.case, Ne.symm h.2.1, Ne.symm h.2.2.2.2.2.2.1]

theorem Protocol.case_data (P : Protocol) : P.case P.ServerData = .data := by
  obtain ⟨_, _, h3, _, _, _, _, h8, _, _, _, h12, _⟩ := P.ne
  simp [Protocol.case, Ne.symm h3, Ne.symm h8, Ne.symm h12]

theorem Protocol.case_totals (P : Protocol) : P.case P.ServerTotals = .totals := by
  obtain ⟨_, _, _, h4, _, _, _, _, h9, _, _, _, h13, _, _, h16, _⟩ := P.ne
  simp [Protocol.case, Ne.symm h4, Ne.symm h9, Ne.symm h13, Ne.symm h16]

theorem Protocol.case_extremes (P : Protocol) : P.case P.ServerExtremes = .extremes := by
  obtain ⟨_, _, _, _, h5, _, _, _, _, h10, _, _, _, h14, _, _, h17, _, h19, _⟩ := P.ne
  simp [Protocol.case, Ne.symm h5, Ne.symm h10, Ne.symm h14, Ne.symm h17, Ne.symm h19]

theorem Protocol.case_endOfStream (P : Protocol) : P.case P.ServerEndOfStream = .endOfStream := by
  obtain ⟨_, _, _, _, _, h6, _, _, _, _, h11, _, _, _, h15, _, _, h18, _, h20, h21⟩ := P.ne
  simp [Protocol.case, Ne.symm h6, Ne.symm h11, Ne.symm h15, Ne.symm h18, Ne.symm h20,
    Ne.symm h21]

theorem Protocol.case_eq_iff (P : Protocol) (t : Nat) :
    (P.case t = .exception ↔ t = P.ServerException) ∧
    (P.case t = .progress ↔ t = P.ServerProgress) ∧
    (P.case t = .profileInfo ↔ t = P.ServerProfileInfo) ∧
    (P.case t = .data ↔ t = P.ServerData) ∧
    (P.case t = .totals ↔ t = P.ServerTotals) ∧
    (P.case t = .extremes ↔ t = P.ServerExtremes) ∧
    (P.case t = .endOfStream ↔ t = P.ServerEndOfStream) := by
  refine ⟨⟨?_, ?_⟩, ⟨?_, ?_⟩, ⟨?_, ?_⟩, ⟨?_, ?_⟩, ⟨?_, ?_⟩, ⟨?_, ?_⟩, ⟨?_, ?_⟩⟩
  all_goals first
    | (intro h; subst h
       first
        | exact P.case_exception | exact P.case_progress | exact P.case_profileInfo
        | exact P.case_data | exact P.case_totals | exact P.case_extremes
        | exact P.case_endOfStream)
    | (intro h; unfold Protocol.case at h; split_ifs at h; assumption)

theorem Protocol.case_unexpected_iff (P : Protocol) (t : Nat) :
    P.case t = .unexpected ↔
      t ∉ [P.ServerException, P.ServerProgress, P.ServerProfileInfo, P.ServerData,
        P.ServerTotals, P.ServerExtremes, P.ServerEndOfStream] := by
  unfold Protocol.case
  simp only [List.mem_cons, List.mem_singleton, not_or, List.not_mem_nil, or_false]
  constructor
  · intro h
    split_ifs at h
    exact ⟨‹_›, ‹_›, ‹_›, ‹_›, ‹_›, ‹_›, ‹_›⟩
  · intro h
    obtain ⟨h1, h2, h3, h4, h5, h6, h7⟩ := h
    simp [h1, h2, h3, h4, h5, h6, h7]

/-! ## One turn of the dispatch loop -/

theorem receiveDataOn_tagError (P : Protocol) (p : Packet) (rest : List Packet) (s : rows)
    (err : Error) (ht : p.tag = .error err) :
    receiveDataOn P (p :: rest) s = .ok (some err, s.consumed rest 1) := by
  simp [receiveDataOn, ht]

theorem receiveDataOn_exception (P : Protocol) (p : Packet) (rest : List Packet) (s : rows)
    (t : Nat) (ht : p.tag = .ok t) (hk : P.case t = .exception) :
    receiveDataOn P (p :: rest) s = .ok (some p.exception, s.consumed rest 2) := by
  simp [receiveDataOn, ht, hk]

theorem receiveDataOn_progress (P : Protocol) (p : Packet) (rest : List Packet) (s : rows)
    (t : Nat) (ht : p.tag = .ok t) (hk : P.case t = .progress) :
    receiveDataOn P (p :: rest) s =
      match p.progress with
      | .error err => .ok (some err, s.consumed rest 2)
      | .ok _ => receiveDataOn P rest (s.consumed rest 2) := by
  simp [receiveDataOn, ht, hk]

theorem receiveDataOn_profileInfo (P : Protocol) (p : Packet) (rest : List Packet) (s : rows)
    (t : Nat) (ht : p.tag = .ok t) (hk : P.case t = .profileInfo) :
    receiveDataOn P (p :: rest) s =
      match p.profileInfo with
      | .error err => .ok (some err, s.consumed rest 2)
      | .ok _ => receiveDataOn P rest (s.consumed rest 2) := by
  simp [receiveDataOn, ht, hk]

theorem receiveDataOn_endOfStream (P : Protocol) (p : Packet) (rest : List Packet) (s : rows)
    (t : Nat) (ht : p.tag = .ok t) (hk : P.case t = .endOfStream) :
    receiveDataOn P (p :: rest) s =
      .ok (none, { s.consumed rest 1 with allDataIsReceived := true }) := by
  simp [receiveDataOn, ht, hk]

theorem receiveDataOn_unexpected (P : Protocol) (p : Packet) (rest : List Packet) (s : rows)
    (t : Nat) (ht : p.tag = .ok t) (hk : P.case t = .unexpected) :
    receiveDataOn P (p :: rest) s =
      .ok (some (Error.errorf ("unexpected packet [" ++ toString t ++ "] from server")),
        (s.consumed rest 1).connClose) := by
  simp [receiveDataOn, ht, hk]

theorem receiveDataOn_block (P : Protocol) (p : Packet) (rest : List Packet) (s : rows)
    (t : Nat) (ht : p.tag = .ok t)
    (hk : P.case t = .data ∨ P.case t = .totals ∨ P.case t = .extremes) :
    receiveDataOn P (p :: rest) s =
      match p.block with
      | .error err => .ok (some err, s.consumed rest 2)
      | .ok block =>
        match (s.consumed rest 2).onBlock (P.case t) block with
        | .error e => .error e
        | .ok (some r, s2) => .ok (r, s2)
        | .ok (none, s2) => receiveDataOn P rest s2 := by
  rcases hk with hk | hk | hk <;> simp [receiveDataOn, ht, hk]

theorem appendEach_eq (values src : List (List Value)) : appendEach values src = values ++ src := by
  unfold appendEach
  induction src generalizing values with
  | nil => simp
  | cons x xs ih => simp [List.foldl_cons, ih]

/-- The transposition of a rectangular block by `onBlock`, when the block is
not a metadata-only block that resolves the columns. -/
theorem rows.onBlock_rect (s : rows) (c : Case) (block : Block) (h : block.Rect)
    (hm : ¬ (s.columns.length = 0 ∧ block.Columns.length ≠ 0 ∧ block.NumRows = 0)) :
    s.onBlock c block =
      .ok (if ((s.resolve block).route c block.rows).values.length ≠ 0 then some none else none,
        (s.resolve block).route c block.rows) := by
  unfold rows.onBlock
  rw [if_neg hm, convertBlockToDriverValues_rect block h]
  simp only []
  split_ifs <;> rfl

theorem rows.onBlock_meta (s : rows) (c : Case) (block : Block)
    (hm : s.columns.length = 0 ∧ block.Columns.length ≠ 0 ∧ block.NumRows = 0) :
    s.onBlock c block = .ok (some none, s.resolve block) := by
  unfold rows.onBlock
  rw [if_pos hm]

/-! ## Result sets -/

/-- C3, the code at the failing input: over `deferredWire`, after the main row
has been read (`Next` returns nil, then `io.EOF`), the first `NextResultSet`
promotes the totals row `100`; a second `NextResultSet`, called before that
row is read, returns nil and leaves the buffer `[100, 1, 9]` with the cursor at
0: the totals row stays in front of the extremes rows. -/
theorem C3_promotion_keeps_buffered_rows :
    (rows.NextN native 2 (rows.fresh deferredWire) [Value.null]).map
      (fun r =>
        (r.1.map Prod.fst,
         r.2.1.NextResultSet.2.values,
         r.2.1.NextResultSet.2.totals,
         r.2.1.NextResultSet.2.extremes,
         r.2.1.NextResultSet.2.NextResultSet.1,
         r.2.1.NextResultSet.2.NextResultSet.2.values,
         r.2.1.NextResultSet.2.NextResultSet.2.index))
    = .ok ([none, some Error.EOF],
        [[Value.int 100]],
        [],
        [[Value.int 1], [Value.int 9]],
        none,
        [[Value.int 100], [Value.int 1], [Value.int 9]],
        0) := by
  rfl

/-- C5: `NextResultSet` returns `io.EOF` exactly when `HasNextResultSet` is
false, that is when both deferred slots are empty, and then it changes
nothing; otherwise it returns nil; it never touches the connection. -/
theorem C5_nextResultSet_eof_iff (s : rows) :
    (s.NextResultSet.1 = some Error.EOF ↔ s.HasNextResultSet = false) ∧
    (s.HasNextResultSet = false ↔ s.totals = [] ∧ s.extremes = []) ∧
    (s.HasNextResultSet = false → s.NextResultSet = (some Error.EOF, s)) ∧
    (s.HasNextResultSet = true → s.NextResultSet.1 = none) ∧
    s.NextResultSet.2.ch = s.ch := by
  unfold rows.NextResultSet rows.HasNextResultSet
  by_cases ht : s.totals.length = 0 <;> by_cases he : s.extremes.length = 0 <;>
    simp [ht, he, List.length_eq_zero.mp, ← List.length_eq_zero]

/-! ## Routing of blocks -/

@[simp] theorem rows.consumed_ch (s : rows) (rest : List Packet) (n : Nat) :
    (s.consumed rest n).ch = { wire := rest, closed := s.ch.closed, reads := s.ch.reads + n } := rfl

@[simp] theorem rows.consumed_columns (s : rows) (rest : List Packet) (n : Nat) :
    (s.consumed rest n).columns = s.columns := rfl

@[simp] theorem rows.consumed_index (s : rows) (rest : List Packet) (n : Nat) :
    (s.consumed rest n).index = s.index := rfl

@[simp] theorem rows.consumed_values (s : rows) (rest : List Packet) (n : Nat) :
    (s.consumed rest n).values = s.values := rfl

@[simp] theorem rows.consumed_totals (s : rows) (rest : List Packet) (n : Nat) :
    (s.consumed rest n).totals = s.totals := rfl

@[simp] theorem rows.consumed_extremes (s : rows) (rest : List Packet) (n : Nat) :
    (s.consumed rest n).extremes = s.extremes := rfl

@[simp] theorem rows.consumed_blockColumns (s : rows) (rest : List Packet) (n : Nat) :
    (s.consumed rest n).blockColumns = s.blockColumns := rfl

@[simp] theorem rows.consumed_allDataIsReceived (s : rows) (rest : List Packet) (n : Nat) :
    (s.consumed rest n).allDataIsReceived = s.allDataIsReceived := rfl

@[simp] theorem rows.resolve_ch (s : rows) (block : Block) : (s.resolve block).ch = s.ch := by
  unfold rows.resolve; split_ifs <;> rfl

@[simp] theorem rows.resolve_index (s : rows) (block : Block) :
    (s.resolve block).index = s.index := by
  unfold rows.resolve; split_ifs <;> rfl

@[simp] theorem rows.resolve_values (s : rows) (block : Block) :
    (s.resolve block).values = s.values := by
  unfold rows.resolve; split_ifs <;> rfl

@[simp] theorem rows.resolve_totals (s : rows) (block : Block) :
    (s.resolve block).totals = s.totals := by
  unfold rows.resolve; split_ifs <;> rfl

@[simp] theorem rows.resolve_extremes (s : rows) (block : Block) :
    (s.resolve block).extremes = s.extremes := by
  unfold rows.resolve; split_ifs <;> rfl

@[simp] theorem rows.resolve_allDataIsReceived (s : rows) (block : Block) :
    (s.resolve block).allDataIsReceived = s.allDataIsReceived := by
  unfold rows.resolve; split_ifs <;> rfl

/-- C7, as the code has it: a dispatch cycle that reads a Totals (respectively
Extremes) packet whose rectangular block has the rows V, and is not a zero-row
block that resolves the column metadata, stores exactly V in the totals
(respectively extremes) slot, whatever the slot held; the other slot, the main
row buffer and the cursor are unchanged; the cycle then reads the next packet
when the main row buffer is empty, and returns nil when it is not. -/
theorem C7_deferred_block_replaces_slot (P : Protocol) (p : Packet) (rest : List Packet)
    (s : rows) (t : Nat) (block : Block)
    (hc : s.ch.closed = false) (ht : p.tag = .ok t)
    (hk : P.case t = .totals ∨ P.case t = .extremes)
    (hb : p.block = .ok block) (hr : block.Rect)
    (hm : ¬ (s.columns.length = 0 ∧ block.Columns.length ≠ 0 ∧ block.NumRows = 0)) :
    ∃ s2, (receiveDataOn P (p :: rest) s =
        if s.values.length ≠ 0 then .ok (none, s2) else receiveDataOn P rest s2) ∧
      s2.values = s.values ∧ s2.index = s.index ∧
      s2.ch = { wire := rest, closed := false, reads := s.ch.reads + 2 } ∧
      s2.allDataIsReceived = s.allDataIsReceived ∧
      (P.case t = .totals → s2.totals = block.rows ∧ s2.extremes = s.extremes) ∧
      (P.case t = .extremes → s2.extremes = block.rows ∧ s2.totals = s.totals) := by
  have hm2 : ¬ ((s.consumed rest 2).columns.length = 0 ∧ block.Columns.length ≠ 0 ∧
      block.NumRows = 0) := hm
  refine ⟨((s.consumed rest 2).resolve block).route (P.case t) block.rows, ?_, ?_⟩
  · rw [receiveDataOn_block P p rest s t ht (Or.inr hk), hb]
    simp only []
    rw [rows.onBlock_rect _ _ _ hr hm2]
    have hv : (((s.consumed rest 2).resolve block).route (P.case t) block.rows).values
        = s.values := by
      rcases hk with hk | hk <;> simp [hk, rows.route]
    rw [hv]
    by_cases h0 : s.values.length ≠ 0 <;> simp [h0]
  · rcases hk with hk | hk <;>
      simp [hk, rows.route, hc]

/-- A totals packet with the row `2` read by a stream whose totals slot holds the row `1`. -/
theorem C7_deferred_block_replaces_slot_witness :
    ∃ s2, (receiveDataOn native (twoTotalsWire.drop 1)
          { rows.fresh [] with totals := [[Value.int 1]] } =
        if ({ rows.fresh [] with totals := [[Value.int 1]] } : rows).values.length ≠ 0
        then .ok (none, s2)
        else receiveDataOn native (twoTotalsWire.drop 2) s2) ∧
      s2.values = [] ∧ s2.index = 0 ∧
      s2.ch = { wire := twoTotalsWire.drop 2, closed := false, reads := 0 + 2 } ∧
      s2.allDataIsReceived = false ∧
      (native.case 7 = .totals → s2.totals = (oneColumn [2]).rows ∧ s2.extremes = []) ∧
      (native.case 7 = .extremes → s2.extremes = (oneColumn [2]).rows ∧
        s2.totals = [[Value.int 1]]) :=
  C7_deferred_block_replaces_slot native
    { tag := .ok 7, block := .ok (oneColumn [2]) } (twoTotalsWire.drop 2)
    { rows.fresh [] with totals := [[Value.int 1]] } 7 (oneColumn [2])
    rfl rfl (by decide) rfl (by decide) (by decide)

/-- C7 as stated fails: over `twoTotalsWire` the dispatch cycle reads the
totals row `1` and then the totals row `2`, and the slot ends as `[2]`, not as
`[1, 2]`. -/
theorem C7_counterexample :
    ((rows.fresh twoTotalsWire).receiveData native).map (fun r => (r.1, r.2.totals, r.2.ch.wire))
        = .ok (none, [[Value.int 2]], []) ∧
      [[Value.int 2]] ≠ [[Value.int 1]] ++ [[Value.int 2]] := by
  constructor
  · rfl
  · decide

/-! ## Protocol desynchronisation -/

/-- C9: a dispatch cycle that reads a tag outside the seven known ones closes
the connection, reads nothing more (one decoder operation, the packets after
the tag stay on the wire) and returns the error `unexpected packet [N] from
server` with N the tag in decimal; the columns, row buffer, cursor, totals,
extremes and terminated flag are the ones it had when it read the tag. -/
theorem C9_protocol_desync (P : Protocol) (p : Packet) (rest : List Packet) (s : rows) (t : Nat)
    (ht : p.tag = .ok t)
    (hu : t ∉ [P.ServerException, P.ServerProgress, P.ServerProfileInfo, P.ServerData,
      P.ServerTotals, P.ServerExtremes, P.ServerEndOfStream]) :
    receiveDataOn P (p :: rest) s =
        .ok (some (Error.errorf ("unexpected packet [" ++ toString t ++ "] from server")),
          { s with ch := { wire := rest, closed := true, reads := s.ch.reads + 1 } }) ∧
      (s.ch.wire = p :: rest →
        s.receiveData P =
          .ok (some (Error.errorf ("unexpected packet [" ++ toString t ++ "] from server")),
            { s with ch := { wire := rest, closed := true, reads := s.ch.reads + 1 } })) := by
  have h := receiveDataOn_unexpected P p rest s t ht ((P.case_unexpected_iff t).mpr hu)
  refine ⟨h, ?_⟩
  intro hw
  unfold rows.receiveData
  rw [hw]
  exact h

/-- The tag 9 read from a fresh stream under the native tag values. -/
theorem C9_protocol_desync_witness :
    receiveDataOn native [{ tag := .ok 9 }, { tag := .ok 5 }] (rows.fresh [{ tag := .ok 9 }, { tag := .ok 5 }]) =
        .ok (some (Error.errorf "unexpected packet [9] from server"),
          { rows.fresh [] with ch := { wire := [{ tag := .ok 5 }], closed := true, reads := 1 } }) ∧
      ((rows.fresh [{ tag := .ok 9 }, { tag := .ok 5 }]).ch.wire = [{ tag := .ok 9 }, { tag := .ok 5 }] →
        (rows.fresh [{ tag := .ok 9 }, { tag := .ok 5 }]).receiveData native =
          .ok (some (Error.errorf "unexpected packet [9] from server"),
            { rows.fresh [] with ch := { wire := [{ tag := .ok 5 }], closed := true, reads := 1 } })) :=
  C9_protocol_desync native { tag := .ok 9 } [{ tag := .ok 5 }]
    (rows.fresh [{ tag := .ok 9 }, { tag := .ok 5 }]) 9 rfl (by decide)

/-! ## Dispatch cycles over a well-behaved stream -/

theorem Block.rows_width (b : Block) (C : Nat) (h : b.Rect) (hC : b.NumColumns = C) :
    ∀ row ∈ b.rows, row.length = C := by
  intro row hrow
  simp only [Block.rows, List.mem_map, List.mem_range] at hrow
  obtain ⟨r, _, rfl⟩ := hrow
  rw [Block.row_length, h.1.1, hC]

theorem Block.rows_eq_nil_iff (b : Block) : b.rows = [] ↔ b.NumRows = 0 := by
  rw [← List.length_eq_zero, Block.rows_length]

theorem receiveDataOn_sound (P : Protocol) (C : Nat) (eos : Packet) (tail : List Packet)
    (heos : eos.tag = .ok P.ServerEndOfStream) (pk : List Packet) (items : List Item)
    (hpk : List.Forall₂ (Packet.Carries P) pk items) :
    ∀ s : rows, (∀ it ∈ items, it.Sound C) → s.values = [] → s.allDataIsReceived = false →
      s.ch.closed = false →
      ∃ s1 items1, receiveDataOn P (pk ++ eos :: tail) s = .ok (none, s1) ∧
        Kept C items s items1 s1 ∧ s1.ch.wire.length < (pk ++ eos :: tail).length ∧
        (Ready P eos tail s1 items1 ∨ Finished tail s1 items1 ∨ Paused P eos tail s1 items1) := by
  induction hpk with
  | nil =>
    intro s _ hv hd hc
    refine ⟨{ s.consumed tail 1 with allDataIsReceived := true }, [], ?_, ?_, ?_, ?_⟩
    · simpa using receiveDataOn_endOfStream P eos tail s _ heos P.case_endOfStream
    · exact ⟨hc, by simp, by simp [hv], by simp [hv], rfl, rfl⟩
    · simp
    · exact Or.inr (Or.inl ⟨hv, rfl, rfl, rfl⟩)
  | @cons p a pk0 items0 hcar hrest ih =>
    intro s hs hv hd hc
    have hs0 : ∀ it ∈ items0, it.Sound C := fun it hit => hs it (List.mem_cons_of_mem _ hit)
    have ha : a.Sound C := hs a (List.mem_cons_self _ _)
    rw [List.cons_append]
    cases a with
    | progress r =>
      obtain ⟨s1, items1, h1, hk, hlen, hshape⟩ := ih (s.consumed (pk0 ++ eos :: tail) 2) hs0 hv hd hc
      refine ⟨s1, items1, ?_, ⟨hk.closed, hk.sound, hk.width, hk.main, hk.totals, hk.extremes⟩,
        ?_, hshape⟩
      · rw [receiveDataOn_progress P p _ s _ hcar.1 P.case_progress, hcar.2]
        exact h1
      · simp only [List.length_cons]; omega
    | profileInfo r =>
      obtain ⟨s1, items1, h1, hk, hlen, hshape⟩ := ih (s.consumed (pk0 ++ eos :: tail) 2) hs0 hv hd hc
      refine ⟨s1, items1, ?_, ⟨hk.closed, hk.sound, hk.width, hk.main, hk.totals, hk.extremes⟩,
        ?_, hshape⟩
      · rw [receiveDataOn_profileInfo P p _ s _ hcar.1 P.case_profileInfo, hcar.2]
        exact h1
      · simp only [List.length_cons]; omega
    | data b =>
      rw [receiveDataOn_block P p _ s _ hcar.1 (Or.inl P.case_data), hcar.2, P.case_data]
      simp only []
      by_cases hm : (s.consumed (pk0 ++ eos :: tail) 2).columns.length = 0 ∧
          b.Columns.length ≠ 0 ∧ b.NumRows = 0
      · rw [rows.onBlock_meta _ _ _ hm]
        have hb0 : b.rows = [] := b.rows_eq_nil_iff.mpr hm.2.2
        refine ⟨(s.consumed (pk0 ++ eos :: tail) 2).resolve b, items0, rfl, ?_, ?_, ?_⟩
        · exact ⟨by simp [hc], hs0, by simp [hv], by simp [hv, mainRows, hb0], by simp [lastTotals],
            by simp [lastExtremes]⟩
        · simp
        · exact Or.inr (Or.inr ⟨by simp [hv], by simp [hd], pk0, hrest, by simp⟩)
      · rw [rows.onBlock_rect _ _ _ ha.1 hm]
        by_cases hb0 : b.rows = []
        · have hv2 : (((s.consumed (pk0 ++ eos :: tail) 2).resolve b).route .data b.rows).values
              = [] := by simp [rows.route, hb0]
          simp only [hv2, List.length_nil, ne_eq, not_true_eq_false, if_false]
          obtain ⟨s1, items1, h1, hk, hlen, hshape⟩ :=
            ih (((s.consumed (pk0 ++ eos :: tail) 2).resolve b).route .data b.rows) hs0 hv2
              (by simp [rows.route, hd]) (by simp [rows.route, hc])
          refine ⟨s1, items1, h1, ⟨hk.closed, hk.sound, hk.width, ?_, ?_, ?_⟩, ?_, hshape⟩
          · simp [mainRows, hb0, hk.main]
          · simpa [lastTotals, rows.route] using hk.totals
          · simpa [lastExtremes, rows.route] using hk.extremes
          · simp only [List.length_cons]; omega
        · have hv2 : (((s.consumed (pk0 ++ eos :: tail) 2).resolve b).route .data b.rows).values
              = b.rows := by simp [rows.route]
          have hlen : b.rows.length ≠ 0 := by simpa [List.length_eq_zero] using hb0
          simp only [hv2, ne_eq, hlen, not_false_eq_true, if_true]
          refine ⟨_, items0, rfl, ⟨?_, hs0, ?_, ?_, ?_, ?_⟩, ?_, ?_⟩
          · simp [rows.route, hc]
          · rw [hv2]; exact b.rows_width C ha.1 ha.2
          · rw [hv2]; simp [mainRows]
          · simp [lastTotals, rows.route]
          · simp [lastExtremes, rows.route]
          · simp [rows.route]
          · exact Or.inl ⟨by rw [hv2]; exact hb0, by simp [rows.route], by simp [rows.route, hd],
              pk0, hrest, by simp [rows.route]⟩
    | totals b =>
      rw [receiveDataOn_block P p _ s _ hcar.1 (Or.inr (Or.inl P.case_totals)), hcar.2,
        P.case_totals]
      simp only []
      have hm : ¬ ((s.consumed (pk0 ++ eos :: tail) 2).columns.length = 0 ∧
          b.Columns.length ≠ 0 ∧ b.NumRows = 0) := by
        intro h; have := ha.2.2; omega
      rw [rows.onBlock_rect _ _ _ ha.1 hm]
      have hv2 : (((s.consumed (pk0 ++ eos :: tail) 2).resolve b).route .totals b.rows).values
          = [] := by simp [rows.route, hv]
      simp only [hv2, List.length_nil, ne_eq, not_true_eq_false, if_false]
      obtain ⟨s1, items1, h1, hk, hlen, hshape⟩ :=
        ih (((s.consumed (pk0 ++ eos :: tail) 2).resolve b).route .totals b.rows) hs0 hv2
          (by simp [rows.route, hd]) (by simp [rows.route, hc])
      refine ⟨s1, items1, h1, ⟨hk.closed, hk.sound, hk.width, ?_, ?_, ?_⟩, ?_, hshape⟩
      · simp [mainRows, hk.main]
      · simpa [lastTotals, rows.route] using hk.totals
      · simpa [lastExtremes, rows.route] using hk.extremes
      · simp only [List.length_cons]; omega
    | extremes b =>
      rw [receiveDataOn_block P p _ s _ hcar.1 (Or.inr (Or.inr P.case_extremes)), hcar.2,
        P.case_extremes]
      simp only []
      have hm : ¬ ((s.consumed (pk0 ++ eos :: tail) 2).columns.length = 0 ∧
          b.Columns.length ≠ 0 ∧ b.NumRows = 0) := by
        intro h; have := ha.2.2; omega
      rw [rows.onBlock_rect _ _ _ ha.1 hm]
      have hv2 : (((s.consumed (pk0 ++ eos :: tail) 2).resolve b).route .extremes b.rows).values
          = [] := by simp [rows.route, hv]
      simp only [hv2, List.length_nil, ne_eq, not_true_eq_false, if_false]
      obtain ⟨s1, items1, h1, hk, hlen, hshape⟩ :=
        ih (((s.consumed (pk0 ++ eos :: tail) 2).resolve b).route .extremes b.rows) hs0 hv2
          (by simp [rows.route, hd]) (by simp [rows.route, hc])
      refine ⟨s1, items1, h1, ⟨hk.closed, hk.sound, hk.width, ?_, ?_, ?_⟩, ?_, hshape⟩
      · simp [mainRows, hk.main]
      · simpa [lastTotals, rows.route] using hk.totals
      · simpa [lastExtremes, rows.route] using hk.extremes
      · simp only [List.length_cons]; omega

/-! ## The two loops of `Next` -/

theorem rows.readAhead_stop (P : Protocol) (fuel : Nat) (s : rows)
    (h : s.allDataIsReceived = true ∨ s.values ≠ []) :
    rows.readAhead P (fuel + 1) s = .ok (none, s) := by
  unfold rows.readAhead
  rcases h with h | h
  · simp [h]
  · have : s.values.length ≠ 0 := by simpa [List.length_eq_zero] using h
    simp [this]

theorem rows.readAhead_turn (P : Protocol) (fuel : Nat) (s : rows)
    (hd : s.allDataIsReceived = false) (hv : s.values = []) :
    rows.readAhead P (fuel + 1) s =
      match s.receiveData P with
      | .error e => .error e
      | .ok (some err, s1) => .ok (some err, s1)
      | .ok (none, s1) => rows.readAhead P fuel s1 := by
  rw [rows.readAhead]
  simp [hd, hv]

theorem rows.nextBegin_row (P : Protocol) (fuel : Nat) (s : rows)
    (h : s.index < s.values.length) :
    rows.nextBegin P (fuel + 1) s = .ok (none, s) := by
  unfold rows.nextBegin
  simp [Nat.not_le.mpr h]

theorem rows.nextBegin_eof (P : Protocol) (fuel : Nat) (s : rows)
    (h : s.values.length ≤ s.index) (hd : s.allDataIsReceived = true) :
    rows.nextBegin P (fuel + 1) s = .ok (some Error.EOF, s) := by
  unfold rows.nextBegin
  simp [h, hd]

theorem rows.nextBegin_turn (P : Protocol) (fuel : Nat) (s : rows)
    (h : s.values.length ≤ s.index) (hd : s.allDataIsReceived = false) :
    rows.nextBegin P (fuel + 1) s =
      match s.receiveData P with
      | .error e => .error e
      | .ok (some err, s1) => .ok (some err, s1)
      | .ok (none, s1) => rows.nextBegin P fuel s1 := by
  rw [rows.nextBegin]
  simp [h, hd]

theorem kept_trans {C : Nat} {items items1 items2 : List Item} {s s1 s2 : rows}
    (h1 : Kept C items s items1 s1) (hv : s1.values = []) (h2 : Kept C items1 s1 items2 s2) :
    Kept C items s items2 s2 :=
  ⟨h2.closed, h2.sound, h2.width, by rw [h2.main, ← h1.main, hv, List.nil_append],
    by rw [h2.totals, h1.totals], by rw [h2.extremes, h1.extremes]⟩

/-- Both loops of `Next`, started with an empty buffer on a well-behaved stream,
end on the first Data block that has rows or on the end-of-stream marker. -/
theorem fetch_sound (P : Protocol) (C : Nat) (eos : Packet) (tail : List Packet)
    (heos : eos.tag = .ok P.ServerEndOfStream) :
    ∀ (n : Nat) (pk : List Packet) (items : List Item) (s : rows) (fuel : Nat),
      pk.length < n → List.Forall₂ (Packet.Carries P) pk items → (∀ it ∈ items, it.Sound C) →
      s.values = [] → s.allDataIsReceived = false → s.ch.closed = false →
      s.ch.wire = pk ++ eos :: tail → pk.length + 2 ≤ fuel →
      ∃ s1 items1, Kept C items s items1 s1 ∧
        ((Ready P eos tail s1 items1 ∧ rows.readAhead P fuel s = .ok (none, s1) ∧
            rows.nextBegin P fuel s = .ok (none, s1)) ∨
          (Finished tail s1 items1 ∧ rows.readAhead P fuel s = .ok (none, s1) ∧
            rows.nextBegin P fuel s = .ok (some Error.EOF, s1))) := by
  intro n
  induction n with
  | zero =>
    intro pk items s fuel hn
    omega
  | succ n ih =>
    intro pk items s fuel hn hpk hs hv hd hc hw hf
    obtain ⟨f, rfl⟩ : ∃ f, fuel = f + 1 := ⟨fuel - 1, by omega⟩
    obtain ⟨g, rfl⟩ : ∃ g, f = g + 1 := ⟨f - 1, by omega⟩
    obtain ⟨s1, items1, h1, hk, hlen, hshape⟩ :=
      receiveDataOn_sound P C eos tail heos pk items hpk s hs hv hd hc
    have hrd : s.receiveData P = .ok (none, s1) := by
      unfold rows.receiveData
      rw [hw]
      exact h1
    have hle : s.values.length ≤ s.index := by simp [hv]
    rw [rows.readAhead_turn P _ s hd hv, rows.nextBegin_turn P _ s hle hd, hrd]
    simp only []
    rcases hshape with hr | hfin | hp
    · refine ⟨s1, items1, hk, Or.inl ⟨hr, rows.readAhead_stop P g s1 (Or.inr hr.1), ?_⟩⟩
      apply rows.nextBegin_row
      rw [hr.2.1]
      exact List.length_pos.mpr hr.1
    · refine ⟨s1, items1, hk, Or.inr ⟨hfin, rows.readAhead_stop P g s1 (Or.inl hfin.2.1), ?_⟩⟩
      apply rows.nextBegin_eof _ _ _ _ hfin.2.1
      simp [hfin.1]
    · obtain ⟨hv1, hd1, pk1, hpk1, hw1⟩ := hp
      have hlt : pk1.length < pk.length := by
        rw [hw1] at hlen
        simp only [List.length_append, List.length_cons] at hlen
        omega
      obtain ⟨s2, items2, hk2, hres⟩ :=
        ih pk1 items1 s1 (g + 1) (by omega) hpk1 hk.sound hv1 hd1 hk.closed hw1 (by omega)
      exact ⟨s2, items2, kept_trans hk hv1 hk2, hres⟩

/-! ## Row delivery -/

theorem copyRow_eq (row dest : List Value) (h : row.length = dest.length) :
    copyRow row dest = .ok row :=
  forAppend_eq_ok _ row dest.length h (fun i hi => sliceAt_of_lt row i hi)

theorem Streaming.of_kept {P : Protocol} {C : Nat} {eos : Packet} {tail : List Packet}
    {items items1 : List Item} {s s1 : rows} (hk : Kept C items s items1 s1)
    (hshape : Ready P eos tail s1 items1 ∨ Finished tail s1 items1) :
    Streaming P C eos tail s1 items1 ∧ pending s1 items1 = mainRows items := by
  rcases hshape with hr | hf
  · obtain ⟨hne, hi, hd, hpk⟩ := hr
    refine ⟨⟨hk.closed, hk.sound, hk.width, Or.inr ?_, Or.inl ⟨hd, hpk⟩⟩, ?_⟩
    · rw [hi]; exact List.length_pos.mpr hne
    · simp [pending, hi, hk.main]
  · obtain ⟨hv, hd, hi, _⟩ := hf
    refine ⟨⟨hk.closed, hk.sound, hk.width, Or.inl hv, Or.inr ⟨hd, hi⟩⟩, ?_⟩
    have := hk.main
    rw [hv] at this
    simp [pending, hv, this]

/-- Lines 55-67 of `Next` on a stream with a row at the cursor: the row is
delivered, and the stream is left with the remaining rows pending. -/
theorem nextRow_sound (P : Protocol) (C : Nat) (eos : Packet) (tail : List Packet)
    (heos : eos.tag = .ok P.ServerEndOfStream) (s : rows) (items : List Item)
    (dest : List Value) (hs : Streaming P C eos tail s items) (hi : s.index < s.values.length)
    (hdest : dest.length = C) :
    ∃ s1 items1 row rs, pending s items = row :: rs ∧ row.length = C ∧
      s.nextRow P dest = .ok (none, s1, row) ∧ Streaming P C eos tail s1 items1 ∧
      pending s1 items1 = rs ∧ lastTotals items1 s1.totals = lastTotals items s.totals ∧
      lastExtremes items1 s1.extremes = lastExtremes items s.extremes := by
  have hrow : (s.values[s.index]).length = C := hs.width _ (List.getElem_mem hi)
  have hp : pending s items = s.values[s.index] :: (s.values.drop (s.index + 1) ++ mainRows items) := by
    rw [pending, List.drop_eq_getElem_cons hi, List.cons_append]
  unfold rows.nextRow
  rw [sliceAt_of_lt _ _ hi]
  simp only []
  rw [copyRow_eq _ _ (by rw [hrow, hdest])]
  simp only []
  by_cases hlast : s.values.length ≤ s.index + 1
  · rw [if_pos hlast]
    have hdrop : s.values.drop (s.index + 1) = [] := List.drop_eq_nil_of_le hlast
    rcases hs.conn with ⟨hd, pk, hpk, hw⟩ | ⟨hd, hit⟩
    · have hfuel : pk.length + 2 ≤ s.ch.wire.length + 1 := by
        rw [hw, List.length_append, List.length_cons]; omega
      obtain ⟨s1, items1, hk, hres⟩ :=
        fetch_sound P C eos tail heos (pk.length + 1) pk items
          { s with index := s.index + 1, values := [] } (s.ch.wire.length + 1) (by omega) hpk
          hs.sound rfl hd hs.closed hw hfuel
      have hra : rows.readAhead P (s.ch.wire.length + 1)
          { s with index := s.index + 1, values := [] } = .ok (none, s1) := by
        rcases hres with h | h
        · exact h.2.1
        · exact h.2.1
      have hshape : Ready P eos tail s1 items1 ∨ Finished tail s1 items1 := by
        rcases hres with h | h
        · exact Or.inl h.1
        · exact Or.inr h.1
      obtain ⟨hst, hpend⟩ := Streaming.of_kept hk hshape
      refine ⟨s1, items1, s.values[s.index], mainRows items, ?_, hrow, ?_, hst, hpend,
        hk.totals, hk.extremes⟩
      · rw [hp, hdrop, List.nil_append]
      · simp only [hra]
    · subst hit
      have hra := rows.readAhead_stop P s.ch.wire.length
        { s with index := s.index + 1, values := [] } (Or.inl hd)
      refine ⟨{ s with index := s.index + 1, values := [] }, [], s.values[s.index], [], ?_, hrow,
        ?_, ?_, ?_, rfl, rfl⟩
      · rw [hp, hdrop]; simp [mainRows]
      · simp only [hra]
      · exact ⟨hs.closed, hs.sound, by simp, Or.inl rfl, Or.inr ⟨hd, rfl⟩⟩
      · simp [pending, mainRows]
  · rw [if_neg hlast]
    refine ⟨{ s with index := s.index + 1 }, items, s.values[s.index],
      s.values.drop (s.index + 1) ++ mainRows items, hp, hrow, rfl, ?_, rfl, rfl, rfl⟩
    exact ⟨hs.closed, hs.sound, hs.width, Or.inr (by simpa using hlast), hs.conn⟩

/-- One call of `Next` on a stream read over a well-behaved sequence of packets:
with no row pending it returns `io.EOF` and leaves `dest` alone, otherwise it
delivers the first pending row. -/
theorem Next_sound (P : Protocol) (C : Nat) (eos : Packet) (tail : List Packet)
    (heos : eos.tag = .ok P.ServerEndOfStream) (s : rows) (items : List Item)
    (dest : List Value) (hs : Streaming P C eos tail s items) (hdest : dest.length = C) :
    (pending s items = [] ∧ ∃ s1, s.Next P dest = .ok (some Error.EOF, s1, dest) ∧
        Streaming P C eos tail s1 [] ∧ s1.values = [] ∧ s1.allDataIsReceived = true ∧
        s1.totals = lastTotals items s.totals ∧ s1.extremes = lastExtremes items s.extremes) ∨
      (∃ s1 items1 row rs, pending s items = row :: rs ∧ row.length = C ∧
        s.Next P dest = .ok (none, s1, row) ∧ Streaming P C eos tail s1 items1 ∧
        pending s1 items1 = rs ∧ lastTotals items1 s1.totals = lastTotals items s.totals ∧
        lastExtremes items1 s1.extremes = lastExtremes items s.extremes) := by
  rcases hs.cursor with hv | hi
  · have hle : s.values.length ≤ s.index := by simp [hv]
    rcases hs.conn with ⟨hd, pk, hpk, hw⟩ | ⟨hd, hit⟩
    · have hfuel : pk.length + 2 ≤ s.ch.wire.length + 1 := by
        rw [hw, List.length_append, List.length_cons]; omega
      obtain ⟨s1, items1, hk, hres⟩ :=
        fetch_sound P C eos tail heos (pk.length + 1) pk items s (s.ch.wire.length + 1)
          (by omega) hpk hs.sound hv hd hs.closed hw hfuel
      have hpend0 : pending s items = mainRows items := by simp [pending, hv]
      rcases hres with ⟨hr, _, hnb⟩ | ⟨hf, _, hnb⟩
      · obtain ⟨hst, hpend⟩ := Streaming.of_kept hk (Or.inl hr)
        have hi1 : s1.index < s1.values.length := by
          rw [hr.2.1]; exact List.length_pos.mpr hr.1
        obtain ⟨s2, items2, row, rs, h1, h2, h3, h4, h5, h6, h7⟩ :=
          nextRow_sound P C eos tail heos s1 items1 dest hst hi1 hdest
        refine Or.inr ⟨s2, items2, row, rs, ?_, h2, ?_, h4, h5, ?_, ?_⟩
        · rw [hpend0, ← hpend, h1]
        · unfold rows.Next
          rw [hnb]
          exact h3
        · rw [h6, hk.totals]
        · rw [h7, hk.extremes]
      · obtain ⟨hst, hpend⟩ := Streaming.of_kept hk (Or.inr hf)
        have hit1 : items1 = [] := hf.2.2.1
        subst hit1
        refine Or.inl ⟨?_, s1, ?_, hst, hf.1, hf.2.1, ?_, ?_⟩
        · rw [hpend0, ← hpend]; simp [pending, hf.1, mainRows]
        · unfold rows.Next
          rw [hnb]
        · exact hk.totals
        · exact hk.extremes
    · subst hit
      refine Or.inl ⟨by simp [pending, hv, mainRows], s, ?_, hs, hv, hd, rfl, rfl⟩
      unfold rows.Next
      rw [rows.nextBegin_eof P _ s hle hd]
  · obtain ⟨s2, items2, row, rs, h1, h2, h3, h4, h5, h6, h7⟩ :=
      nextRow_sound P C eos tail heos s items dest hs hi hdest
    refine Or.inr ⟨s2, items2, row, rs, h1, h2, ?_, h4, h5, h6, h7⟩
    unfold rows.Next
    rw [rows.nextBegin_row P _ s hi]
    exact h3

/-- Repeated calls of `Next` on a stream read over a well-behaved sequence of
packets deliver the pending rows in order and then return `io.EOF`; the stream
ends terminated, with an empty buffer and with the deferred result sets of the
last Totals and Extremes blocks. -/
theorem NextN_sound (P : Protocol) (C : Nat) (eos : Packet) (tail : List Packet)
    (heos : eos.tag = .ok P.ServerEndOfStream) :
    ∀ (rs : List (List Value)) (s : rows) (items : List Item) (dest : List Value),
      Streaming P C eos tail s items → dest.length = C → pending s items = rs →
      ∃ s1, rows.NextN P (rs.length + 1) s dest =
          .ok (delivered rs ++ [(some Error.EOF, rs.getLast?.getD dest)], s1,
            rs.getLast?.getD dest) ∧
        (rs.getLast?.getD dest).length = C ∧
        Streaming P C eos tail s1 [] ∧ s1.values = [] ∧ s1.allDataIsReceived = true ∧
        s1.totals = lastTotals items s.totals ∧ s1.extremes = lastExtremes items s.extremes := by
  intro rs
  induction rs with
  | nil =>
    intro s items dest hs hdest hp
    rcases Next_sound P C eos tail heos s items dest hs hdest with
      ⟨_, s1, h1, h2, h3, h4, h5, h6⟩ | ⟨s1, items1, row, rs, h1, _⟩
    · refine ⟨s1, ?_, by simpa using hdest, h2, h3, h4, h5, h6⟩
      simp [rows.NextN, h1, delivered]
    · rw [hp] at h1; cases h1
  | cons r rs ih =>
    intro s items dest hs hdest hp
    rcases Next_sound P C eos tail heos s items dest hs hdest with
      ⟨h0, _⟩ | ⟨s1, items1, row, rs1, h1, h2, h3, h4, h5, h6, h7⟩
    · rw [hp] at h0; cases h0
    · rw [hp] at h1
      obtain ⟨rfl, rfl⟩ := List.cons.inj h1
      obtain ⟨s2, g1, g0, g2, g3, g4, g5, g6⟩ := ih s1 items1 r h4 h2 h5
      have hlast : (r :: rs).getLast?.getD dest = rs.getLast?.getD r := by
        cases rs with
        | nil => simp
        | cons a as =>
          rw [List.getLast?_cons_cons]
          simp [List.getLast?_eq_getLast _ (List.cons_ne_nil a as)]
      refine ⟨s2, ?_, by rw [hlast]; exact g0, g2, g3, g4, by rw [g5, h6], by rw [g6, h7]⟩
      rw [hlast, List.length_cons, rows.NextN, h3]
      simp only []
      rw [g1]
      simp [delivered]

/-! ## Delivery of the main result set -/

theorem Item.Main.sound {C : Nat} {it : Item} (h : it.Main C) : it.Sound C := by
  cases it <;> simp_all [Item.Main, Item.Sound]

theorem mainRows_length (items : List Item) : (mainRows items).length = rowCount items := by
  induction items with
  | nil => rfl
  | cons a rest ih => cases a <;> simp [mainRows, rowCount, ih, Block.rows_length]

theorem Streaming.fresh (P : Protocol) (C : Nat) (eos : Packet) (tail pk : List Packet)
    (items : List Item) (hpk : List.Forall₂ (Packet.Carries P) pk items)
    (hs : ∀ it ∈ items, it.Sound C) :
    Streaming P C eos tail (rows.fresh (pk ++ eos :: tail)) items :=
  ⟨rfl, hs, by simp [rows.fresh], Or.inl rfl, Or.inl ⟨rfl, pk, hpk, rfl⟩⟩

/-- C1: a fresh stream is fed informational packets and rectangular Data blocks
of `C` columns, in any interleaving, then the end-of-stream marker. With a
`dest` of length `C`, the first `r1 + ... + rn` calls of `Next` return nil and
leave in `dest` the rows of the blocks, in block order and then in row order,
and the call after them returns `io.EOF`. -/
theorem C1_main_stream_delivery (P : Protocol) (C : Nat) (pk : List Packet) (items : List Item)
    (eos : Packet) (tail : List Packet) (dest : List Value)
    (hpk : List.Forall₂ (Packet.Carries P) pk items) (hmain : ∀ it ∈ items, it.Main C)
    (heos : eos.tag = .ok P.ServerEndOfStream) (hdest : dest.length = C) :
    (mainRows items).length = rowCount items ∧
    ∃ s1, rows.NextN P (rowCount items + 1) (rows.fresh (pk ++ eos :: tail)) dest =
      .ok (delivered (mainRows items) ++
          [(some Error.EOF, (mainRows items).getLast?.getD dest)],
        s1, (mainRows items).getLast?.getD dest) := by
  refine ⟨mainRows_length items, ?_⟩
  have hs : ∀ it ∈ items, it.Sound C := fun it hit => (hmain it hit).sound
  obtain ⟨s1, h1, _⟩ :=
    NextN_sound P C eos tail heos (mainRows items) (rows.fresh (pk ++ eos :: tail)) items dest
      (Streaming.fresh P C eos tail pk items hpk hs) hdest (by simp [pending, rows.fresh])
  rw [mainRows_length] at h1
  exact ⟨s1, h1⟩

/-- The worked example: progress, the block with the rows `(1, a)` and `(2, b)`, end of stream. -/
theorem C1_main_stream_delivery_witness :
    (mainRows [.progress ⟨2, 16, 2⟩, .data exampleBlock]).length = 2 ∧
    ∃ s1, rows.NextN native 3 (rows.fresh exampleWire) [Value.null, Value.null] =
      .ok ([(none, [Value.int 1, Value.str "a"]), (none, [Value.int 2, Value.str "b"]),
          (some Error.EOF, [Value.int 2, Value.str "b"])],
        s1, [Value.int 2, Value.str "b"]) :=
  C1_main_stream_delivery native 2
    [{ tag := .ok native.ServerProgress, progress := .ok ⟨2, 16, 2⟩ },
     { tag := .ok native.ServerData, block := .ok exampleBlock }]
    [.progress ⟨2, 16, 2⟩, .data exampleBlock]
    { tag := .ok native.ServerEndOfStream } [] [Value.null, Value.null]
    (List.Forall₂.cons ⟨rfl, rfl⟩ (List.Forall₂.cons ⟨rfl, rfl⟩ List.Forall₂.nil))
    (by decide) rfl rfl

/-! ## Deferred result sets -/

theorem mainRows_append (xs ys : List Item) : mainRows (xs ++ ys) = mainRows xs ++ mainRows ys := by
  induction xs with
  | nil => rfl
  | cons a rest ih => cases a <;> simp [mainRows, ih]

theorem lastTotals_append (xs ys : List Item) (init : List (List Value)) :
    lastTotals (xs ++ ys) init = lastTotals ys (lastTotals xs init) := by
  induction xs generalizing init with
  | nil => rfl
  | cons a rest ih => cases a <;> simp [lastTotals, ih]

theorem lastExtremes_append (xs ys : List Item) (init : List (List Value)) :
    lastExtremes (xs ++ ys) init = lastExtremes ys (lastExtremes xs init) := by
  induction xs generalizing init with
  | nil => rfl
  | cons a rest ih => cases a <;> simp [lastExtremes, ih]

/-- The promotion of a non-empty totals slot on a terminated stream with an
empty buffer. -/
theorem NextResultSet_totals (P : Protocol) (C : Nat) (eos : Packet) (tail : List Packet)
    (s : rows) (hs : Streaming P C eos tail s []) (hv : s.values = [])
    (hd : s.allDataIsReceived = true) (hne : s.totals ≠ [])
    (hw : ∀ row ∈ s.totals, row.length = C) :
    s.NextResultSet.1 = none ∧ Streaming P C eos tail s.NextResultSet.2 [] ∧
      pending s.NextResultSet.2 [] = s.totals ∧ s.NextResultSet.2.totals = [] ∧
      s.NextResultSet.2.extremes = s.extremes := by
  have hl : s.totals.length ≠ 0 := by simpa [List.length_eq_zero] using hne
  unfold rows.NextResultSet
  rw [if_pos hl]
  refine ⟨rfl, ⟨hs.closed, hs.sound, ?_, Or.inr ?_, Or.inr ⟨hd, rfl⟩⟩, ?_, rfl, rfl⟩
  · simpa [appendEach_eq, hv] using hw
  · simpa [appendEach_eq, hv] using Nat.pos_of_ne_zero hl
  · simp [pending, appendEach_eq, hv, mainRows]

/-- The promotion of a non-empty extremes slot, the totals slot being empty, on
a terminated stream with an empty buffer. -/
theorem NextResultSet_extremes (P : Protocol) (C : Nat) (eos : Packet) (tail : List Packet)
    (s : rows) (hs : Streaming P C eos tail s []) (hv : s.values = [])
    (hd : s.allDataIsReceived = true) (ht : s.totals = []) (hne : s.extremes ≠ [])
    (hw : ∀ row ∈ s.extremes, row.length = C) :
    s.NextResultSet.1 = none ∧ Streaming P C eos tail s.NextResultSet.2 [] ∧
      pending s.NextResultSet.2 [] = s.extremes ∧ s.NextResultSet.2.totals = [] ∧
      s.NextResultSet.2.extremes = [] := by
  have hl : s.extremes.length ≠ 0 := by simpa [List.length_eq_zero] using hne
  have hl0 : ¬ s.totals.length ≠ 0 := by simp [ht]
  unfold rows.NextResultSet
  rw [if_neg hl0, if_pos hl]
  refine ⟨rfl, ⟨hs.closed, hs.sound, ?_, Or.inr ?_, Or.inr ⟨hd, rfl⟩⟩, ?_, ht, rfl⟩
  · simpa [appendEach_eq, hv] using hw
  · simpa [appendEach_eq, hv] using Nat.pos_of_ne_zero hl
  · simp [pending, appendEach_eq, hv, mainRows]

/-- The course of a stream whose deferred result sets are known once the main
rows are read: the main rows and `io.EOF`, the totals rows and `io.EOF` after
the first `NextResultSet`, the extremes rows and `io.EOF` after the second. -/
theorem deferred_sound (P : Protocol) (C : Nat) (eos : Packet) (tail : List Packet)
    (heos : eos.tag = .ok P.ServerEndOfStream) (pk : List Packet) (items : List Item)
    (T E : Block) (dest : List Value)
    (hpk : List.Forall₂ (Packet.Carries P) pk items) (hs : ∀ it ∈ items, it.Sound C)
    (hT : T.Rect ∧ T.NumColumns = C ∧ 1 ≤ T.NumRows)
    (hE : E.Rect ∧ E.NumColumns = C ∧ 1 ≤ E.NumRows)
    (hlt : lastTotals items [] = T.rows) (hle : lastExtremes items [] = E.rows)
    (hdest : dest.length = C) :
    ∃ s1 d1 s2 d2 s3 d3,
      rows.NextN P ((mainRows items).length + 1) (rows.fresh (pk ++ eos :: tail)) dest =
        .ok (delivered (mainRows items) ++ [(some Error.EOF, d1)], s1, d1) ∧
      s1.NextResultSet.1 = none ∧
      rows.NextN P (T.rows.length + 1) s1.NextResultSet.2 d1 =
        .ok (delivered T.rows ++ [(some Error.EOF, d2)], s2, d2) ∧
      s2.NextResultSet.1 = none ∧
      rows.NextN P (E.rows.length + 1) s2.NextResultSet.2 d2 =
        .ok (delivered E.rows ++ [(some Error.EOF, d3)], s3, d3) ∧
      s3.NextResultSet.1 = some Error.EOF := by
  have hTne : T.rows ≠ [] := by
    intro h; have := T.rows_eq_nil_iff.mp h; have := hT.2.2; omega
  have hEne : E.rows ≠ [] := by
    intro h; have := E.rows_eq_nil_iff.mp h; have := hE.2.2; omega
  obtain ⟨s1, a1, a0, a2, a3, a4, a5, a6⟩ :=
    NextN_sound P C eos tail heos (mainRows items) (rows.fresh (pk ++ eos :: tail)) items dest
      (Streaming.fresh P C eos tail pk items hpk hs) hdest (by simp [pending, rows.fresh])
  have a5 : s1.totals = T.rows := by rw [a5]; exact hlt
  have a6 : s1.extremes = E.rows := by rw [a6]; exact hle
  obtain ⟨b1, b2, b3, b4, b5⟩ :=
    NextResultSet_totals P C eos tail s1 a2 a3 a4 (by rw [a5]; exact hTne)
      (by rw [a5]; exact T.rows_width C hT.1 hT.2.1)
  rw [a5] at b3
  obtain ⟨s2, c1, c0, c2, c3, c4, c5, c6⟩ :=
    NextN_sound P C eos tail heos T.rows s1.NextResultSet.2 [] _ b2 a0 b3
  have c5 : s2.totals = [] := by rw [c5]; exact b4
  have c6 : s2.extremes = E.rows := by rw [c6]; simp only [lastExtremes]; rw [b5, a6]
  obtain ⟨e1, e2, e3, e4, e5⟩ :=
    NextResultSet_extremes P C eos tail s2 c2 c3 c4 c5 (by rw [c6]; exact hEne)
      (by rw [c6]; exact E.rows_width C hE.1 hE.2.1)
  rw [c6] at e3
  obtain ⟨s3, f1, f0, f2, f3, f4, f5, f6⟩ :=
    NextN_sound P C eos tail heos E.rows s2.NextResultSet.2 [] _ e2 c0 e3
  have f5 : s3.totals = [] := by rw [f5]; exact e4
  have f6 : s3.extremes = [] := by rw [f6]; exact e5
  refine ⟨s1, _, s2, _, s3, _, a1, b1, c1, e1, f1, ?_⟩
  simp [rows.NextResultSet, f5, f6]

theorem lastTotals_main (C : Nat) (pre : List Item) (h : ∀ it ∈ pre, it.Main C)
    (init : List (List Value)) : lastTotals pre init = init := by
  induction pre with
  | nil => rfl
  | cons a rest ih =>
    have ha := h a (List.mem_cons_self _ _)
    have hr := ih (fun it hit => h it (List.mem_cons_of_mem _ hit))
    cases a <;> simp_all [lastTotals, Item.Main]

theorem lastExtremes_main (C : Nat) (pre : List Item) (h : ∀ it ∈ pre, it.Main C)
    (init : List (List Value)) : lastExtremes pre init = init := by
  induction pre with
  | nil => rfl
  | cons a rest ih =>
    have ha := h a (List.mem_cons_self _ _)
    have hr := ih (fun it hit => h it (List.mem_cons_of_mem _ hit))
    cases a <;> simp_all [lastExtremes, Item.Main]

/-- C4: a fresh stream is fed informational packets and rectangular Data blocks
of `C` columns, then a Totals block `T` and an Extremes block `E` with at least
one row each, in either order, then the end-of-stream marker. The calls of
`Next` deliver the main rows and then return `io.EOF`; the first
`NextResultSet` returns nil and the calls of `Next` after it deliver exactly
the rows of `T` and then `io.EOF`; the second `NextResultSet` returns nil and
the calls of `Next` after it deliver exactly the rows of `E` and then `io.EOF`. -/
theorem C4_totals_before_extremes (P : Protocol) (C : Nat) (pk : List Packet) (pre : List Item)
    (ptot pext eos : Packet) (tail wire : List Packet) (T E : Block) (dest : List Value)
    (hpk : List.Forall₂ (Packet.Carries P) pk pre) (hpre : ∀ it ∈ pre, it.Main C)
    (hpt : ptot.Carries P (.totals T)) (hpe : pext.Carries P (.extremes E))
    (hT : T.Rect ∧ T.NumColumns = C ∧ 1 ≤ T.NumRows)
    (hE : E.Rect ∧ E.NumColumns = C ∧ 1 ≤ E.NumRows)
    (heos : eos.tag = .ok P.ServerEndOfStream) (hdest : dest.length = C)
    (hw : wire = pk ++ ptot :: pext :: eos :: tail ∨ wire = pk ++ pext :: ptot :: eos :: tail) :
    ∃ s1 d1 s2 d2 s3 d3,
      rows.NextN P ((mainRows pre).length + 1) (rows.fresh wire) dest =
        .ok (delivered (mainRows pre) ++ [(some Error.EOF, d1)], s1, d1) ∧
      s1.NextResultSet.1 = none ∧
      rows.NextN P (T.rows.length + 1) s1.NextResultSet.2 d1 =
        .ok (delivered T.rows ++ [(some Error.EOF, d2)], s2, d2) ∧
      s2.NextResultSet.1 = none ∧
      rows.NextN P (E.rows.length + 1) s2.NextResultSet.2 d2 =
        .ok (delivered E.rows ++ [(some Error.EOF, d3)], s3, d3) ∧
      s3.NextResultSet.1 = some Error.EOF := by
  have hpreS : ∀ it ∈ pre, it.Sound C := fun it hit => (hpre it hit).sound
  rcases hw with rfl | rfl
  · have hitems : ∀ it ∈ pre ++ [Item.totals T, Item.extremes E], it.Sound C := by
      intro it hit
      rcases List.mem_append.mp hit with h | h
      · exact hpreS it h
      · simp only [List.mem_cons, List.mem_singleton, List.not_mem_nil, or_false] at h
        rcases h with rfl | rfl
        · exact hT
        · exact hE
    have h := deferred_sound P C eos tail heos (pk ++ [ptot, pext])
      (pre ++ [Item.totals T, Item.extremes E]) T E dest
      (List.rel_append hpk (List.Forall₂.cons hpt (List.Forall₂.cons hpe List.Forall₂.nil)))
      hitems hT hE
      (by rw [lastTotals_append, lastTotals_main C pre hpre]; rfl)
      (by rw [lastExtremes_append, lastExtremes_main C pre hpre]; rfl) hdest
    simpa [mainRows_append, mainRows] using h
  · have hitems : ∀ it ∈ pre ++ [Item.extremes E, Item.totals T], it.Sound C := by
      intro it hit
      rcases List.mem_append.mp hit with h | h
      · exact hpreS it h
      · simp only [List.mem_cons, List.mem_singleton, List.not_mem_nil, or_false] at h
        rcases h with rfl | rfl
        · exact hE
        · exact hT
    have h := deferred_sound P C eos tail heos (pk ++ [pext, ptot])
      (pre ++ [Item.extremes E, Item.totals T]) T E dest
      (List.rel_append hpk (List.Forall₂.cons hpe (List.Forall₂.cons hpt List.Forall₂.nil)))
      hitems hT hE
      (by rw [lastTotals_append, lastTotals_main C pre hpre]; rfl)
      (by rw [lastExtremes_append, lastExtremes_main C pre hpre]; rfl) hdest
    simpa [mainRows_append, mainRows] using h

/-- The query of `extremesFirstWire`: the extremes rows `1` and `9` arrive before
the totals row `100`, and the totals row is still delivered first. -/
theorem C4_totals_before_extremes_witness :
    ∃ s1 d1 s2 d2 s3 d3,
      rows.NextN native 2 (rows.fresh extremesFirstWire) [Value.null] =
        .ok ([(none, [Value.int 10]), (some Error.EOF, d1)], s1, d1) ∧
      s1.NextResultSet.1 = none ∧
      rows.NextN native 2 s1.NextResultSet.2 d1 =
        .ok ([(none, [Value.int 100]), (some Error.EOF, d2)], s2, d2) ∧
      s2.NextResultSet.1 = none ∧
      rows.NextN native 3 s2.NextResultSet.2 d2 =
        .ok ([(none, [Value.int 1]), (none, [Value.int 9]), (some Error.EOF, d3)], s3, d3) ∧
      s3.NextResultSet.1 = some Error.EOF :=
  C4_totals_before_extremes native 1
    [{ tag := .ok native.ServerData, block := .ok (oneColumn [10]) }]
    [.data (oneColumn [10])]
    { tag := .ok native.ServerTotals, block := .ok (oneColumn [100]) }
    { tag := .ok native.ServerExtremes, block := .ok (oneColumn [1, 9]) }
    { tag := .ok native.ServerEndOfStream } [] extremesFirstWire
    (oneColumn [100]) (oneColumn [1, 9]) [Value.null]
    (List.Forall₂.cons ⟨rfl, rfl⟩ List.Forall₂.nil) (by decide) ⟨rfl, rfl⟩ ⟨rfl, rfl⟩
    (by decide) (by decide) rfl rfl (Or.inr rfl)

/-! ## The postcondition of a dispatch cycle -/

theorem rows.resolve_columns_nil (s : rows) (block : Block)
    (h : (s.resolve block).columns = []) : s.columns = [] := by
  unfold rows.resolve at h
  split_ifs at h with hc
  · exfalso
    have h1 : block.Columns = [] := by simpa [Block.ColumnNames] using h
    exact hc.2 (by simp [h1])
  · exact h

theorem rows.resolve_first (s : rows) (block : Block) (h1 : s.columns.length = 0)
    (h2 : block.Columns.length ≠ 0) :
    (s.resolve block).columns = block.ColumnNames ∧
      (s.resolve block).blockColumns = block.Columns := by
  unfold rows.resolve
  rw [if_pos ⟨h1, h2⟩]
  exact ⟨rfl, rfl⟩

theorem rows.route_columns (s : rows) (c : Case) (values : List (List Value)) :
    (s.route c values).columns = s.columns := by
  cases c <;> rfl

theorem rows.route_values_deferred (s : rows) (c : Case) (values : List (List Value))
    (hc : c ≠ .data) : (s.route c values).values = s.values := by
  cases c <;> first | rfl | exact absurd rfl hc

theorem receiveDataOn_post (P : Protocol) :
    ∀ (wire : List Packet) (s : rows), s.values = [] →
      (∀ p ∈ wire, ∀ b, p.block = .ok b → b.Rect) →
      (∃ err s1, receiveDataOn P wire s = .ok (some err, s1)) ∨
      (∃ s1 consumed last, receiveDataOn P wire s = .ok (none, s1) ∧
        wire = consumed ++ last :: s1.ch.wire ∧
        (PostRows P last s1 ∨ PostEnd P last s1 ∨ PostMeta P s last s1)) := by
  intro wire
  induction wire with
  | nil =>
    intro s _ _
    exact Or.inl ⟨_, _, rfl⟩
  | cons p rest ih =>
    intro s hv hr
    have hr0 : ∀ q ∈ rest, ∀ b, q.block = .ok b → b.Rect :=
      fun q hq => hr q (List.mem_cons_of_mem _ hq)
    have lift : ∀ s2 : rows, s2.values = [] → (s2.columns = [] → s.columns = []) →
        ∀ r, receiveDataOn P rest s2 = r →
        (∃ err s1, r = .ok (some err, s1)) ∨
        (∃ s1 consumed last, r = .ok (none, s1) ∧
          p :: rest = consumed ++ last :: s1.ch.wire ∧
          (PostRows P last s1 ∨ PostEnd P last s1 ∨ PostMeta P s last s1)) := by
      intro s2 hv2 hcol r hrr
      rcases ih s2 hv2 hr0 with ⟨err, s1, h1⟩ | ⟨s1, consumed, last, h1, h2, h3⟩
      · exact Or.inl ⟨err, s1, by rw [← hrr, h1]⟩
      · refine Or.inr ⟨s1, p :: consumed, last, by rw [← hrr, h1], by rw [h2]; rfl, ?_⟩
        rcases h3 with h | h | ⟨t, b, g1, g2, g3, g4, g5, g6, g7⟩
        · exact Or.inl h
        · exact Or.inr (Or.inl h)
        · exact Or.inr (Or.inr ⟨t, b, g1, g2, g3, g4, g5, hcol g6, g7⟩)
    cases ht : p.tag with
    | error err => exact Or.inl ⟨_, _, receiveDataOn_tagError P p rest s err ht⟩
    | ok t =>
      have hblock : (P.case t = .data ∨ P.case t = .totals ∨ P.case t = .extremes) →
          ((∃ err s1, receiveDataOn P (p :: rest) s = .ok (some err, s1)) ∨
          (∃ s1 consumed last, receiveDataOn P (p :: rest) s = .ok (none, s1) ∧
            p :: rest = consumed ++ last :: s1.ch.wire ∧
            (PostRows P last s1 ∨ PostEnd P last s1 ∨ PostMeta P s last s1))) := by
        intro hk3
        rw [receiveDataOn_block P p rest s t ht hk3]
        cases hb : p.block with
        | error err => exact Or.inl ⟨_, _, rfl⟩
        | ok b =>
          have hrect : b.Rect := hr p (List.mem_cons_self _ _) b hb
          simp only []
          by_cases hm : (s.consumed rest 2).columns.length = 0 ∧ b.Columns.length ≠ 0 ∧
              b.NumRows = 0
          · rw [rows.onBlock_meta _ _ _ hm]
            refine Or.inr ⟨_, [], p, rfl, by simp, Or.inr (Or.inr ⟨t, b, ht, hk3, hb, ?_, hm.2.2,
              ?_, ?_, ?_, by simp [hv]⟩)⟩
            · intro h; exact hm.2.1 (by simp [h])
            · exact List.length_eq_zero.mp hm.1
            · exact (rows.resolve_first _ b hm.1 hm.2.1).1
            · exact (rows.resolve_first _ b hm.1 hm.2.1).2
          · rw [rows.onBlock_rect _ _ _ hrect hm]
            by_cases hv2 : (((s.consumed rest 2).resolve b).route (P.case t) b.rows).values.length
                ≠ 0
            · rw [if_pos hv2]
              have hd : P.case t = .data := by
                by_contra hne
                rw [rows.route_values_deferred _ _ _ hne] at hv2
                simp [hv] at hv2
              refine Or.inr ⟨_, [], p, rfl, ?_, Or.inl ⟨?_, b, hb, ?_, ?_, ?_⟩⟩
              · rw [hd]; simp [rows.route]
              · rw [ht, ((P.case_eq_iff t).2.2.2.1).mp hd]
              · rw [hd]; simp [rows.route]
              · intro h; rw [h] at hv2; simp at hv2
              · rw [hd]; simp [rows.route]
            · rw [if_neg hv2]
              have hv3 : (((s.consumed rest 2).resolve b).route (P.case t) b.rows).values = [] := by
                simpa [List.length_eq_zero] using hv2
              refine lift _ hv3 ?_ _ rfl
              intro hcol
              rw [rows.route_columns] at hcol
              exact rows.resolve_columns_nil (s.consumed rest 2) b hcol
      cases hk : P.case t with
      | exception => exact Or.inl ⟨_, _, receiveDataOn_exception P p rest s t ht hk⟩
      | progress =>
        rw [receiveDataOn_progress P p rest s t ht hk]
        cases p.progress with
        | error err => exact Or.inl ⟨_, _, rfl⟩
        | ok r => exact lift (s.consumed rest 2) hv id _ rfl
      | profileInfo =>
        rw [receiveDataOn_profileInfo P p rest s t ht hk]
        cases p.profileInfo with
        | error err => exact Or.inl ⟨_, _, rfl⟩
        | ok r => exact lift (s.consumed rest 2) hv id _ rfl
      | endOfStream =>
        refine Or.inr ⟨_, [], p, receiveDataOn_endOfStream P p rest s t ht hk, rfl, ?_⟩
        exact Or.inr (Or.inl ⟨by rw [ht, ((P.case_eq_iff t).2.2.2.2.2.2).mp hk], rfl⟩)
      | unexpected => exact Or.inl ⟨_, _, receiveDataOn_unexpected P p rest s t ht hk⟩
      | data => exact hblock (Or.inl hk)
      | totals => exact hblock (Or.inr (Or.inl hk))
      | extremes => exact hblock (Or.inr (Or.inr hk))

theorem postRows_not_end {P : Protocol} {last : Packet} {s1 : rows} (h : PostRows P last s1) :
    ¬ PostEnd P last s1 := by
  intro h2
  have := h.1.symm.trans h2.1
  exact P.ne.2.2.2.2.2.2.2.2.2.2.2.2.2.2.2.2.2.1 (Except.ok.inj this)

theorem postRows_not_meta {P : Protocol} {s : rows} {last : Packet} {s1 : rows}
    (h : PostRows P last s1) : ¬ PostMeta P s last s1 := by
  rintro ⟨t, b, _, _, _, _, _, _, _, _, hv⟩
  obtain ⟨_, _, _, _, hne, _⟩ := h
  exact hne hv

theorem postEnd_not_meta {P : Protocol} {s : rows} {last : Packet} {s1 : rows}
    (h : PostEnd P last s1) : ¬ PostMeta P s last s1 := by
  rintro ⟨t, b, ht, hk, _⟩
  have : t = P.ServerEndOfStream := (Except.ok.inj (ht.symm.trans h.1))
  subst this
  rw [P.case_endOfStream] at hk
  rcases hk with hk | hk | hk <;> cases hk

/-- C8: a dispatch cycle started with an empty row buffer, on a connection whose
decoded blocks are rectangular, either returns a non-nil error or returns nil
with exactly one of: (a) the last packet read is a Data packet, the buffer holds
the rows of its block, not empty, and the cursor is 0; (b) the last packet read
is the end-of-stream marker and the stream is terminated; (c) the last packet
read carries a block with at least one column and no row, which resolved the
column names in this call. -/
theorem C8_dispatch_postcondition (P : Protocol) (s : rows) (hv : s.values = [])
    (hr : ∀ p ∈ s.ch.wire, p.Rect) :
    (∃ err s1, s.receiveData P = .ok (some err, s1)) ∨
    (∃ s1 consumed last, s.receiveData P = .ok (none, s1) ∧
      s.ch.wire = consumed ++ last :: s1.ch.wire ∧
      ((PostRows P last s1 ∧ ¬ PostEnd P last s1 ∧ ¬ PostMeta P s last s1) ∨
        (¬ PostRows P last s1 ∧ PostEnd P last s1 ∧ ¬ PostMeta P s last s1) ∨
        (¬ PostRows P last s1 ∧ ¬ PostEnd P last s1 ∧ PostMeta P s last s1))) := by
  rcases receiveDataOn_post P s.ch.wire s hv hr with h | ⟨s1, consumed, last, h1, h2, h3⟩
  · exact Or.inl h
  · refine Or.inr ⟨s1, consumed, last, h1, h2, ?_⟩
    rcases h3 with h | h | h
    · exact Or.inl ⟨h, postRows_not_end h, postRows_not_meta h⟩
    · exact Or.inr (Or.inl ⟨fun h0 => postRows_not_end h0 h, h, postEnd_not_meta h⟩)
    · exact Or.inr (Or.inr ⟨fun h0 => postRows_not_meta h0 h, fun h0 => postEnd_not_meta h0 h, h⟩)

/-- A dispatch cycle on the fresh stream of the worked example. -/
theorem C8_dispatch_postcondition_witness :
    (∃ err s1, (rows.fresh exampleWire).receiveData native = .ok (some err, s1)) ∨
    (∃ s1 consumed last, (rows.fresh exampleWire).receiveData native = .ok (none, s1) ∧
      (rows.fresh exampleWire).ch.wire = consumed ++ last :: s1.ch.wire ∧
      ((PostRows native last s1 ∧ ¬ PostEnd native last s1 ∧
          ¬ PostMeta native (rows.fresh exampleWire) last s1) ∨
        (¬ PostRows native last s1 ∧ PostEnd native last s1 ∧
          ¬ PostMeta native (rows.fresh exampleWire) last s1) ∨
        (¬ PostRows native last s1 ∧ ¬ PostEnd native last s1 ∧
          PostMeta native (rows.fresh exampleWire) last s1))) :=
  C8_dispatch_postcondition native (rows.fresh exampleWire) rfl (by decide)

/-! ## The panics of slice indexing -/

theorem sliceAt_error {α : Type} (xs : List α) (i : Nat) (e : Fault)
    (h : sliceAt xs i = .error e) : e = .indexOutOfRange := by
  unfold sliceAt at h
  split at h
  · cases h
  · cases h; rfl

theorem forAppend_error {α : Type} (f : Nat → Except Fault α)
    (hf : ∀ i e, f i = .error e → e = .indexOutOfRange) :
    ∀ n e, forAppend f n = .error e → e = .indexOutOfRange := by
  intro n
  induction n with
  | zero => intro e h; cases h
  | succ n ih =>
    intro e h
    unfold forAppend at h
    cases h1 : forAppend f n with
    | error e1 =>
      rw [h1] at h
      cases h
      exact ih _ h1
    | ok acc =>
      rw [h1] at h
      cases h2 : f n with
      | error e2 =>
        rw [h2] at h
        cases h
        exact hf _ _ h2
      | ok x =>
        rw [h2] at h
        cases h

/-! ## The life of the deferred slots -/

theorem rows.onBlock_ok (s : rows) (c : Case) (block : Block) (x : Option (Option Error))
    (s2 : rows) (h : s.onBlock c block = .ok (x, s2)) :
    s2.ch = s.ch ∧ (c ≠ .totals → s2.totals = s.totals) ∧
      (c ≠ .extremes → s2.extremes = s.extremes) := by
  unfold rows.onBlock at h
  split_ifs at h with hm
  · cases h
    simp
  · cases hconv : convertBlockToDriverValues block with
    | error e => rw [hconv] at h; cases h
    | ok values =>
      rw [hconv] at h
      simp only [] at h
      have hs2 : s2 = (s.resolve block).route c values := by
        split_ifs at h <;> (cases h; rfl)
      subst hs2
      cases c <;> simp [rows.route]

theorem receiveDataOn_untouched (P : Protocol) :
    ∀ (wire : List Packet) (s : rows) (r : Option Error) (s1 : rows),
      receiveDataOn P wire s = .ok (r, s1) →
      ∃ consumed, wire = consumed ++ s1.ch.wire ∧ (r = none → consumed ≠ []) ∧
        ((∀ p ∈ consumed, ¬ p.Deferred P) → s1.totals = s.totals ∧ s1.extremes = s.extremes) := by
  intro wire
  induction wire with
  | nil =>
    intro s r s1 h
    simp only [receiveDataOn] at h
    cases h
    exact ⟨[], rfl, (by intro h; cases h), fun _ => ⟨rfl, rfl⟩⟩
  | cons p rest ih =>
    intro s r s1 h
    have lift : ∀ s2 : rows, ((¬ p.Deferred P) → s2.totals = s.totals ∧ s2.extremes = s.extremes) →
        receiveDataOn P rest s2 = .ok (r, s1) →
        ∃ consumed, p :: rest = consumed ++ s1.ch.wire ∧ (r = none → consumed ≠ []) ∧
          ((∀ q ∈ consumed, ¬ q.Deferred P) →
            s1.totals = s.totals ∧ s1.extremes = s.extremes) := by
      intro s2 h2 hrec
      obtain ⟨consumed, g1, _, g3⟩ := ih s2 r s1 hrec
      refine ⟨p :: consumed, by rw [g1]; rfl, fun _ => by simp, ?_⟩
      intro hall
      have hp := h2 (hall p (List.mem_cons_self _ _))
      have hc := g3 (fun q hq => hall q (List.mem_cons_of_mem _ hq))
      exact ⟨hc.1.trans hp.1, hc.2.trans hp.2⟩
    cases ht : p.tag with
    | error err =>
      rw [receiveDataOn_tagError P p rest s err ht] at h
      cases h
      exact ⟨[p], rfl, fun _ => by simp, fun _ => ⟨rfl, rfl⟩⟩
    | ok t =>
      have hblock : (P.case t = .data ∨ P.case t = .totals ∨ P.case t = .extremes) →
          ∃ consumed, p :: rest = consumed ++ s1.ch.wire ∧ (r = none → consumed ≠ []) ∧
            ((∀ q ∈ consumed, ¬ q.Deferred P) →
              s1.totals = s.totals ∧ s1.extremes = s.extremes) := by
        intro hk3
        rw [receiveDataOn_block P p rest s t ht hk3] at h
        have hdef : (¬ p.Deferred P) → P.case t ≠ .totals ∧ P.case t ≠ .extremes := by
          intro hnd
          constructor
          · intro hk
            exact hnd (Or.inl (by rw [ht, ((P.case_eq_iff t).2.2.2.2.1).mp hk]))
          · intro hk
            exact hnd (Or.inr (by rw [ht, ((P.case_eq_iff t).2.2.2.2.2.1).mp hk]))
        cases hb : p.block with
        | error err =>
          rw [hb] at h
          cases h
          exact ⟨[p], rfl, fun _ => by simp, fun _ => ⟨rfl, rfl⟩⟩
        | ok b =>
          rw [hb] at h
          simp only [] at h
          cases hob : (s.consumed rest 2).onBlock (P.case t) b with
          | error e => rw [hob] at h; cases h
          | ok res =>
            obtain ⟨x, s2⟩ := res
            obtain ⟨f1, f2, f3⟩ := rows.onBlock_ok _ _ _ _ _ hob
            have hkeep : (¬ p.Deferred P) → s2.totals = s.totals ∧ s2.extremes = s.extremes :=
              fun hnd => ⟨f2 (hdef hnd).1, f3 (hdef hnd).2⟩
            rw [hob] at h
            cases x with
            | some r0 =>
              simp only [] at h
              cases h
              refine ⟨[p], by simp [f1], fun _ => by simp, ?_⟩
              intro hall
              exact hkeep (hall p (List.mem_singleton_self p))
            | none =>
              simp only [] at h
              exact lift s2 hkeep h
      cases hk : P.case t with
      | exception =>
        rw [receiveDataOn_exception P p rest s t ht hk] at h
        cases h
        exact ⟨[p], rfl, fun _ => by simp, fun _ => ⟨rfl, rfl⟩⟩
      | progress =>
        rw [receiveDataOn_progress P p rest s t ht hk] at h
        cases hp : p.progress with
        | error err =>
          rw [hp] at h
          cases h
          exact ⟨[p], rfl, fun _ => by simp, fun _ => ⟨rfl, rfl⟩⟩
        | ok v =>
          rw [hp] at h
          exact lift (s.consumed rest 2) (fun _ => ⟨rfl, rfl⟩) h
      | profileInfo =>
        rw [receiveDataOn_profileInfo P p rest s t ht hk] at h
        cases hp : p.profileInfo with
        | error err =>
          rw [hp] at h
          cases h
          exact ⟨[p], rfl, fun _ => by simp, fun _ => ⟨rfl, rfl⟩⟩
        | ok v =>
          rw [hp] at h
          exact lift (s.consumed rest 2) (fun _ => ⟨rfl, rfl⟩) h
      | endOfStream =>
        rw [receiveDataOn_endOfStream P p rest s t ht hk] at h
        cases h
        exact ⟨[p], rfl, fun _ => by simp, fun _ => ⟨rfl, rfl⟩⟩
      | unexpected =>
        rw [receiveDataOn_unexpected P p rest s t ht hk] at h
        cases h
        exact ⟨[p], rfl, fun _ => by simp, fun _ => ⟨rfl, rfl⟩⟩
      | data => exact hblock (Or.inl hk)
      | totals => exact hblock (Or.inr (Or.inl hk))
      | extremes => exact hblock (Or.inr (Or.inr hk))

theorem Untouched.of_eq (P : Protocol) {s s1 : rows} (h1 : s1.ch.wire = s.ch.wire)
    (h2 : s1.totals = s.totals) (h3 : s1.extremes = s.extremes) : Untouched P s s1 :=
  ⟨[], by simp [h1], fun _ => ⟨h2, h3⟩⟩

theorem untouched_trans {P : Protocol} {s s1 s2 : rows} (h1 : Untouched P s s1)
    (h2 : Untouched P s1 s2) : Untouched P s s2 := by
  obtain ⟨c1, a1, a2⟩ := h1
  obtain ⟨c2, b1, b2⟩ := h2
  refine ⟨c1 ++ c2, by rw [a1, b1, List.append_assoc], ?_⟩
  intro hall
  have ha := a2 (fun p hp => hall p (List.mem_append_left _ hp))
  have hb := b2 (fun p hp => hall p (List.mem_append_right _ hp))
  exact ⟨hb.1.trans ha.1, hb.2.trans ha.2⟩

theorem rows.receiveData_untouched (P : Protocol) (s : rows) (r : Option Error) (s1 : rows)
    (h : s.receiveData P = .ok (r, s1)) :
    Untouched P s s1 ∧ (r = none → s1.ch.wire.length < s.ch.wire.length) := by
  obtain ⟨consumed, h1, h2, h3⟩ := receiveDataOn_untouched P s.ch.wire s r s1 h
  refine ⟨⟨consumed, h1, h3⟩, ?_⟩
  intro hr
  have hne := h2 hr
  have hlen : 0 < consumed.length := List.length_pos.mpr hne
  have := congrArg List.length h1
  rw [List.length_append] at this
  omega

theorem rows.nextBegin_untouched (P : Protocol) :
    ∀ (fuel : Nat) (s : rows) (r : Option Error) (s1 : rows),
      rows.nextBegin P fuel s = .ok (r, s1) → Untouched P s s1 := by
  intro fuel
  induction fuel with
  | zero => intro s r s1 h; cases h
  | succ fuel ih =>
    intro s r s1 h
    unfold rows.nextBegin at h
    split_ifs at h with h1 h2
    · cases h; exact Untouched.of_eq P rfl rfl rfl
    · cases hrd : s.receiveData P with
      | error e => rw [hrd] at h; cases h
      | ok res =>
        obtain ⟨r0, s2⟩ := res
        rw [hrd] at h
        have hu := (rows.receiveData_untouched P s r0 s2 hrd).1
        cases r0 with
        | some err => cases h; exact hu
        | none => exact untouched_trans hu (ih s2 r s1 h)
    · cases h; exact Untouched.of_eq P rfl rfl rfl

theorem rows.readAhead_untouched (P : Protocol) :
    ∀ (fuel : Nat) (s : rows) (r : Option Error) (s1 : rows),
      rows.readAhead P fuel s = .ok (r, s1) → Untouched P s s1 := by
  intro fuel
  induction fuel with
  | zero => intro s r s1 h; cases h
  | succ fuel ih =>
    intro s r s1 h
    unfold rows.readAhead at h
    split_ifs at h with h1
    · cases hrd : s.receiveData P with
      | error e => rw [hrd] at h; cases h
      | ok res =>
        obtain ⟨r0, s2⟩ := res
        rw [hrd] at h
        have hu := (rows.receiveData_untouched P s r0 s2 hrd).1
        cases r0 with
        | some err => cases h; exact hu
        | none => exact untouched_trans hu (ih s2 r s1 h)
    · cases h; exact Untouched.of_eq P rfl rfl rfl

theorem rows.nextRow_untouched (P : Protocol) (s : rows) (dest : List Value) (r : Option Error)
    (s1 : rows) (d1 : List Value) (h : s.nextRow P dest = .ok (r, s1, d1)) :
    Untouched P s s1 := by
  unfold rows.nextRow at h
  cases h1 : sliceAt s.values s.index with
  | error e => rw [h1] at h; cases h
  | ok row =>
    rw [h1] at h
    simp only [] at h
    cases h2 : copyRow row dest with
    | error e => rw [h2] at h; cases h
    | ok dest1 =>
      rw [h2] at h
      simp only [] at h
      split_ifs at h with hlast
      · cases h3 : rows.readAhead P (s.ch.wire.length + 1)
            { s with index := s.index + 1, values := [] } with
        | error e => rw [h3] at h; cases h
        | ok res =>
          obtain ⟨r0, s3⟩ := res
          rw [h3] at h
          have hu : Untouched P s s3 :=
            untouched_trans
              (Untouched.of_eq P rfl rfl rfl :
                Untouched P s { s with index := s.index + 1, values := [] })
              (rows.readAhead_untouched P _ _ r0 s3 h3)
          cases r0 with
          | some err => cases h; exact hu
          | none => cases h; exact hu
      · cases h; exact Untouched.of_eq P rfl rfl rfl

theorem rows.Next_untouched (P : Protocol) (s : rows) (dest : List Value) (r : Option Error)
    (s1 : rows) (d1 : List Value) (h : s.Next P dest = .ok (r, s1, d1)) :
    Untouched P s s1 := by
  unfold rows.Next at h
  cases h1 : rows.nextBegin P (s.ch.wire.length + 1) s with
  | error e => rw [h1] at h; cases h
  | ok res =>
    obtain ⟨r0, s2⟩ := res
    rw [h1] at h
    have hu := rows.nextBegin_untouched P _ s r0 s2 h1
    cases r0 with
    | some err => cases h; exact hu
    | none => exact untouched_trans hu (rows.nextRow_untouched P s2 dest r s1 d1 h)

theorem rows.Columns_untouched (P : Protocol) (s : rows) (cols : List String) (s1 : rows)
    (h : s.Columns P = .ok (cols, s1)) : Untouched P s s1 := by
  unfold rows.Columns at h
  split_ifs at h with h0
  · cases hrd : s.receiveData P with
    | error e => rw [hrd] at h; cases h
    | ok res =>
      obtain ⟨r0, s2⟩ := res
      rw [hrd] at h
      cases h
      exact (rows.receiveData_untouched P s r0 s1 hrd).1
  · cases h; exact Untouched.of_eq P rfl rfl rfl

theorem rows.calls_untouched (P : Protocol) :
    ∀ (cs : List Call) (s s1 : rows), s.calls P cs = .ok s1 → Untouched P s s1 := by
  intro cs
  induction cs with
  | nil => intro s s1 h; cases h; exact Untouched.of_eq P rfl rfl rfl
  | cons c cs ih =>
    intro s s1 h
    unfold rows.calls at h
    cases hc : s.call P c with
    | error e => rw [hc] at h; cases h
    | ok s2 =>
      rw [hc] at h
      refine untouched_trans ?_ (ih s2 s1 h)
      cases c with
      | columns =>
        simp only [rows.call] at hc
        cases h1 : s.Columns P with
        | error e => rw [h1] at hc; cases hc
        | ok res =>
          obtain ⟨cols, s3⟩ := res
          rw [h1] at hc
          cases hc
          exact rows.Columns_untouched P s cols s2 h1
      | next dest =>
        simp only [rows.call] at hc
        cases h1 : s.Next P dest with
        | error e => rw [h1] at hc; cases hc
        | ok res =>
          obtain ⟨r, s3, d1⟩ := res
          rw [h1] at hc
          cases hc
          exact rows.Next_untouched P s dest r s2 d1 h1

theorem rows.HasNextResultSet_iff (s : rows) :
    s.HasNextResultSet = true ↔ s.totals ≠ [] ∨ s.extremes ≠ [] := by
  unfold rows.HasNextResultSet
  simp [List.length_eq_zero]

theorem rows.HasNextResultSet_false_iff (s : rows) :
    s.HasNextResultSet = false ↔ s.totals = [] ∧ s.extremes = [] := by
  unfold rows.HasNextResultSet
  simp [List.length_eq_zero]

/-- C6, as the code has it. (1) From a fresh stream, after any calls of `Columns`
and `Next`, `HasNextResultSet` is false if none of the packets read so far is a
Totals or Extremes packet. (2) A dispatch cycle that reads a Totals or Extremes
packet whose rectangular block has at least one row leaves `HasNextResultSet`
true, unless it goes on to read another Totals or Extremes packet. (3) Once
true, it stays true over calls of `Columns` and `Next` that read no Totals or
Extremes packet. (4) After two calls of `NextResultSet` it is false. -/
theorem C6_hasNextResultSet_lifecycle (P : Protocol) :
    (∀ (wire : List Packet) (cs : List Call) (s1 : rows),
      (rows.fresh wire).calls P cs = .ok s1 →
      ∃ consumed, wire = consumed ++ s1.ch.wire ∧
        ((∀ p ∈ consumed, ¬ p.Deferred P) → s1.HasNextResultSet = false)) ∧
    (∀ (s : rows) (p : Packet) (rest : List Packet) (t : Nat) (b : Block) (r : Option Error)
      (s1 : rows), s.ch.closed = false → p.tag = .ok t →
      (P.case t = .totals ∨ P.case t = .extremes) → p.block = .ok b → b.Rect →
      1 ≤ b.NumRows → receiveDataOn P (p :: rest) s = .ok (r, s1) →
      ∃ consumed, rest = consumed ++ s1.ch.wire ∧
        ((∀ q ∈ consumed, ¬ q.Deferred P) → s1.HasNextResultSet = true)) ∧
    (∀ (s : rows) (cs : List Call) (s1 : rows), s.HasNextResultSet = true →
      s.calls P cs = .ok s1 →
      ∃ consumed, s.ch.wire = consumed ++ s1.ch.wire ∧
        ((∀ p ∈ consumed, ¬ p.Deferred P) → s1.HasNextResultSet = true)) ∧
    (∀ s : rows, s.NextResultSet.2.NextResultSet.2.HasNextResultSet = false) := by
  refine ⟨?_, ?_, ?_, ?_⟩
  · intro wire cs s1 h
    obtain ⟨consumed, h1, h2⟩ := rows.calls_untouched P cs _ s1 h
    refine ⟨consumed, h1, fun hall => ?_⟩
    rw [rows.HasNextResultSet_false_iff]
    exact h2 hall
  · intro s p rest t b r s1 hc ht hk hb hrect hrows h
    have hm : ¬ ((s.consumed rest 2).columns.length = 0 ∧ b.Columns.length ≠ 0 ∧
        b.NumRows = 0) := by
      intro hm; omega
    have hbne : b.rows ≠ [] := by
      intro h0; have := b.rows_eq_nil_iff.mp h0; omega
    rw [receiveDataOn_block P p rest s t ht (Or.inr hk), hb] at h
    simp only [] at h
    rw [rows.onBlock_rect _ _ _ hrect hm] at h
    have hhas : (((s.consumed rest 2).resolve b).route (P.case t) b.rows).HasNextResultSet
        = true := by
      rw [rows.HasNextResultSet_iff]
      rcases hk with hk | hk
      · left; rw [hk]; simpa [rows.route] using hbne
      · right; rw [hk]; simpa [rows.route] using hbne
    have hwire : (((s.consumed rest 2).resolve b).route (P.case t) b.rows).ch.wire = rest := by
      rcases hk with hk | hk <;> (rw [hk]; simp [rows.route])
    split_ifs at h with hv
    · cases h
      exact ⟨[], by simp [hwire], fun _ => hhas⟩
    · simp only [] at h
      obtain ⟨consumed, g1, _, g3⟩ := receiveDataOn_untouched P rest _ r s1 h
      refine ⟨consumed, g1, fun hall => ?_⟩
      rw [rows.HasNextResultSet_iff] at hhas ⊢
      obtain ⟨e1, e2⟩ := g3 hall
      rw [e1, e2]
      exact hhas
  · intro s cs s1 hhas h
    obtain ⟨consumed, h1, h2⟩ := rows.calls_untouched P cs s s1 h
    refine ⟨consumed, h1, fun hall => ?_⟩
    rw [rows.HasNextResultSet_iff] at hhas ⊢
    obtain ⟨e1, e2⟩ := h2 hall
    rw [e1, e2]
    exact hhas
  · intro s
    rw [rows.HasNextResultSet_false_iff]
    unfold rows.NextResultSet
    by_cases ht : s.totals.length = 0 <;> by_cases he : s.extremes.length = 0 <;>
      simp [ht, he, List.length_eq_zero.mp]

/-- C6 as stated fails: over `emptyTotalsWire` two calls of `Next` deliver the
main row and `io.EOF`; by then every packet has been read, the Totals packet
included, `NextResultSet` has not been called, and `HasNextResultSet` is false. -/
theorem C6_counterexample :
    (rows.NextN native 2 (rows.fresh emptyTotalsWire) [Value.null]).map
        (fun r => (r.1.map Prod.fst, r.2.1.ch.wire.length, r.2.1.HasNextResultSet))
      = .ok ([none, some Error.EOF], 0, false) := by
  rfl

/-! ## The recursion bound of `Next` is never used up -/

theorem forAppend_fault {α : Type} (f : Nat → Except Fault α) (Q : Fault → Prop)
    (hf : ∀ i e, f i = .error e → Q e) :
    ∀ n e, forAppend f n = .error e → Q e := by
  intro n
  induction n with
  | zero => intro e h; cases h
  | succ n ih =>
    intro e h
    unfold forAppend at h
    cases h1 : forAppend f n with
    | error e1 =>
      rw [h1] at h
      cases h
      exact ih _ h1
    | ok acc =>
      rw [h1] at h
      cases h2 : f n with
      | error e2 =>
        rw [h2] at h
        cases h
        exact hf _ _ h2
      | ok x =>
        rw [h2] at h
        cases h

theorem make_fault (size : Nat) (n : Int) (e : Fault) (h : make size n = .error e) :
    e = .capOutOfRange := by
  unfold make at h
  split_ifs at h
  cases h
  rfl

theorem convertBlockToDriverValues_error (block : Block) (e : Fault)
    (h : convertBlockToDriverValues block = .error e) : e ≠ .outOfFuel := by
  unfold convertBlockToDriverValues at h
  cases hm : make 24 (int block.NumRows) with
  | error e0 =>
    rw [hm] at h
    cases h
    rw [make_fault _ _ _ hm]
    intro h0
    cases h0
  | ok u =>
    rw [hm] at h
    simp only [] at h
    refine forAppend_fault _ (fun e => e ≠ .outOfFuel) ?_ _ e h
    intro r e1 h1
    cases hm2 : make 16 (block.NumColumns : Int) with
    | error e0 =>
      rw [hm2] at h1
      cases h1
      rw [make_fault _ _ _ hm2]
      intro h0
      cases h0
    | ok u2 =>
      rw [hm2] at h1
      simp only [] at h1
      refine forAppend_fault _ (fun e => e ≠ .outOfFuel) ?_ _ e1 h1
      intro c e2 h2
      cases h3 : sliceAt block.Values c with
      | error e3 =>
        rw [h3] at h2
        cases h2
        rw [sliceAt_error _ _ _ h3]
        intro h0
        cases h0
      | ok col =>
        rw [h3] at h2
        rw [sliceAt_error _ _ _ h2]
        intro h0
        cases h0

theorem rows.onBlock_error (s : rows) (c : Case) (block : Block) (e : Fault)
    (h : s.onBlock c block = .error e) : e ≠ .outOfFuel := by
  unfold rows.onBlock at h
  split_ifs at h
  cases hconv : convertBlockToDriverValues block with
  | error e1 =>
    rw [hconv] at h
    cases h
    exact convertBlockToDriverValues_error block _ hconv
  | ok values =>
    rw [hconv] at h
    simp only [] at h
    split_ifs at h

theorem receiveDataOn_error (P : Protocol) :
    ∀ (wire : List Packet) (s : rows) (e : Fault),
      receiveDataOn P wire s = .error e → e ≠ .outOfFuel := by
  intro wire
  induction wire with
  | nil => intro s e h; simp [receiveDataOn] at h
  | cons p rest ih =>
    intro s e h
    cases ht : p.tag with
    | error err => rw [receiveDataOn_tagError P p rest s err ht] at h; cases h
    | ok t =>
      have hblock : (P.case t = .data ∨ P.case t = .totals ∨ P.case t = .extremes) →
          e ≠ .outOfFuel := by
        intro hk3
        rw [receiveDataOn_block P p rest s t ht hk3] at h
        cases hb : p.block with
        | error err => rw [hb] at h; cases h
        | ok b =>
          rw [hb] at h
          simp only [] at h
          cases hob : (s.consumed rest 2).onBlock (P.case t) b with
          | error e1 =>
            rw [hob] at h
            cases h
            exact rows.onBlock_error _ _ _ _ hob
          | ok res =>
            obtain ⟨x, s2⟩ := res
            rw [hob] at h
            cases x with
            | some r0 => cases h
            | none => exact ih s2 e h
      cases hk : P.case t with
      | exception => rw [receiveDataOn_exception P p rest s t ht hk] at h; cases h
      | progress =>
        rw [receiveDataOn_progress P p rest s t ht hk] at h
        cases hp : p.progress with
        | error err => rw [hp] at h; cases h
        | ok v => rw [hp] at h; exact ih _ e h
      | profileInfo =>
        rw [receiveDataOn_profileInfo P p rest s t ht hk] at h
        cases hp : p.profileInfo with
        | error err => rw [hp] at h; cases h
        | ok v => rw [hp] at h; exact ih _ e h
      | endOfStream => rw [receiveDataOn_endOfStream P p rest s t ht hk] at h; cases h
      | unexpected => rw [receiveDataOn_unexpected P p rest s t ht hk] at h; cases h
      | data => exact hblock (Or.inl hk)
      | totals => exact hblock (Or.inr (Or.inl hk))
      | extremes => exact hblock (Or.inr (Or.inr hk))

theorem rows.nextBegin_fuel (P : Protocol) :
    ∀ (fuel : Nat) (s : rows), s.ch.wire.length < fuel →
      rows.nextBegin P fuel s ≠ .error .outOfFuel := by
  intro fuel
  induction fuel with
  | zero => intro s h; omega
  | succ fuel ih =>
    intro s hlen h
    unfold rows.nextBegin at h
    split_ifs at h with h1 h2
    cases hrd : s.receiveData P with
    | error e =>
      rw [hrd] at h
      cases h
      exact receiveDataOn_error P _ s _ hrd rfl
    | ok res =>
      obtain ⟨r0, s2⟩ := res
      rw [hrd] at h
      cases r0 with
      | some err => cases h
      | none =>
        have := (rows.receiveData_untouched P s none s2 hrd).2 rfl
        exact ih s2 (by omega) h

theorem rows.readAhead_fuel (P : Protocol) :
    ∀ (fuel : Nat) (s : rows), s.ch.wire.length < fuel →
      rows.readAhead P fuel s ≠ .error .outOfFuel := by
  intro fuel
  induction fuel with
  | zero => intro s h; omega
  | succ fuel ih =>
    intro s hlen h
    unfold rows.readAhead at h
    split_ifs at h with h1
    cases hrd : s.receiveData P with
    | error e =>
      rw [hrd] at h
      cases h
      exact receiveDataOn_error P _ s _ hrd rfl
    | ok res =>
      obtain ⟨r0, s2⟩ := res
      rw [hrd] at h
      cases r0 with
      | some err => cases h
      | none =>
        have := (rows.receiveData_untouched P s none s2 hrd).2 rfl
        exact ih s2 (by omega) h

/-- The recursion bound that `Next` gives to its two loops is enough: `Next`
returns, or panics as the Go code does, for every stream and every `dest`. -/
theorem rows.Next_ne_outOfFuel (P : Protocol) (s : rows) (dest : List Value) :
    s.Next P dest ≠ .error .outOfFuel := by
  intro h
  unfold rows.Next at h
  cases h1 : rows.nextBegin P (s.ch.wire.length + 1) s with
  | error e =>
    rw [h1] at h
    cases h
    exact rows.nextBegin_fuel P _ s (by omega) h1
  | ok res =>
    obtain ⟨r0, s2⟩ := res
    rw [h1] at h
    cases r0 with
    | some err => cases h
    | none =>
      simp only [] at h
      unfold rows.nextRow at h
      cases h2 : sliceAt s2.values s2.index with
      | error e =>
        rw [h2] at h
        cases h
        have := sliceAt_error _ _ _ h2
        cases this
      | ok row =>
        rw [h2] at h
        simp only [] at h
        cases h3 : copyRow row dest with
        | error e =>
          rw [h3] at h
          cases h
          have := forAppend_error _ (fun i e1 h => sliceAt_error _ i e1 h) _ _ h3
          cases this
        | ok dest1 =>
          rw [h3] at h
          simp only [] at h
          split_ifs at h with hlast
          cases h4 : rows.readAhead P (s2.ch.wire.length + 1)
              { s2 with index := s2.index + 1, values := [] } with
          | error e =>
            rw [h4] at h
            cases h
            exact rows.readAhead_fuel P _ { s2 with index := s2.index + 1, values := [] }
              (Nat.lt_succ_self _) h4
          | ok res =>
            obtain ⟨r1, s3⟩ := res
            rw [h4] at h
            cases r1 <;> cases h

/-! ## An induction principle for the dispatch cycle -/

/-- The outcomes of `onBlock` are `some none` (the cycle returns nil) and `none`
(the loop goes on); the connection is not touched. -/
theorem rows.onBlock_some (s : rows) (c : Case) (block : Block) (r0 : Option Error)
    (s2 : rows) (h : s.onBlock c block = .ok (some r0, s2)) : r0 = none := by
  unfold rows.onBlock at h
  split_ifs at h with hm
  · cases h; rfl
  · cases hconv : convertBlockToDriverValues block with
    | error e => rw [hconv] at h; cases h
    | ok values =>
      rw [hconv] at h
      simp only [] at h
      split_ifs at h <;> cases h
      rfl

/-- To show `M s r s1` for every dispatch cycle that takes the stream `s` to `s1`
and returns `r`, it is enough to show it for each way the cycle can return and
to carry it back over each packet that the loop passes. -/
theorem receiveDataOn_cases (P : Protocol) (M : rows → Option Error → rows → Prop)
    (ret_error : ∀ (s : rows) (rest : List Packet) (n : Nat) (e : Error), 0 < n →
      M s (some e) (s.consumed rest n))
    (ret_close : ∀ (s : rows) (rest : List Packet) (e : Error),
      M s (some e) (s.consumed rest 1).connClose)
    (ret_eos : ∀ (s : rows) (rest : List Packet),
      M s none { s.consumed rest 1 with allDataIsReceived := true })
    (ret_block : ∀ (s : rows) (rest : List Packet) (c : Case) (b : Block) (s2 : rows),
      (c = .data ∨ c = .totals ∨ c = .extremes) →
      (s.consumed rest 2).onBlock c b = .ok (some none, s2) → M s none s2)
    (step_info : ∀ (s : rows) (rest : List Packet) (r : Option Error) (s1 : rows),
      M (s.consumed rest 2) r s1 → M s r s1)
    (step_block : ∀ (s : rows) (rest : List Packet) (c : Case) (b : Block) (s2 : rows)
      (r : Option Error) (s1 : rows), (c = .data ∨ c = .totals ∨ c = .extremes) →
      (s.consumed rest 2).onBlock c b = .ok (none, s2) → M s2 r s1 → M s r s1) :
    ∀ (wire : List Packet) (s : rows) (r : Option Error) (s1 : rows),
      receiveDataOn P wire s = .ok (r, s1) → M s r s1 := by
  intro wire
  induction wire with
  | nil =>
    intro s r s1 h
    simp only [receiveDataOn] at h
    cases h
    exact ret_error s [] 1 _ (by omega)
  | cons p rest ih =>
    intro s r s1 h
    cases ht : p.tag with
    | error err =>
      rw [receiveDataOn_tagError P p rest s err ht] at h
      cases h
      exact ret_error s rest 1 err (by omega)
    | ok t =>
      have hblock : (P.case t = .data ∨ P.case t = .totals ∨ P.case t = .extremes) →
          M s r s1 := by
        intro hk3
        rw [receiveDataOn_block P p rest s t ht hk3] at h
        cases hb : p.block with
        | error err =>
          rw [hb] at h
          cases h
          exact ret_error s rest 2 err (by omega)
        | ok b =>
          rw [hb] at h
          simp only [] at h
          cases hob : (s.consumed rest 2).onBlock (P.case t) b with
          | error e => rw [hob] at h; cases h
          | ok res =>
            obtain ⟨x, s2⟩ := res
            rw [hob] at h
            cases x with
            | some r0 =>
              simp only [] at h
              cases h
              have := rows.onBlock_some _ _ _ _ _ hob
              subst this
              exact ret_block s rest _ b s1 hk3 hob
            | none =>
              simp only [] at h
              exact step_block s rest _ b s2 r s1 hk3 hob (ih s2 r s1 h)
      cases hk : P.case t with
      | exception =>
        rw [receiveDataOn_exception P p rest s t ht hk] at h
        cases h
        exact ret_error s rest 2 _ (by omega)
      | progress =>
        rw [receiveDataOn_progress P p rest s t ht hk] at h
        cases hp : p.progress with
        | error err =>
          rw [hp] at h
          cases h
          exact ret_error s rest 2 err (by omega)
        | ok v =>
          rw [hp] at h
          exact step_info s rest r s1 (ih _ r s1 h)
      | profileInfo =>
        rw [receiveDataOn_profileInfo P p rest s t ht hk] at h
        cases hp : p.profileInfo with
        | error err =>
          rw [hp] at h
          cases h
          exact ret_error s rest 2 err (by omega)
        | ok v =>
          rw [hp] at h
          exact step_info s rest r s1 (ih _ r s1 h)
      | endOfStream =>
        rw [receiveDataOn_endOfStream P p rest s t ht hk] at h
        cases h
        exact ret_eos s rest
      | unexpected =>
        rw [receiveDataOn_unexpected P p rest s t ht hk] at h
        cases h
        exact ret_close s rest _
      | data => exact hblock (Or.inl hk)
      | totals => exact hblock (Or.inr (Or.inl hk))
      | extremes => exact hblock (Or.inr (Or.inr hk))

/-- What holds of every dispatch cycle and is kept when cycles follow one
another holds of the `begin:` loop of `Next`. -/
theorem rows.nextBegin_cases (P : Protocol) (R : rows → rows → Prop)
    (refl : ∀ s, R s s) (trans : ∀ a b c, R a b → R b c → R a c)
    (cycle : ∀ (s : rows) (r : Option Error) (s1 : rows), s.receiveData P = .ok (r, s1) → R s s1) :
    ∀ (fuel : Nat) (s : rows) (r : Option Error) (s1 : rows),
      rows.nextBegin P fuel s = .ok (r, s1) → R s s1 := by
  intro fuel
  induction fuel with
  | zero => intro s r s1 h; cases h
  | succ fuel ih =>
    intro s r s1 h
    unfold rows.nextBegin at h
    split_ifs at h with h1 h2
    · cases h; exact refl s
    · cases hrd : s.receiveData P with
      | error e => rw [hrd] at h; cases h
      | ok res =>
        obtain ⟨r0, s2⟩ := res
        rw [hrd] at h
        cases r0 with
        | some err => cases h; exact cycle s _ _ hrd
        | none => exact trans _ _ _ (cycle s _ _ hrd) (ih s2 r s1 h)
    · cases h; exact refl s

/-- What holds of every dispatch cycle and is kept when cycles follow one
another holds of the read-ahead loop of `Next`. -/
theorem rows.readAhead_cases (P : Protocol) (R : rows → rows → Prop)
    (refl : ∀ s, R s s) (trans : ∀ a b c, R a b → R b c → R a c)
    (cycle : ∀ (s : rows) (r : Option Error) (s1 : rows), s.receiveData P = .ok (r, s1) → R s s1) :
    ∀ (fuel : Nat) (s : rows) (r : Option Error) (s1 : rows),
      rows.readAhead P fuel s = .ok (r, s1) → R s s1 := by
  intro fuel
  induction fuel with
  | zero => intro s r s1 h; cases h
  | succ fuel ih =>
    intro s r s1 h
    unfold rows.readAhead at h
    split_ifs at h with h1
    · cases hrd : s.receiveData P with
      | error e => rw [hrd] at h; cases h
      | ok res =>
        obtain ⟨r0, s2⟩ := res
        rw [hrd] at h
        cases r0 with
        | some err => cases h; exact cycle s _ _ hrd
        | none => exact trans _ _ _ (cycle s _ _ hrd) (ih s2 r s1 h)
    · cases h; exact refl s

/-! ## The cursor and the row buffer -/

theorem rows.onBlock_cursorOk (s : rows) (c : Case) (block : Block) (x : Option (Option Error))
    (s2 : rows) (h : s.onBlock c block = .ok (x, s2)) (hs : s.CursorOk) : s2.CursorOk := by
  unfold rows.onBlock at h
  split_ifs at h with hm
  · cases h
    unfold rows.CursorOk at hs ⊢
    simpa using hs
  · cases hconv : convertBlockToDriverValues block with
    | error e => rw [hconv] at h; cases h
    | ok values =>
      rw [hconv] at h
      simp only [] at h
      have hs2 : s2 = (s.resolve block).route c values := by
        split_ifs at h <;> (cases h; rfl)
      subst hs2
      unfold rows.CursorOk at hs ⊢
      cases c <;> simp only [rows.route, rows.resolve_values, rows.resolve_index] <;>
        first
          | exact hs
          | (cases values with
             | nil => exact Or.inl rfl
             | cons v vs => exact Or.inr (by simp))

theorem rows.onBlock_none_values (s : rows) (c : Case) (block : Block) (s2 : rows)
    (h : s.onBlock c block = .ok (none, s2)) : s2.values = [] := by
  unfold rows.onBlock at h
  split_ifs at h with hm
  · cases h
  · cases hconv : convertBlockToDriverValues block with
    | error e => rw [hconv] at h; cases h
    | ok values =>
      rw [hconv] at h
      simp only [] at h
      split_ifs at h with hv
      · cases h
      · cases h
        simpa [List.length_eq_zero] using hv

theorem receiveDataOn_cursorOk (P : Protocol) (wire : List Packet) (s : rows)
    (r : Option Error) (s1 : rows) (h : receiveDataOn P wire s = .ok (r, s1))
    (hs : s.CursorOk) : s1.CursorOk := by
  refine receiveDataOn_cases P (fun s _ s1 => s.CursorOk → s1.CursorOk)
    ?_ ?_ ?_ ?_ ?_ ?_ wire s r s1 h hs
  · intro s rest n e _ hs; exact hs
  · intro s rest e hs; exact hs
  · intro s rest hs; exact hs
  · intro s rest c b s2 _ hob hs
    exact rows.onBlock_cursorOk _ c b _ s2 hob hs
  · intro s rest r s1 ih hs; exact ih hs
  · intro s rest c b s2 r s1 _ hob ih hs
    exact ih (rows.onBlock_cursorOk _ c b _ s2 hob hs)

theorem rows.readAhead_cursorOk (P : Protocol) (fuel : Nat) (s : rows) (r : Option Error)
    (s1 : rows) (h : rows.readAhead P fuel s = .ok (r, s1)) (hs : s.CursorOk) : s1.CursorOk :=
  rows.readAhead_cases P (fun s s1 => s.CursorOk → s1.CursorOk) (fun _ h => h)
    (fun _ _ _ h1 h2 h => h2 (h1 h))
    (fun s r s1 h => receiveDataOn_cursorOk P _ s r s1 h) fuel s r s1 h hs

theorem rows.nextBegin_cursorOk (P : Protocol) (fuel : Nat) (s : rows) (r : Option Error)
    (s1 : rows) (h : rows.nextBegin P fuel s = .ok (r, s1)) (hs : s.CursorOk) : s1.CursorOk :=
  rows.nextBegin_cases P (fun s s1 => s.CursorOk → s1.CursorOk) (fun _ h => h)
    (fun _ _ _ h1 h2 h => h2 (h1 h))
    (fun s r s1 h => receiveDataOn_cursorOk P _ s r s1 h) fuel s r s1 h hs

/-- Whatever `nextRow` returns, it leaves the cursor on a buffered row or the
buffer empty. -/
theorem rows.nextRow_cursorOk (P : Protocol) (s : rows) (dest : List Value) (r : Option Error)
    (s1 : rows) (d1 : List Value) (h : s.nextRow P dest = .ok (r, s1, d1)) : s1.CursorOk := by
  unfold rows.nextRow at h
  cases h1 : sliceAt s.values s.index with
  | error e => rw [h1] at h; cases h
  | ok row =>
    rw [h1] at h
    simp only [] at h
    cases h2 : copyRow row dest with
    | error e => rw [h2] at h; cases h
    | ok dest1 =>
      rw [h2] at h
      simp only [] at h
      split_ifs at h with hlast
      · cases h3 : rows.readAhead P (s.ch.wire.length + 1)
            { s with index := s.index + 1, values := [] } with
        | error e => rw [h3] at h; cases h
        | ok res =>
          obtain ⟨r0, s3⟩ := res
          rw [h3] at h
          have hc : s3.CursorOk := rows.readAhead_cursorOk P _ _ r0 s3 h3 (Or.inl rfl)
          cases r0 with
          | some err => cases h; exact hc
          | none => cases h; exact hc
      · cases h
        exact Or.inr (by simpa using hlast)

theorem rows.Next_cursorOk (P : Protocol) (s : rows) (dest : List Value) (r : Option Error)
    (s1 : rows) (d1 : List Value) (h : s.Next P dest = .ok (r, s1, d1)) (hs : s.CursorOk) :
    s1.CursorOk := by
  unfold rows.Next at h
  cases h1 : rows.nextBegin P (s.ch.wire.length + 1) s with
  | error e => rw [h1] at h; cases h
  | ok res =>
    obtain ⟨r0, s2⟩ := res
    rw [h1] at h
    have hc := rows.nextBegin_cursorOk P _ s r0 s2 h1 hs
    cases r0 with
    | some err => cases h; exact hc
    | none => exact rows.nextRow_cursorOk P s2 dest r s1 d1 h

theorem rows.Columns_cursorOk (P : Protocol) (s : rows) (cols : List String) (s1 : rows)
    (h : s.Columns P = .ok (cols, s1)) (hs : s.CursorOk) : s1.CursorOk := by
  unfold rows.Columns at h
  split_ifs at h with h0
  · cases hrd : s.receiveData P with
    | error e => rw [hrd] at h; cases h
    | ok res =>
      obtain ⟨r0, s2⟩ := res
      rw [hrd] at h
      cases h
      exact receiveDataOn_cursorOk P _ s r0 s1 hrd hs
  · cases h; exact hs

theorem rows.NextResultSet_cursorOk (s : rows) (hs : s.CursorOk) :
    s.NextResultSet.2.CursorOk := by
  unfold rows.NextResultSet
  split_ifs with h1 h2
  · right
    simp only [appendEach_eq, List.length_append]
    omega
  · right
    simp only [appendEach_eq, List.length_append]
    omega
  · exact hs

theorem rows.op_cursorOk (P : Protocol) (s : rows) (o : Op) (s1 : rows)
    (h : s.op P o = .ok s1) (hs : s.CursorOk) : s1.CursorOk := by
  cases o with
  | columns =>
    simp only [rows.op] at h
    cases h1 : s.Columns P with
    | error e => rw [h1] at h; cases h
    | ok res =>
      obtain ⟨cols, s2⟩ := res
      rw [h1] at h
      cases h
      exact rows.Columns_cursorOk P s cols s1 h1 hs
  | next dest =>
    simp only [rows.op] at h
    cases h1 : s.Next P dest with
    | error e => rw [h1] at h; cases h
    | ok res =>
      obtain ⟨r, s2, d1⟩ := res
      rw [h1] at h
      cases h
      exact rows.Next_cursorOk P s dest r s1 d1 h1 hs
  | hasNextResultSet => simp only [rows.op] at h; cases h; exact hs
  | nextResultSet => simp only [rows.op] at h; cases h; exact rows.NextResultSet_cursorOk s hs
  | close => simp only [rows.op] at h; cases h; exact hs

theorem rows.ops_cursorOk (P : Protocol) :
    ∀ (os : List Op) (s s1 : rows), s.ops P os = .ok s1 → s.CursorOk → s1.CursorOk := by
  intro os
  induction os with
  | nil => intro s s1 h hs; cases h; exact hs
  | cons o os ih =>
    intro s s1 h hs
    unfold rows.ops at h
    cases ho : s.op P o with
    | error e => rw [ho] at h; cases h
    | ok s2 =>
      rw [ho] at h
      exact ih s2 s1 h (rows.op_cursorOk P s o s2 ho hs)

/-- C18, as the code has it: in every state reached from a fresh stream by calls
of `Columns`, `Next`, `HasNextResultSet`, `NextResultSet` and `Close`, the row
buffer is empty or the cursor is strictly below the number of buffered rows. -/
theorem C18_cursor_invariant (P : Protocol) (wire : List Packet) (os : List Op) (s1 : rows)
    (h : (rows.fresh wire).ops P os = .ok s1) :
    s1.values = [] ∨ s1.index < s1.values.length :=
  rows.ops_cursorOk P os (rows.fresh wire) s1 h (Or.inl rfl)

/-- The five operations called over the stream of the worked example. -/
theorem C18_cursor_invariant_witness :
    ∃ s1, (rows.fresh exampleWire).ops native
        [.columns, .next [Value.null, Value.null], .hasNextResultSet, .nextResultSet, .close]
        = .ok s1 ∧
      (s1.values = [] ∨ s1.index < s1.values.length) :=
  ⟨_, rfl, C18_cursor_invariant native exampleWire
    [.columns, .next [Value.null, Value.null], .hasNextResultSet, .nextResultSet, .close] _ rfl⟩

/-- C18 as stated fails: after the two rows of the worked example have been
read, the buffer has been cleared and the cursor is still 2, which is more than
the number of buffered rows. -/
theorem C18_counterexample :
    ((rows.fresh exampleWire).ops native
        [.next [Value.null, Value.null], .next [Value.null, Value.null]]).map
        (fun s => (s.index, s.values.length)) = .ok (2, 0) ∧
      ¬ (2 ≤ 0) := by
  constructor
  · rfl
  · decide

/-! ## The read-ahead of `Next` -/

theorem rows.readAhead_exit (P : Protocol) :
    ∀ (fuel : Nat) (s s1 : rows), rows.readAhead P fuel s = .ok (none, s1) →
      s1.allDataIsReceived = true ∨ s1.values ≠ [] := by
  intro fuel
  induction fuel with
  | zero => intro s s1 h; cases h
  | succ fuel ih =>
    intro s s1 h
    unfold rows.readAhead at h
    split_ifs at h with h1
    · cases hrd : s.receiveData P with
      | error e => rw [hrd] at h; cases h
      | ok res =>
        obtain ⟨r0, s2⟩ := res
        rw [hrd] at h
        cases r0 with
        | some err => cases h
        | none => exact ih s2 s1 h
    · cases h
      simp only [Bool.not_eq_true', Bool.not_eq_false, Bool.or_eq_true, bne_iff_ne, ne_eq,
        Bool.not_eq_true] at h1
      by_cases hd : s.allDataIsReceived = true
      · exact Or.inl hd
      · right
        intro hv
        simp [hv] at h1
        exact hd h1

/-- The row at the cursor copied by `nextRow`, when no read-ahead runs or the
stream is terminated: the connection is not touched. -/
theorem rows.nextRow_quiet (P : Protocol) (s : rows) (dest : List Value) (r : Option Error)
    (s1 : rows) (d1 : List Value) (hq : s.index + 1 < s.values.length ∨ s.allDataIsReceived = true)
    (h : s.nextRow P dest = .ok (r, s1, d1)) :
    r = none ∧ s1.ch = s.ch ∧ ∃ row, sliceAt s.values s.index = .ok row ∧ copyRow row dest = .ok d1 := by
  unfold rows.nextRow at h
  cases h1 : sliceAt s.values s.index with
  | error e => rw [h1] at h; cases h
  | ok row =>
    rw [h1] at h
    simp only [] at h
    cases h2 : copyRow row dest with
    | error e => rw [h2] at h; cases h
    | ok dest1 =>
      rw [h2] at h
      simp only [] at h
      split_ifs at h with hlast
      · have hd : s.allDataIsReceived = true := by
          rcases hq with hq | hq
          · omega
          · exact hq
        rw [rows.readAhead_stop P _ { s with index := s.index + 1, values := [] } (Or.inl hd)]
          at h
        cases h
        exact ⟨rfl, rfl, row, rfl, h2⟩
      · cases h
        exact ⟨rfl, rfl, row, rfl, h2⟩

/-- C19, as the code has it. (1) Whenever `Next` returns nil, a row is ready at
the cursor or the stream is terminated. (2) On a terminated stream with no row
at the cursor `Next` returns `io.EOF` and changes nothing. (3) With a row at the
cursor `Next` starts no dispatch cycle before it copies the row. (4) When that
row is not the last buffered one, or the stream is terminated, `Next` returns
nil with the row copied and does not touch the connection; otherwise it runs
the read-ahead after the copy and returns what the read-ahead returns. -/
theorem C19_read_ahead_postcondition (P : Protocol) :
    (∀ (s : rows) (dest : List Value) (s1 : rows) (d1 : List Value),
      s.Next P dest = .ok (none, s1, d1) →
      s1.index < s1.values.length ∨ s1.allDataIsReceived = true) ∧
    (∀ (s : rows) (dest : List Value), s.values.length ≤ s.index →
      s.allDataIsReceived = true → s.Next P dest = .ok (some Error.EOF, s, dest)) ∧
    (∀ (s : rows) (dest : List Value), s.index < s.values.length →
      s.Next P dest = s.nextRow P dest) ∧
    (∀ (s : rows) (dest : List Value) (r : Option Error) (s1 : rows) (d1 : List Value),
      s.index < s.values.length →
      (s.index + 1 < s.values.length ∨ s.allDataIsReceived = true) →
      s.Next P dest = .ok (r, s1, d1) →
      r = none ∧ s1.ch = s.ch ∧
        ∃ row, sliceAt s.values s.index = .ok row ∧ copyRow row dest = .ok d1) := by
  have h3 : ∀ (s : rows) (dest : List Value), s.index < s.values.length →
      s.Next P dest = s.nextRow P dest := by
    intro s dest hi
    unfold rows.Next
    rw [rows.nextBegin_row P _ s hi]
  refine ⟨?_, ?_, h3, ?_⟩
  · intro s dest s1 d1 h
    unfold rows.Next at h
    cases h1 : rows.nextBegin P (s.ch.wire.length + 1) s with
    | error e => rw [h1] at h; cases h
    | ok res =>
      obtain ⟨r0, s2⟩ := res
      rw [h1] at h
      cases r0 with
      | some err => cases h
      | none =>
        simp only [] at h
        have hc := rows.nextRow_cursorOk P s2 dest none s1 d1 h
        unfold rows.nextRow at h
        cases h2 : sliceAt s2.values s2.index with
        | error e => rw [h2] at h; cases h
        | ok row =>
          rw [h2] at h
          simp only [] at h
          cases h4 : copyRow row dest with
          | error e => rw [h4] at h; cases h
          | ok dest1 =>
            rw [h4] at h
            simp only [] at h
            split_ifs at h with hlast
            · cases h5 : rows.readAhead P (s2.ch.wire.length + 1)
                  { s2 with index := s2.index + 1, values := [] } with
              | error e => rw [h5] at h; cases h
              | ok res =>
                obtain ⟨r1, s3⟩ := res
                rw [h5] at h
                cases r1 with
                | some err => cases h
                | none =>
                  cases h
                  rcases rows.readAhead_exit P _ _ _ h5 with hd | hv
                  · exact Or.inr hd
                  · rcases hc with hc | hc
                    · exact absurd hc hv
                    · exact Or.inl hc
            · cases h
              exact Or.inl (by simpa using hlast)
  · intro s dest hle hd
    unfold rows.Next
    rw [rows.nextBegin_eof P _ s hle hd]
  · intro s dest r s1 d1 hi hq h
    rw [h3 s dest hi] at h
    exact rows.nextRow_quiet P s dest r s1 d1 hq h

/-- C19 as stated fails: over `exceptionWire` the first `Next` returns nil with
the row `10` and leaves the row `20` ready at the cursor, the stream not being
terminated; the following `Next` copies `20`, reads on (two more decoder
operations) and returns the server exception, not a row. -/
theorem C19_counterexample :
    (rows.NextN native 1 (rows.fresh exceptionWire) [Value.null]).map
        (fun r => (r.1, r.2.1.index, r.2.1.values.length, r.2.1.allDataIsReceived,
          r.2.1.ch.reads))
      = .ok ([(none, [Value.int 10])], 1, 2, false, 2) ∧
    (rows.NextN native 2 (rows.fresh exceptionWire) [Value.null]).map
        (fun r => (r.1, r.2.1.ch.reads))
      = .ok ([(none, [Value.int 10]),
          (some (Error.exception 60 "Table does not exist"), [Value.int 20])], 4) := by
  constructor
  · rfl
  · rfl

theorem receiveDataOn_error_values (P : Protocol) (wire : List Packet) (s : rows) (err : Error)
    (s1 : rows) (h : receiveDataOn P wire s = .ok (some err, s1)) (hv : s.values = []) :
    s1.values = [] := by
  refine receiveDataOn_cases P (fun s r s1 => s.values = [] → r ≠ none → s1.values = [])
    ?_ ?_ ?_ ?_ ?_ ?_ wire s (some err) s1 h hv (by simp)
  · intro s rest n e _ hv _; exact hv
  · intro s rest e hv _; exact hv
  · intro s rest _ hr; exact absurd rfl hr
  · intro s rest c b s2 _ _ _ hr; exact absurd rfl hr
  · intro s rest r s1 ih hv hr; exact ih hv hr
  · intro s rest c b s2 r s1 _ hob ih _ hr
    exact ih (rows.onBlock_none_values _ c b s2 hob) hr

/-- C20: with the cursor on the last buffered row of a stream that is not
terminated, when the dispatch cycle of the read-ahead returns an error, `Next`
returns that error; by then the row has been copied into `dest`, and the stream
is the one that the failed cycle leaves when it starts from the cleared buffer
with the cursor advanced: its row buffer is empty, so the row is in no later
state of the stream. -/
theorem C20_next_not_atomic (P : Protocol) (s : rows) (dest row : List Value) (err : Error)
    (s1 : rows) (hlast : s.index + 1 = s.values.length) (hd : s.allDataIsReceived = false)
    (hrow : s.values[s.index]? = some row) (hdest : dest.length = row.length)
    (hfail : rows.receiveData P { s with index := s.index + 1, values := [] }
      = .ok (some err, s1)) :
    s.Next P dest = .ok (some err, s1, row) ∧ s1.values = [] := by
  have hi : s.index < s.values.length := by omega
  have hsl : sliceAt s.values s.index = .ok row := by
    simp [sliceAt, hrow]
  refine ⟨?_, receiveDataOn_error_values P _ _ err s1 hfail rfl⟩
  unfold rows.Next
  rw [rows.nextBegin_row P _ s hi]
  simp only []
  unfold rows.nextRow
  rw [hsl]
  simp only []
  rw [copyRow_eq row dest hdest.symm]
  simp only []
  rw [if_pos (show s.values.length ≤ s.index + 1 by omega)]
  rw [rows.readAhead_turn P _ { s with index := s.index + 1, values := [] } hd rfl, hfail]

/-- The stream `lastRowStream`: the cursor is on the row `20`, and the next
packet is a server exception. -/
theorem C20_next_not_atomic_witness :
    ∃ s1, lastRowStream.Next native [Value.null] =
        .ok (some (Error.exception 60 "Table does not exist"), s1, [Value.int 20]) ∧
      s1.values = [] :=
  ⟨_, C20_next_not_atomic native lastRowStream [Value.null] [Value.int 20]
    (Error.exception 60 "Table does not exist") _ rfl rfl rfl rfl rfl⟩

/-! ## The type accessors -/

theorem sliceAtInt_of_lt {α : Type} (xs : List α) (idx : Int) (h0 : 0 ≤ idx)
    (h1 : idx < xs.length) :
    ∃ x, xs[idx.toNat]? = some x ∧ sliceAtInt xs idx = .ok x := by
  have hlt : idx.toNat < xs.length := by omega
  refine ⟨xs[idx.toNat], List.getElem?_eq_getElem hlt, ?_⟩
  unfold sliceAtInt
  rw [if_neg (by omega), sliceAt_of_lt xs _ hlt]

theorem sliceAtInt_of_not {α : Type} (xs : List α) (idx : Int)
    (h : ¬ (0 ≤ idx ∧ idx < xs.length)) : sliceAtInt xs idx = .error .indexOutOfRange := by
  unfold sliceAtInt
  by_cases h0 : idx < 0
  · rw [if_pos h0]
  · rw [if_neg h0]
    apply sliceAt_of_le
    omega

/-- C16, as the code has it: `ColumnTypeScanType(i)` and
`ColumnTypeDatabaseTypeName(i)` return the scan type and the server type name of
the `i`-th stored column accessor when `0 <= i` and `i` is below the number of
stored accessors, and panic on an index out of range for every other `i`, in
particular for every `i` before the metadata is resolved; the accessors stored
by the resolution are those of the resolving block, one for each column name. -/
theorem C16_type_accessors (s : rows) (idx : Int) :
    ((0 ≤ idx ∧ idx < s.blockColumns.length) →
      ∃ c, s.blockColumns[idx.toNat]? = some c ∧ s.ColumnTypeScanType idx = .ok c.ScanType ∧
        s.ColumnTypeDatabaseTypeName idx = .ok c.CHType) ∧
    (¬ (0 ≤ idx ∧ idx < s.blockColumns.length) →
      s.ColumnTypeScanType idx = .error .indexOutOfRange ∧
        s.ColumnTypeDatabaseTypeName idx = .error .indexOutOfRange) ∧
    (s.blockColumns = [] → s.ColumnTypeScanType idx = .error .indexOutOfRange ∧
        s.ColumnTypeDatabaseTypeName idx = .error .indexOutOfRange) ∧
    (∀ block : Block, s.columns.length = 0 → block.Columns.length ≠ 0 →
      (s.resolve block).blockColumns = block.Columns ∧
        (s.resolve block).columns = block.ColumnNames ∧
        (s.resolve block).columns.length = (s.resolve block).blockColumns.length) := by
  have hnot : ¬ (0 ≤ idx ∧ idx < s.blockColumns.length) →
      s.ColumnTypeScanType idx = .error .indexOutOfRange ∧
        s.ColumnTypeDatabaseTypeName idx = .error .indexOutOfRange := by
    intro h
    unfold rows.ColumnTypeScanType rows.ColumnTypeDatabaseTypeName
    rw [sliceAtInt_of_not _ idx h]
    exact ⟨rfl, rfl⟩
  refine ⟨?_, hnot, ?_, ?_⟩
  · rintro ⟨h0, h1⟩
    obtain ⟨c, hc, hs⟩ := sliceAtInt_of_lt s.blockColumns idx h0 h1
    refine ⟨c, hc, ?_, ?_⟩
    · unfold rows.ColumnTypeScanType; rw [hs]
    · unfold rows.ColumnTypeDatabaseTypeName; rw [hs]
  · intro hnil
    apply hnot
    rw [hnil]
    simp only [List.length_nil, Int.Nat.cast_ofNat_Int]
    omega
  · intro block h1 h2
    obtain ⟨a, b⟩ := rows.resolve_first s block h1 h2
    refine ⟨b, a, ?_⟩
    rw [a, b]
    simp [Block.ColumnNames]

/-- C16 as stated fails: on a fresh stream, where no column accessor is stored,
both accessors panic on the index 0; with the two accessors of the worked
example stored they panic on the indices 2 and -1. -/
theorem C16_counterexample :
    (rows.fresh []).ColumnTypeScanType 0 = .error .indexOutOfRange ∧
    (rows.fresh []).ColumnTypeDatabaseTypeName 0 = .error .indexOutOfRange ∧
    ((rows.fresh []).resolve exampleBlock).ColumnTypeScanType 2 = .error .indexOutOfRange ∧
    ((rows.fresh []).resolve exampleBlock).ColumnTypeDatabaseTypeName (-1)
      = .error .indexOutOfRange := by
  refine ⟨by rfl, by rfl, by rfl, by rfl⟩

/-! ## After the end of the stream -/

/-- On a terminated stream `Next` does not touch the connection. -/
theorem rows.Next_terminated_quiet (P : Protocol) (s : rows) (dest : List Value)
    (r : Option Error) (s1 : rows) (d1 : List Value) (hd : s.allDataIsReceived = true)
    (h : s.Next P dest = .ok (r, s1, d1)) : s1.ch = s.ch := by
  by_cases hi : s.index < s.values.length
  · unfold rows.Next at h
    rw [rows.nextBegin_row P _ s hi] at h
    exact (rows.nextRow_quiet P s dest r s1 d1 (Or.inr hd) h).2.1
  · unfold rows.Next at h
    rw [rows.nextBegin_eof P _ s (Nat.le_of_not_lt hi) hd] at h
    cases h
    rfl

/-- C12, the code at the failing input: over `endOnlyWire` the first `Next`
reads the end-of-stream marker (one decoder operation) and returns `io.EOF`
with the stream terminated and the column names unresolved. `Columns` then
starts a dispatch cycle all the same: it makes two more decoder operations,
which read the data packet that follows the marker, and returns its column
name; the `Next` after it returns the row `30` of that packet. -/
theorem C12_columns_reads_after_end_of_stream :
    (rows.NextN native 1 (rows.fresh endOnlyWire) [Value.null]).map
        (fun r => (r.1, r.2.1.allDataIsReceived, r.2.1.columns, r.2.1.ch.reads,
          r.2.1.ch.wire.length))
      = .ok ([(some Error.EOF, [Value.null])], true, [], 1, 2) ∧
    ((rows.fresh endOnlyWire).ops native [.next [Value.null], .columns]).map
        (fun s => (s.allDataIsReceived, s.columns, s.ch.reads, s.ch.wire.length))
      = .ok (true, ["n"], 3, 1) ∧
    (match (rows.fresh endOnlyWire).ops native [.next [Value.null], .columns] with
      | .ok s =>
        match s.Next native [Value.null] with
        | .ok (r, _, d) => some (r, d)
        | .error _ => none
      | .error _ => none)
      = some (none, [Value.int 30]) := by
  refine ⟨by rfl, by rfl, by rfl⟩

/-! ## The column metadata -/

theorem keepsColumns_refl (s : rows) : KeepsColumns s s := fun _ => ⟨rfl, rfl⟩

theorem keepsColumns_of_eq {s s1 : rows} (h1 : s1.columns = s.columns)
    (h2 : s1.blockColumns = s.blockColumns) : KeepsColumns s s1 := fun _ => ⟨h1, h2⟩

theorem keepsColumns_trans (a b c : rows) (h1 : KeepsColumns a b) (h2 : KeepsColumns b c) :
    KeepsColumns a c := by
  intro ha
  obtain ⟨e1, e2⟩ := h1 ha
  obtain ⟨f1, f2⟩ := h2 (by rw [e1]; exact ha)
  exact ⟨f1.trans e1, f2.trans e2⟩

theorem rows.onBlock_keepsColumns (s : rows) (c : Case) (block : Block)
    (x : Option (Option Error)) (s2 : rows) (h : s.onBlock c block = .ok (x, s2)) :
    KeepsColumns s s2 := by
  intro hcol
  have hlen : ¬ s.columns.length = 0 := by simpa [List.length_eq_zero] using hcol
  have hres : s.resolve block = s := by
    unfold rows.resolve
    rw [if_neg (fun h => hlen h.1)]
  unfold rows.onBlock at h
  rw [if_neg (fun h => hlen h.1)] at h
  cases hconv : convertBlockToDriverValues block with
  | error e => rw [hconv] at h; cases h
  | ok values =>
    rw [hconv] at h
    simp only [] at h
    have hs2 : s2 = (s.resolve block).route c values := by
      split_ifs at h <;> (cases h; rfl)
    rw [hs2, hres]
    cases c <;> exact ⟨rfl, rfl⟩

theorem receiveDataOn_keepsColumns (P : Protocol) (wire : List Packet) (s : rows)
    (r : Option Error) (s1 : rows) (h : receiveDataOn P wire s = .ok (r, s1)) :
    KeepsColumns s s1 := by
  refine receiveDataOn_cases P (fun s _ s1 => KeepsColumns s s1) ?_ ?_ ?_ ?_ ?_ ?_ wire s r s1 h
  · intro s rest n e _; exact keepsColumns_of_eq rfl rfl
  · intro s rest e; exact keepsColumns_of_eq rfl rfl
  · intro s rest; exact keepsColumns_of_eq rfl rfl
  · intro s rest c b s2 _ hob
    exact keepsColumns_trans s (s.consumed rest 2) s2 (keepsColumns_of_eq rfl rfl)
      (rows.onBlock_keepsColumns _ c b _ s2 hob)
  · intro s rest r s1 ih
    exact keepsColumns_trans s (s.consumed rest 2) s1 (keepsColumns_of_eq rfl rfl) ih
  · intro s rest c b s2 r s1 _ hob ih
    exact keepsColumns_trans s s2 s1
      (keepsColumns_trans s (s.consumed rest 2) s2 (keepsColumns_of_eq rfl rfl)
        (rows.onBlock_keepsColumns _ c b _ s2 hob)) ih

theorem rows.Next_keepsColumns (P : Protocol) (s : rows) (dest : List Value) (r : Option Error)
    (s1 : rows) (d1 : List Value) (h : s.Next P dest = .ok (r, s1, d1)) : KeepsColumns s s1 := by
  have hcycle : ∀ (s : rows) (r : Option Error) (s1 : rows),
      s.receiveData P = .ok (r, s1) → KeepsColumns s s1 :=
    fun s r s1 h => receiveDataOn_keepsColumns P _ s r s1 h
  unfold rows.Next at h
  cases h1 : rows.nextBegin P (s.ch.wire.length + 1) s with
  | error e => rw [h1] at h; cases h
  | ok res =>
    obtain ⟨r0, s2⟩ := res
    rw [h1] at h
    have hk := rows.nextBegin_cases P KeepsColumns keepsColumns_refl keepsColumns_trans hcycle
      _ s r0 s2 h1
    cases r0 with
    | some err => cases h; exact hk
    | none =>
      simp only [] at h
      refine keepsColumns_trans s s2 s1 hk ?_
      unfold rows.nextRow at h
      cases h2 : sliceAt s2.values s2.index with
      | error e => rw [h2] at h; cases h
      | ok row =>
        rw [h2] at h
        simp only [] at h
        cases h3 : copyRow row dest with
        | error e => rw [h3] at h; cases h
        | ok dest1 =>
          rw [h3] at h
          simp only [] at h
          split_ifs at h with hlast
          · cases h4 : rows.readAhead P (s2.ch.wire.length + 1)
                { s2 with index := s2.index + 1, values := [] } with
            | error e => rw [h4] at h; cases h
            | ok res =>
              obtain ⟨r1, s3⟩ := res
              rw [h4] at h
              have hk2 : KeepsColumns s2 s3 :=
                keepsColumns_trans s2 { s2 with index := s2.index + 1, values := [] } s3
                  (keepsColumns_of_eq rfl rfl)
                  (rows.readAhead_cases P KeepsColumns keepsColumns_refl keepsColumns_trans
                    hcycle _ _ r1 s3 h4)
              cases r1 with
              | some err => cases h; exact hk2
              | none => cases h; exact hk2
          · cases h; exact keepsColumns_of_eq rfl rfl

theorem rows.Columns_resolved (P : Protocol) (s : rows) (hc : s.columns ≠ []) :
    s.Columns P = .ok (s.columns, s) := by
  unfold rows.Columns
  rw [if_neg (by simpa [List.length_eq_zero] using hc)]

theorem rows.NextResultSet_columns (s : rows) :
    s.NextResultSet.2.columns = s.columns ∧ s.NextResultSet.2.blockColumns = s.blockColumns := by
  unfold rows.NextResultSet
  split_ifs <;> exact ⟨rfl, rfl⟩

theorem rows.op_keepsColumns (P : Protocol) (s : rows) (o : Op) (s1 : rows)
    (h : s.op P o = .ok s1) : KeepsColumns s s1 := by
  cases o with
  | columns =>
    intro hc
    simp only [rows.op] at h
    rw [rows.Columns_resolved P s hc] at h
    cases h
    exact ⟨rfl, rfl⟩
  | next dest =>
    simp only [rows.op] at h
    cases h1 : s.Next P dest with
    | error e => rw [h1] at h; cases h
    | ok res =>
      obtain ⟨r, s2, d1⟩ := res
      rw [h1] at h
      cases h
      exact rows.Next_keepsColumns P s dest r s1 d1 h1
  | hasNextResultSet => simp only [rows.op] at h; cases h; exact keepsColumns_refl s
  | nextResultSet =>
    simp only [rows.op] at h
    cases h
    exact keepsColumns_of_eq s.NextResultSet_columns.1 s.NextResultSet_columns.2
  | close => simp only [rows.op] at h; cases h; exact keepsColumns_refl s

theorem rows.ops_keepsColumns (P : Protocol) :
    ∀ (os : List Op) (s s1 : rows), s.ops P os = .ok s1 → KeepsColumns s s1 := by
  intro os
  induction os with
  | nil => intro s s1 h; cases h; exact keepsColumns_refl s
  | cons o os ih =>
    intro s s1 h
    unfold rows.ops at h
    cases ho : s.op P o with
    | error e => rw [ho] at h; cases h
    | ok s2 =>
      rw [ho] at h
      exact keepsColumns_trans s s2 s1 (rows.op_keepsColumns P s o s2 ho) (ih s2 s1 h)

/-- C13: in a state whose column name list is not empty, every dispatch cycle
(whatever packets it reads) and every call of `Next`, `Columns`,
`NextResultSet` and `Close` leave the column names and the column accessors
unchanged; `Columns` returns the list without touching the stream; and after
any further calls of the operations `Columns` still returns the same list and
leaves the stream, the connection included, as it is. -/
theorem C13_columns_resolved_once (P : Protocol) (s : rows) (hc : s.columns ≠ []) :
    (∀ (wire : List Packet) (r : Option Error) (s1 : rows),
      receiveDataOn P wire s = .ok (r, s1) →
      s1.columns = s.columns ∧ s1.blockColumns = s.blockColumns) ∧
    (∀ (dest : List Value) (r : Option Error) (s1 : rows) (d1 : List Value),
      s.Next P dest = .ok (r, s1, d1) →
      s1.columns = s.columns ∧ s1.blockColumns = s.blockColumns) ∧
    s.Columns P = .ok (s.columns, s) ∧
    (s.NextResultSet.2.columns = s.columns ∧
      s.NextResultSet.2.blockColumns = s.blockColumns) ∧
    (s.Close.2.columns = s.columns ∧ s.Close.2.blockColumns = s.blockColumns) ∧
    (∀ (os : List Op) (s1 : rows), s.ops P os = .ok s1 →
      s1.columns = s.columns ∧ s1.blockColumns = s.blockColumns ∧
        s1.Columns P = .ok (s.columns, s1)) := by
  refine ⟨?_, ?_, rows.Columns_resolved P s hc, s.NextResultSet_columns, ⟨rfl, rfl⟩, ?_⟩
  · intro wire r s1 h
    exact receiveDataOn_keepsColumns P wire s r s1 h hc
  · intro dest r s1 d1 h
    exact rows.Next_keepsColumns P s dest r s1 d1 h hc
  · intro os s1 h
    obtain ⟨e1, e2⟩ := rows.ops_keepsColumns P os s s1 h hc
    refine ⟨e1, e2, ?_⟩
    have := rows.Columns_resolved P s1 (by rw [e1]; exact hc)
    rw [e1] at this
    exact this

/-- The stream `lastRowStream`, whose column names are resolved. -/
theorem C13_columns_resolved_once_witness :
    lastRowStream.columns ≠ [] ∧
    ((∀ (wire : List Packet) (r : Option Error) (s1 : rows),
      receiveDataOn native wire lastRowStream = .ok (r, s1) →
      s1.columns = lastRowStream.columns ∧ s1.blockColumns = lastRowStream.blockColumns) ∧
    (∀ (dest : List Value) (r : Option Error) (s1 : rows) (d1 : List Value),
      lastRowStream.Next native dest = .ok (r, s1, d1) →
      s1.columns = lastRowStream.columns ∧ s1.blockColumns = lastRowStream.blockColumns) ∧
    lastRowStream.Columns native = .ok (lastRowStream.columns, lastRowStream) ∧
    (lastRowStream.NextResultSet.2.columns = lastRowStream.columns ∧
      lastRowStream.NextResultSet.2.blockColumns = lastRowStream.blockColumns) ∧
    (lastRowStream.Close.2.columns = lastRowStream.columns ∧
      lastRowStream.Close.2.blockColumns = lastRowStream.blockColumns) ∧
    (∀ (os : List Op) (s1 : rows), lastRowStream.ops native os = .ok s1 →
      s1.columns = lastRowStream.columns ∧ s1.blockColumns = lastRowStream.blockColumns ∧
        s1.Columns native = .ok (lastRowStream.columns, s1))) :=
  ⟨by decide, C13_columns_resolved_once native lastRowStream (by decide)⟩

/-! ## After a failed call of `Next` -/

theorem receiveDataOn_error_cursor (P : Protocol) (wire : List Packet) (s : rows) (err : Error)
    (s1 : rows) (h : receiveDataOn P wire s = .ok (some err, s1))
    (hle : s.values.length ≤ s.index) : s1.values.length ≤ s1.index := by
  refine receiveDataOn_cases P
    (fun s r s1 => s.values.length ≤ s.index → r ≠ none → s1.values.length ≤ s1.index)
    ?_ ?_ ?_ ?_ ?_ ?_ wire s (some err) s1 h hle (by simp)
  · intro s rest n e _ hle _; exact hle
  · intro s rest e hle _; exact hle
  · intro s rest _ hr; exact absurd rfl hr
  · intro s rest c b s2 _ _ _ hr; exact absurd rfl hr
  · intro s rest r s1 ih hle hr; exact ih hle hr
  · intro s rest c b s2 r s1 _ hob ih _ hr
    exact ih (by rw [rows.onBlock_none_values _ c b s2 hob]; exact Nat.zero_le _) hr

theorem rows.nextBegin_error_cursor (P : Protocol) :
    ∀ (fuel : Nat) (s : rows) (e : Error) (s1 : rows),
      rows.nextBegin P fuel s = .ok (some e, s1) → s1.values.length ≤ s1.index := by
  intro fuel
  induction fuel with
  | zero => intro s e s1 h; cases h
  | succ fuel ih =>
    intro s e s1 h
    unfold rows.nextBegin at h
    split_ifs at h with h1 h2
    · cases h; exact h1
    · cases hrd : s.receiveData P with
      | error f => rw [hrd] at h; cases h
      | ok res =>
        obtain ⟨r0, s2⟩ := res
        rw [hrd] at h
        cases r0 with
        | some err => cases h; exact receiveDataOn_error_cursor P _ s e s1 hrd h1
        | none => exact ih s2 e s1 h
    · cases h

theorem rows.readAhead_error_values (P : Protocol) :
    ∀ (fuel : Nat) (s : rows) (e : Error) (s1 : rows),
      rows.readAhead P fuel s = .ok (some e, s1) → s1.values = [] := by
  intro fuel
  induction fuel with
  | zero => intro s e s1 h; cases h
  | succ fuel ih =>
    intro s e s1 h
    unfold rows.readAhead at h
    split_ifs at h with h1
    · have hv : s.values = [] := by
        by_contra hne
        have : s.values.length ≠ 0 := by simpa [List.length_eq_zero] using hne
        simp [this] at h1
      cases hrd : s.receiveData P with
      | error f => rw [hrd] at h; cases h
      | ok res =>
        obtain ⟨r0, s2⟩ := res
        rw [hrd] at h
        cases r0 with
        | some err => cases h; exact receiveDataOn_error_values P _ s e s1 hrd hv
        | none => exact ih s2 e s1 h
    · cases h

/-- Whenever `Next` returns an error, no row is left at the cursor. -/
theorem rows.Next_error_cursor (P : Protocol) (s : rows) (dest : List Value) (e : Error)
    (s1 : rows) (d1 : List Value) (h : s.Next P dest = .ok (some e, s1, d1)) :
    s1.values.length ≤ s1.index := by
  unfold rows.Next at h
  cases h1 : rows.nextBegin P (s.ch.wire.length + 1) s with
  | error f => rw [h1] at h; cases h
  | ok res =>
    obtain ⟨r0, s2⟩ := res
    rw [h1] at h
    cases r0 with
    | some err =>
      cases h
      exact rows.nextBegin_error_cursor P _ s e s1 h1
    | none =>
      simp only [] at h
      unfold rows.nextRow at h
      cases h2 : sliceAt s2.values s2.index with
      | error f => rw [h2] at h; cases h
      | ok row =>
        rw [h2] at h
        simp only [] at h
        cases h3 : copyRow row dest with
        | error f => rw [h3] at h; cases h
        | ok dest1 =>
          rw [h3] at h
          simp only [] at h
          split_ifs at h with hlast
          · cases h4 : rows.readAhead P (s2.ch.wire.length + 1)
                { s2 with index := s2.index + 1, values := [] } with
            | error f => rw [h4] at h; cases h
            | ok res =>
              obtain ⟨r1, s3⟩ := res
              rw [h4] at h
              cases r1 with
              | some err =>
                cases h
                rw [rows.readAhead_error_values P _ _ e s1 h4]
                exact Nat.zero_le _
              | none => cases h
          · cases h

/-- C11, as the code has it. (1) With no row at the cursor, on an open stream
that is not terminated, `Next` on an Exception packet returns the error of the
exception decoder and leaves the packets after it on the connection. (2) After
any call of `Next` that returned an error no row is at the cursor; a later
`Next` returns nil only if the stream is not terminated and its own dispatch
cycle returns nil after reading at least one further packet; and when the
connection has no packet left a later `Next` returns an error. -/
theorem C11_after_exception (P : Protocol) :
    (∀ (s : rows) (p : Packet) (rest : List Packet) (dest : List Value),
      s.values.length ≤ s.index → s.allDataIsReceived = false → s.ch.closed = false →
      s.ch.wire = p :: rest → p.tag = .ok P.ServerException →
      s.Next P dest = .ok (some p.exception, s.consumed rest 2, dest)) ∧
    (∀ (s : rows) (dest : List Value) (e : Error) (s1 : rows) (d1 : List Value),
      s.Next P dest = .ok (some e, s1, d1) →
      s1.values.length ≤ s1.index ∧
      (∀ (dest2 : List Value) (s2 : rows) (d2 : List Value),
        s1.Next P dest2 = .ok (none, s2, d2) →
        s1.allDataIsReceived = false ∧
          ∃ s3 : rows, s1.receiveData P = .ok (none, s3) ∧
            s3.ch.wire.length < s1.ch.wire.length) ∧
      (s1.ch.wire = [] → ∀ dest2 : List Value,
        ∃ e2 s2, s1.Next P dest2 = .ok (some e2, s2, dest2))) := by
  refine ⟨?_, ?_⟩
  · intro s p rest dest hle hd hc hw ht
    have hrd : s.receiveData P = .ok (some p.exception, s.consumed rest 2) := by
      unfold rows.receiveData
      rw [hw]
      exact receiveDataOn_exception P p rest s _ ht P.case_exception
    unfold rows.Next
    rw [rows.nextBegin_turn P _ s hle hd, hrd]
  · intro s dest e s1 d1 h
    have hle := rows.Next_error_cursor P s dest e s1 d1 h
    refine ⟨hle, ?_, ?_⟩
    · intro dest2 s2 d2 h2
      unfold rows.Next at h2
      by_cases hd : s1.allDataIsReceived = true
      · rw [rows.nextBegin_eof P _ s1 hle hd] at h2
        cases h2
      · have hd : s1.allDataIsReceived = false := by simpa using hd
        refine ⟨hd, ?_⟩
        rw [rows.nextBegin_turn P _ s1 hle hd] at h2
        cases hrd : s1.receiveData P with
        | error f => rw [hrd] at h2; cases h2
        | ok res =>
          obtain ⟨r0, s3⟩ := res
          rw [hrd] at h2
          cases r0 with
          | some err => cases h2
          | none => exact ⟨s3, rfl, (rows.receiveData_untouched P s1 none s3 hrd).2 rfl⟩
    · intro hw dest2
      unfold rows.Next
      by_cases hd : s1.allDataIsReceived = true
      · rw [rows.nextBegin_eof P _ s1 hle hd]
        exact ⟨_, _, rfl⟩
      · have hd : s1.allDataIsReceived = false := by simpa using hd
        rw [rows.nextBegin_turn P _ s1 hle hd]
        have hrd : s1.receiveData P =
            .ok (some (if s1.ch.closed then ErrBadConn else errExhausted), s1.consumed [] 1) := by
          unfold rows.receiveData
          rw [hw]
          rfl
        rw [hrd]
        exact ⟨_, _, rfl⟩

/-- C11 as stated fails: over `exceptionWire` the second `Next` returns the
error of the exception decoder, and the third `Next` returns nil with the row
`30` of the data packet that follows the exception on the connection. -/
theorem C11_counterexample :
    (rows.NextN native 3 (rows.fresh exceptionWire) [Value.null]).map Prod.fst
      = .ok [(none, [Value.int 10]),
          (some (Error.exception 60 "Table does not exist"), [Value.int 20]),
          (none, [Value.int 30])] := by
  rfl

/-! ## Lazy resolution of the column names -/

theorem Item.Info.main {C : Nat} {it : Item} (h : it.Info) : it.Main C := by
  cases it <;> simp_all [Item.Info, Item.Main]

/-- A dispatch cycle on unresolved column names and an empty buffer passes the
informational packets and returns nil on the first Data block, if that block
carries columns, with the column names and accessors of that block. -/
theorem receiveDataOn_first_block (P : Protocol) (p1 : Packet) (b1 : Block) (w : List Packet)
    (hp1 : p1.Carries P (.data b1)) (hb1 : b1.Rect) (hnames : b1.Columns ≠ [])
    (pkinfo : List Packet) (infos : List Item)
    (hinfo : List.Forall₂ (Packet.Carries P) pkinfo infos) :
    ∀ s : rows, (∀ it ∈ infos, it.Info) → s.ch.closed = false → s.columns = [] →
      s.values = [] →
      ∃ s1, receiveDataOn P (pkinfo ++ p1 :: w) s = .ok (none, s1) ∧
        s1.columns = b1.ColumnNames ∧ s1.blockColumns = b1.Columns := by
  induction hinfo with
  | nil =>
    intro s _ hc hcol hv
    have hlen : (s.consumed w 2).columns.length = 0 := by simp [hcol]
    have hne : b1.Columns.length ≠ 0 := by simpa [List.length_eq_zero] using hnames
    obtain ⟨r1, r2⟩ := rows.resolve_first (s.consumed w 2) b1 hlen hne
    rw [List.nil_append, receiveDataOn_block P p1 w s _ hp1.1 (Or.inl P.case_data), hp1.2,
      P.case_data]
    simp only []
    by_cases h0 : b1.NumRows = 0
    · rw [rows.onBlock_meta _ _ _ ⟨hlen, hne, h0⟩]
      exact ⟨_, rfl, r1, r2⟩
    · rw [rows.onBlock_rect _ _ _ hb1 (fun h => h0 h.2.2)]
      have hrows : b1.rows.length ≠ 0 := by rw [Block.rows_length]; exact h0
      have hv2 : (((s.consumed w 2).resolve b1).route .data b1.rows).values.length ≠ 0 := by
        simp only [rows.route]
        exact hrows
      rw [if_pos hv2]
      exact ⟨_, rfl, by simpa [rows.route] using r1, by simpa [rows.route] using r2⟩
  | @cons p a pk0 items0 hcar hrest ih =>
    intro s hs hc hcol hv
    have hs0 : ∀ it ∈ items0, it.Info := fun it hit => hs it (List.mem_cons_of_mem _ hit)
    have ha : a.Info := hs a (List.mem_cons_self _ _)
    rw [List.cons_append]
    cases a with
    | progress r =>
      rw [receiveDataOn_progress P p _ s _ hcar.1 P.case_progress, hcar.2]
      exact ih (s.consumed (pk0 ++ p1 :: w) 2) hs0 hc hcol hv
    | profileInfo r =>
      rw [receiveDataOn_profileInfo P p _ s _ hcar.1 P.case_profileInfo, hcar.2]
      exact ih (s.consumed (pk0 ++ p1 :: w) 2) hs0 hc hcol hv
    | data b => exact absurd ha (by simp [Item.Info])
    | totals b => exact absurd ha (by simp [Item.Info])
    | extremes b => exact absurd ha (by simp [Item.Info])

/-- The stream that a dispatch cycle leaves on a well-behaved sequence of
packets is again a stream being read over it, with the same rows pending. -/
theorem Streaming.of_cycle {P : Protocol} {C : Nat} {eos : Packet} {tail : List Packet}
    {items items1 : List Item} {s s1 : rows} (hk : Kept C items s items1 s1)
    (hshape : Ready P eos tail s1 items1 ∨ Finished tail s1 items1 ∨
      Paused P eos tail s1 items1) :
    Streaming P C eos tail s1 items1 ∧ pending s1 items1 = mainRows items := by
  rcases hshape with h | h | ⟨hv, hd, hpk⟩
  · exact Streaming.of_kept hk (Or.inl h)
  · exact Streaming.of_kept hk (Or.inr h)
  · refine ⟨⟨hk.closed, hk.sound, hk.width, Or.inl hv, Or.inl ⟨hd, hpk⟩⟩, ?_⟩
    have := hk.main
    rw [hv] at this
    simp [pending, hv, this]

/-- C14: a fresh stream is fed informational packets, then a rectangular Data
block of `C` columns that carries column accessors, then informational packets
and rectangular Data blocks of `C` columns, then the end-of-stream marker.
`Columns`, called first, returns the column names of that first block, and the
calls of `Next` after it return what they return on the fresh stream: the rows
of the blocks in order, then `io.EOF`. -/
theorem C14_lazy_schema (P : Protocol) (C : Nat) (pkinfo : List Packet) (infos : List Item)
    (p1 : Packet) (b1 : Block) (pk : List Packet) (rest : List Item) (eos : Packet)
    (tail : List Packet) (dest : List Value)
    (hinfo : List.Forall₂ (Packet.Carries P) pkinfo infos) (hinfos : ∀ it ∈ infos, it.Info)
    (hp1 : p1.Carries P (.data b1)) (hb1 : b1.Rect ∧ b1.NumColumns = C)
    (hnames : b1.Columns ≠ [])
    (hpk : List.Forall₂ (Packet.Carries P) pk rest) (hrest : ∀ it ∈ rest, it.Main C)
    (heos : eos.tag = .ok P.ServerEndOfStream) (hdest : dest.length = C) :
    ∃ s1 s2 s3 d,
      (rows.fresh (pkinfo ++ p1 :: pk ++ eos :: tail)).Columns P = .ok (b1.ColumnNames, s1) ∧
      rows.NextN P (rowCount (infos ++ Item.data b1 :: rest) + 1) s1 dest =
        .ok (delivered (mainRows (infos ++ Item.data b1 :: rest)) ++ [(some Error.EOF, d)],
          s2, d) ∧
      rows.NextN P (rowCount (infos ++ Item.data b1 :: rest) + 1)
          (rows.fresh (pkinfo ++ p1 :: pk ++ eos :: tail)) dest =
        .ok (delivered (mainRows (infos ++ Item.data b1 :: rest)) ++ [(some Error.EOF, d)],
          s3, d) := by
  have hwire : pkinfo ++ p1 :: pk ++ eos :: tail = pkinfo ++ p1 :: (pk ++ eos :: tail) := by
    simp
  have hitems : List.Forall₂ (Packet.Carries P) (pkinfo ++ p1 :: pk)
      (infos ++ Item.data b1 :: rest) :=
    List.rel_append hinfo (List.Forall₂.cons hp1 hpk)
  have hsound : ∀ it ∈ infos ++ Item.data b1 :: rest, it.Sound C := by
    intro it hit
    rcases List.mem_append.mp hit with h | h
    · exact (hinfos it h).main.sound
    · rcases List.mem_cons.mp h with rfl | h
      · exact hb1
      · exact (hrest it h).sound
  have hfresh := Streaming.fresh P C eos tail (pkinfo ++ p1 :: pk) _ hitems hsound
  obtain ⟨s1, hrd, hcols, _⟩ :=
    receiveDataOn_first_block P p1 b1 (pk ++ eos :: tail) hp1 hb1.1 hnames pkinfo infos hinfo
      (rows.fresh (pkinfo ++ p1 :: pk ++ eos :: tail)) hinfos rfl rfl rfl
  obtain ⟨s1', items1, hrd', hk, _, hshape⟩ :=
    receiveDataOn_sound P C eos tail heos (pkinfo ++ p1 :: pk) _ hitems
      (rows.fresh (pkinfo ++ p1 :: pk ++ eos :: tail)) hsound rfl rfl rfl
  rw [← hwire] at hrd
  have hsame : s1' = s1 := by
    rw [hrd] at hrd'
    cases hrd'
    rfl
  subst hsame
  have hcycle : (rows.fresh (pkinfo ++ p1 :: pk ++ eos :: tail)).receiveData P
      = .ok (none, s1') := hrd
  obtain ⟨hst, hpend⟩ := Streaming.of_cycle hk hshape
  obtain ⟨s2, a1, _⟩ :=
    NextN_sound P C eos tail heos (mainRows (infos ++ Item.data b1 :: rest)) s1' items1 dest
      hst hdest hpend
  obtain ⟨s3, b1', _⟩ :=
    NextN_sound P C eos tail heos (mainRows (infos ++ Item.data b1 :: rest))
      (rows.fresh (pkinfo ++ p1 :: pk ++ eos :: tail)) _ dest hfresh hdest
      (by simp [pending, rows.fresh])
  rw [mainRows_length] at a1 b1'
  refine ⟨s1', s2, s3, _, ?_, a1, b1'⟩
  have h0 : (rows.fresh (pkinfo ++ p1 :: pk ++ eos :: tail)).columns.length = 0 := rfl
  unfold rows.Columns
  rw [if_pos h0, hcycle]
  simp only []
  rw [hcols]

/-- The stream of the worked example: `Columns` first, then the rows. -/
theorem C14_lazy_schema_witness :
    ∃ s1 s2 s3 d,
      (rows.fresh exampleWire).Columns native = .ok (["id", "name"], s1) ∧
      rows.NextN native 3 s1 [Value.null, Value.null] =
        .ok ([(none, [Value.int 1, Value.str "a"]), (none, [Value.int 2, Value.str "b"]),
          (some Error.EOF, d)], s2, d) ∧
      rows.NextN native 3 (rows.fresh exampleWire) [Value.null, Value.null] =
        .ok ([(none, [Value.int 1, Value.str "a"]), (none, [Value.int 2, Value.str "b"]),
          (some Error.EOF, d)], s3, d) :=
  C14_lazy_schema native 2
    [{ tag := .ok native.ServerProgress, progress := .ok ⟨2, 16, 2⟩ }]
    [.progress ⟨2, 16, 2⟩]
    { tag := .ok native.ServerData, block := .ok exampleBlock } exampleBlock [] []
    { tag := .ok native.ServerEndOfStream } [] [Value.null, Value.null]
    (List.Forall₂.cons ⟨rfl, rfl⟩ List.Forall₂.nil) (by decide) ⟨rfl, rfl⟩ (by decide)
    (by decide) List.Forall₂.nil (by decide) rfl rfl

/-! ## Informational packets are transparent -/

theorem receiveDataOn_isInfo (P : Protocol) (q : Packet) (rest : List Packet) (t : rows)
    (hq : q.IsInfo P) :
    receiveDataOn P (q :: rest) t = receiveDataOn P rest (t.consumed rest 2) := by
  rcases hq with ⟨ht, r, hr⟩ | ⟨ht, r, hr⟩
  · rw [receiveDataOn_progress P q rest t _ ht P.case_progress, hr]
  · rw [receiveDataOn_profileInfo P q rest t _ ht P.case_profileInfo, hr]

theorem rows.resolve_same (a b : rows) (block : Block) (h : SameFields a b) :
    SameFields (a.resolve block) (b.resolve block) := by
  obtain ⟨h1, h2, h3, h4, h5, h6, h7, h8⟩ := h
  unfold rows.resolve
  rw [h1]
  split_ifs
  · exact ⟨rfl, h2, h3, h4, h5, rfl, h7, h8⟩
  · exact ⟨h1, h2, h3, h4, h5, h6, h7, h8⟩

theorem rows.route_same (a b : rows) (c : Case) (values : List (List Value))
    (h : SameFields a b) : SameFields (a.route c values) (b.route c values) := by
  obtain ⟨h1, h2, h3, h4, h5, h6, h7, h8⟩ := h
  cases c
  case data => exact ⟨h1, rfl, rfl, h4, h5, h6, h7, h8⟩
  case totals => exact ⟨h1, h2, h3, rfl, h5, h6, h7, h8⟩
  case extremes => exact ⟨h1, h2, h3, h4, rfl, h6, h7, h8⟩
  all_goals exact ⟨h1, h2, h3, h4, h5, h6, h7, h8⟩

theorem rows.route_ch (a : rows) (c : Case) (values : List (List Value)) :
    (a.route c values).ch = a.ch := by
  cases c <;> rfl

theorem rows.onBlock_same (a b : rows) (c : Case) (block : Block) (h : SameFields a b) :
    (∃ e, a.onBlock c block = .error e ∧ b.onBlock c block = .error e) ∨
    (∃ x a2 b2, a.onBlock c block = .ok (x, a2) ∧ b.onBlock c block = .ok (x, b2) ∧
      SameFields a2 b2 ∧ a2.ch = a.ch ∧ b2.ch = b.ch) := by
  have hcol : a.columns = b.columns := h.1
  unfold rows.onBlock
  rw [hcol]
  by_cases hm : b.columns.length = 0 ∧ block.Columns.length ≠ 0 ∧ block.NumRows = 0
  · rw [if_pos hm, if_pos hm]
    exact Or.inr ⟨_, _, _, rfl, rfl, rows.resolve_same a b block h, by simp, by simp⟩
  · rw [if_neg hm, if_neg hm]
    cases hconv : convertBlockToDriverValues block with
    | error e => exact Or.inl ⟨e, rfl, rfl⟩
    | ok values =>
      simp only []
      have hs := rows.route_same _ _ c values (rows.resolve_same a b block h)
      have hv : ((a.resolve block).route c values).values
          = ((b.resolve block).route c values).values := hs.2.2.1
      rw [hv]
      split_ifs
      · exact Or.inr ⟨_, _, _, rfl, rfl, hs, by simp [rows.route_ch], by simp [rows.route_ch]⟩
      · exact Or.inr ⟨_, _, _, rfl, rfl, hs, by simp [rows.route_ch], by simp [rows.route_ch]⟩

theorem receiveDataOn_padded (P : Protocol) (w w1 : List Packet) (h : Padded P w w1) :
    ∀ s t : rows, SameFields s t → Agree P (receiveDataOn P w s) (receiveDataOn P w1 t) := by
  induction h with
  | nil =>
    intro s t hst
    have hcl : s.ch.closed = t.ch.closed := hst.2.2.2.2.2.2.2
    simp only [receiveDataOn]
    exact ⟨by rw [hcl], hst, Padded.nil⟩
  | @keep p w w1 hp ih =>
    intro s t hst
    cases ht : p.tag with
    | error err =>
      rw [receiveDataOn_tagError P p w s err ht, receiveDataOn_tagError P p w1 t err ht]
      exact ⟨rfl, hst, hp⟩
    | ok tg =>
      have hblock : (P.case tg = .data ∨ P.case tg = .totals ∨ P.case tg = .extremes) →
          Agree P (receiveDataOn P (p :: w) s) (receiveDataOn P (p :: w1) t) := by
        intro hk3
        rw [receiveDataOn_block P p w s tg ht hk3, receiveDataOn_block P p w1 t tg ht hk3]
        cases hb : p.block with
        | error err => exact ⟨rfl, hst, hp⟩
        | ok b =>
          simp only []
          have hst2 : SameFields (s.consumed w 2) (t.consumed w1 2) := hst
          rcases rows.onBlock_same _ _ (P.case tg) b hst2 with
            ⟨e, h1, h2⟩ | ⟨x, a2, b2, h1, h2, hs2, ha, hb2⟩
          · rw [h1, h2]
            exact rfl
          · rw [h1, h2]
            cases x with
            | some r0 =>
              simp only []
              refine ⟨rfl, hs2, ?_⟩
              rw [ha, hb2]
              exact hp
            | none =>
              simp only []
              exact ih a2 b2 hs2
      cases hk : P.case tg with
      | exception =>
        rw [receiveDataOn_exception P p w s tg ht hk,
          receiveDataOn_exception P p w1 t tg ht hk]
        exact ⟨rfl, hst, hp⟩
      | progress =>
        rw [receiveDataOn_progress P p w s tg ht hk,
          receiveDataOn_progress P p w1 t tg ht hk]
        cases p.progress with
        | error err => exact ⟨rfl, hst, hp⟩
        | ok v => exact ih (s.consumed w 2) (t.consumed w1 2) hst
      | profileInfo =>
        rw [receiveDataOn_profileInfo P p w s tg ht hk,
          receiveDataOn_profileInfo P p w1 t tg ht hk]
        cases p.profileInfo with
        | error err => exact ⟨rfl, hst, hp⟩
        | ok v => exact ih (s.consumed w 2) (t.consumed w1 2) hst
      | endOfStream =>
        rw [receiveDataOn_endOfStream P p w s tg ht hk,
          receiveDataOn_endOfStream P p w1 t tg ht hk]
        obtain ⟨h1, h2, h3, h4, h5, h6, h7, h8⟩ := hst
        exact ⟨rfl, ⟨h1, h2, h3, h4, h5, h6, rfl, h8⟩, hp⟩
      | unexpected =>
        rw [receiveDataOn_unexpected P p w s tg ht hk,
          receiveDataOn_unexpected P p w1 t tg ht hk]
        obtain ⟨h1, h2, h3, h4, h5, h6, h7, h8⟩ := hst
        exact ⟨rfl, ⟨h1, h2, h3, h4, h5, h6, h7, rfl⟩, hp⟩
      | data => exact hblock (Or.inl hk)
      | totals => exact hblock (Or.inr (Or.inl hk))
      | extremes => exact hblock (Or.inr (Or.inr hk))
  | @insert q w w1 hq hp ih =>
    intro s t hst
    rw [receiveDataOn_isInfo P q w1 t hq]
    exact ih s (t.consumed w1 2) hst

/-- C17: when the packets of one connection are those of another with
successfully decoded Progress and ProfileInfo packets inserted at any
positions, and the two streams have the same fields, a dispatch cycle returns
the same value on both (or panics alike), leaves the same columns, row buffer,
cursor, totals, extremes and terminated flag, and leaves on the two connections
the same packets up to inserted informational ones. On an open connection such
a packet does not end the cycle and changes no field: the loop goes on to the
next packet. -/
theorem C17_informational_transparent (P : Protocol) (s t : rows)
    (h : Padded P s.ch.wire t.ch.wire) (hst : SameFields s t) :
    Agree P (s.receiveData P) (t.receiveData P) ∧
    (∀ (q : Packet) (rest : List Packet) (u : rows), q.IsInfo P → u.ch.closed = false →
      receiveDataOn P (q :: rest) u = receiveDataOn P rest (u.consumed rest 2) ∧
        SameFields u (u.consumed rest 2)) :=
  ⟨receiveDataOn_padded P _ _ h s t hst,
    fun q rest u hq _ => ⟨receiveDataOn_isInfo P q rest u hq,
      ⟨rfl, rfl, rfl, rfl, rfl, rfl, rfl, rfl⟩⟩⟩

/-- The stream of the worked example with and without its progress packet. -/
theorem C17_informational_transparent_witness :
    Padded native (rows.fresh (exampleWire.drop 1)).ch.wire (rows.fresh exampleWire).ch.wire ∧
    SameFields (rows.fresh (exampleWire.drop 1)) (rows.fresh exampleWire) ∧
    (Agree native ((rows.fresh (exampleWire.drop 1)).receiveData native)
        ((rows.fresh exampleWire).receiveData native) ∧
      (∀ (q : Packet) (rest : List Packet) (u : rows), q.IsInfo native → u.ch.closed = false →
        receiveDataOn native (q :: rest) u = receiveDataOn native rest (u.consumed rest 2) ∧
          SameFields u (u.consumed rest 2))) :=
  ⟨Padded.insert _ (Or.inl ⟨rfl, _, rfl⟩) (Padded.keep _ (Padded.keep _ Padded.nil)),
    ⟨rfl, rfl, rfl, rfl, rfl, rfl, rfl, rfl⟩,
    C17_informational_transparent native (rows.fresh (exampleWire.drop 1))
      (rows.fresh exampleWire)
      (Padded.insert _ (Or.inl ⟨rfl, _, rfl⟩) (Padded.keep _ (Padded.keep _ Padded.nil)))
      ⟨rfl, rfl, rfl, rfl, rfl, rfl, rfl, rfl⟩⟩

/-! ## After the connection has been closed -/

/-- What a dispatch cycle does to the connection: it makes at least one decoder
operation, and a closed connection stays closed. -/
theorem receiveDataOn_reads (P : Protocol) (wire : List Packet) (s : rows) (r : Option Error)
    (s1 : rows) (h : receiveDataOn P wire s = .ok (r, s1)) :
    s.ch.reads < s1.ch.reads ∧ (s.ch.closed = true → s1.ch.closed = true) := by
  refine receiveDataOn_cases P
    (fun s _ s1 => s.ch.reads < s1.ch.reads ∧ (s.ch.closed = true → s1.ch.closed = true))
    ?_ ?_ ?_ ?_ ?_ ?_ wire s r s1 h
  · intro s rest n e hn
    exact ⟨by simp; omega, fun hc => by simpa using hc⟩
  · intro s rest e
    exact ⟨by simp [rows.connClose], fun _ => by simp [rows.connClose]⟩
  · intro s rest
    exact ⟨by simp, fun hc => by simpa using hc⟩
  · intro s rest c b s2 _ hob
    have hch := (rows.onBlock_ok _ c b _ s2 hob).1
    rw [hch]
    exact ⟨by simp, fun hc => by simpa using hc⟩
  · intro s rest r s1 ih
    exact ⟨by have := ih.1; simp at this; omega, fun hc => ih.2 (by simpa using hc)⟩
  · intro s rest c b s2 r s1 _ hob ih
    have hch := (rows.onBlock_ok _ c b _ s2 hob).1
    rw [hch] at ih
    exact ⟨by have := ih.1; simp at this; omega, fun hc => ih.2 (by simpa using hc)⟩

theorem rows.nextBegin_reads (P : Protocol) (fuel : Nat) (s : rows) (r : Option Error) (s1 : rows)
    (h : rows.nextBegin P fuel s = .ok (r, s1)) :
    s.ch.reads ≤ s1.ch.reads ∧ (s.ch.closed = true → s1.ch.closed = true) :=
  rows.nextBegin_cases P
    (fun a b => a.ch.reads ≤ b.ch.reads ∧ (a.ch.closed = true → b.ch.closed = true))
    (fun _ => ⟨Nat.le_refl _, id⟩)
    (fun _ _ _ h1 h2 => ⟨Nat.le_trans h1.1 h2.1, fun hc => h2.2 (h1.2 hc)⟩)
    (fun a r b hrd => ⟨Nat.le_of_lt (receiveDataOn_reads P _ a r b hrd).1,
      (receiveDataOn_reads P _ a r b hrd).2⟩) fuel s r s1 h

theorem rows.readAhead_reads (P : Protocol) (fuel : Nat) (s : rows) (r : Option Error) (s1 : rows)
    (h : rows.readAhead P fuel s = .ok (r, s1)) :
    s.ch.reads ≤ s1.ch.reads ∧ (s.ch.closed = true → s1.ch.closed = true) :=
  rows.readAhead_cases P
    (fun a b => a.ch.reads ≤ b.ch.reads ∧ (a.ch.closed = true → b.ch.closed = true))
    (fun _ => ⟨Nat.le_refl _, id⟩)
    (fun _ _ _ h1 h2 => ⟨Nat.le_trans h1.1 h2.1, fun hc => h2.2 (h1.2 hc)⟩)
    (fun a r b hrd => ⟨Nat.le_of_lt (receiveDataOn_reads P _ a r b hrd).1,
      (receiveDataOn_reads P _ a r b hrd).2⟩) fuel s r s1 h

/-- A turn of the `begin:` loop that starts a dispatch cycle makes a decoder
operation. -/
theorem rows.nextBegin_turn_reads (P : Protocol) (fuel : Nat) (s : rows) (r : Option Error)
    (s1 : rows) (hle : s.values.length ≤ s.index) (hd : s.allDataIsReceived = false)
    (h : rows.nextBegin P fuel s = .ok (r, s1)) : s.ch.reads < s1.ch.reads := by
  cases fuel with
  | zero => cases h
  | succ fuel =>
    rw [rows.nextBegin_turn P fuel s hle hd] at h
    cases hrd : s.receiveData P with
    | error e => rw [hrd] at h; cases h
    | ok res =>
      obtain ⟨r0, s2⟩ := res
      rw [hrd] at h
      have h1 := (receiveDataOn_reads P _ s r0 s2 hrd).1
      cases r0 with
      | some err => cases h; exact h1
      | none =>
        have h2 := (rows.nextBegin_reads P fuel s2 r s1 h).1
        omega

/-- A turn of the read-ahead loop that starts a dispatch cycle makes a decoder
operation. -/
theorem rows.readAhead_turn_reads (P : Protocol) (fuel : Nat) (s : rows) (r : Option Error)
    (s1 : rows) (hd : s.allDataIsReceived = false) (hv : s.values = [])
    (h : rows.readAhead P fuel s = .ok (r, s1)) : s.ch.reads < s1.ch.reads := by
  cases fuel with
  | zero => cases h
  | succ fuel =>
    rw [rows.readAhead_turn P fuel s hd hv] at h
    cases hrd : s.receiveData P with
    | error e => rw [hrd] at h; cases h
    | ok res =>
      obtain ⟨r0, s2⟩ := res
      rw [hrd] at h
      have h1 := (receiveDataOn_reads P _ s r0 s2 hrd).1
      cases r0 with
      | some err => cases h; exact h1
      | none =>
        have h2 := (rows.readAhead_reads P fuel s2 r s1 h).1
        omega

theorem rows.Columns_ne_outOfFuel (P : Protocol) (s : rows) (e : Fault)
    (h : s.Columns P = .error e) : e ≠ .outOfFuel := by
  unfold rows.Columns at h
  split_ifs at h
  cases hrd : s.receiveData P with
  | error e1 =>
    rw [hrd] at h
    cases h
    exact receiveDataOn_error P _ s _ hrd
  | ok res =>
    obtain ⟨r0, s2⟩ := res
    rw [hrd] at h
    cases h

/-- C10, as the code has it: the stream keeps no record of a closed
connection. Once the connection is closed (which is what a dispatch cycle does
on an unrecognized tag), `NextResultSet` and `Close` leave the connection
untouched (`HasNextResultSet` has no access to it); a later `Next` that returns
leaves the connection closed, has made at least one more decoder operation
when the stream is not terminated and no buffered row is left after the one at
the cursor, and has left the connection untouched when the stream is
terminated or another buffered row is left; a later `Columns` that returns
leaves the connection closed, has made at least one more decoder operation
when the column names are unresolved, and has changed nothing when they are
resolved. Neither call uses up its recursion bound. -/
theorem C10_after_desync (P : Protocol) (s : rows) (dest : List Value)
    (hc : s.ch.closed = true) :
    s.NextResultSet.2.ch = s.ch ∧ s.Close.2.ch = s.ch ∧
    ((∃ e, s.Next P dest = .error e ∧ e ≠ .outOfFuel) ∨
      ∃ err s1 d1, s.Next P dest = .ok (err, s1, d1) ∧ s1.ch.closed = true ∧
        (s.allDataIsReceived = false → s.values.length ≤ s.index + 1 →
          s.ch.reads < s1.ch.reads) ∧
        (s.allDataIsReceived = true ∨ s.index + 1 < s.values.length → s1.ch = s.ch)) ∧
    ((∃ e, s.Columns P = .error e ∧ e ≠ .outOfFuel) ∨
      ∃ cols s1, s.Columns P = .ok (cols, s1) ∧ s1.ch.closed = true ∧
        (s.columns = [] → s.ch.reads < s1.ch.reads) ∧
        (s.columns ≠ [] → s1 = s ∧ cols = s.columns)) := by
  refine ⟨?_, rfl, ?_, ?_⟩
  · unfold rows.NextResultSet
    split_ifs <;> rfl
  · cases hN : s.Next P dest with
    | error e => exact Or.inl ⟨e, rfl, fun h0 => rows.Next_ne_outOfFuel P s dest (h0 ▸ hN)⟩
    | ok res =>
      obtain ⟨err, s1, d1⟩ := res
      refine Or.inr ⟨err, s1, d1, rfl, ?_⟩
      unfold rows.Next at hN
      cases h1 : rows.nextBegin P (s.ch.wire.length + 1) s with
      | error e => rw [h1] at hN; cases hN
      | ok res1 =>
        obtain ⟨r0, s2⟩ := res1
        rw [h1] at hN
        have hb := rows.nextBegin_reads P _ s r0 s2 h1
        cases r0 with
        | some e0 =>
          cases hN
          refine ⟨hb.2 hc, ?_, ?_⟩
          · intro hd hlast
            by_cases hle : s.values.length ≤ s.index
            · exact rows.nextBegin_turn_reads P _ s _ s1 hle hd h1
            · rw [rows.nextBegin_row P _ s (Nat.lt_of_not_le hle)] at h1
              cases h1
          · intro hq
            by_cases hle : s.values.length ≤ s.index
            · rcases hq with hd | hlt
              · rw [rows.nextBegin_eof P _ s hle hd] at h1
                cases h1
                rfl
              · omega
            · rw [rows.nextBegin_row P _ s (Nat.lt_of_not_le hle)] at h1
              cases h1
        | none =>
          simp only [] at hN
          unfold rows.nextRow at hN
          cases h2 : sliceAt s2.values s2.index with
          | error e => rw [h2] at hN; cases hN
          | ok row =>
            rw [h2] at hN
            simp only [] at hN
            cases h3 : copyRow row dest with
            | error e => rw [h3] at hN; cases hN
            | ok dest1 =>
              rw [h3] at hN
              simp only [] at hN
              by_cases hle : s.values.length ≤ s.index
              · by_cases hd : s.allDataIsReceived = true
                · rw [rows.nextBegin_eof P _ s hle hd] at h1
                  cases h1
                · have hd : s.allDataIsReceived = false := by simpa using hd
                  have hlt := rows.nextBegin_turn_reads P _ s _ s2 hle hd h1
                  split_ifs at hN with hlast
                  · cases h4 : rows.readAhead P (s2.ch.wire.length + 1)
                        { s2 with index := s2.index + 1, values := [] } with
                    | error e => rw [h4] at hN; cases hN
                    | ok res4 =>
                      obtain ⟨r1, s3⟩ := res4
                      rw [h4] at hN
                      have ha := rows.readAhead_reads P _ _ r1 s3 h4
                      have hs3 : s3 = s1 := by cases r1 <;> (cases hN; rfl)
                      subst hs3
                      refine ⟨ha.2 (hb.2 hc), ?_, ?_⟩
                      · intro _ _
                        exact Nat.lt_of_lt_of_le hlt ha.1
                      · intro hq
                        rcases hq with hq | hq
                        · rw [hq] at hd; cases hd
                        · omega
                  · cases hN
                    refine ⟨hb.2 hc, ?_, ?_⟩
                    · intro _ _
                      exact hlt
                    · intro hq
                      rcases hq with hq | hq
                      · rw [hq] at hd; cases hd
                      · omega
              · have hi : s.index < s.values.length := Nat.lt_of_not_le hle
                rw [rows.nextBegin_row P _ s hi] at h1
                cases h1
                split_ifs at hN with hlast
                · cases h4 : rows.readAhead P (s.ch.wire.length + 1)
                      { s with index := s.index + 1, values := [] } with
                  | error e => rw [h4] at hN; cases hN
                  | ok res4 =>
                    obtain ⟨r1, s3⟩ := res4
                    rw [h4] at hN
                    have ha := rows.readAhead_reads P _ _ r1 s3 h4
                    have hs3 : s3 = s1 := by cases r1 <;> (cases hN; rfl)
                    subst hs3
                    refine ⟨ha.2 hc, ?_, ?_⟩
                    · intro hd _
                      exact rows.readAhead_turn_reads P _
                        { s with index := s.index + 1, values := [] } r1 s3 hd rfl h4
                    · intro hq
                      rcases hq with hq | hq
                      · rw [rows.readAhead_stop P _ { s with index := s.index + 1, values := [] }
                          (Or.inl hq)] at h4
                        cases h4
                        rfl
                      · have : s.values.length ≤ s.index + 1 := hlast
                        omega
                · cases hN
                  refine ⟨hc, ?_, ?_⟩
                  · intro _ hlast2
                    exact absurd hlast2 hlast
                  · intro _
                    rfl
  · cases hC : s.Columns P with
    | error e => exact Or.inl ⟨e, rfl, rows.Columns_ne_outOfFuel P s e hC⟩
    | ok res =>
      obtain ⟨cols, s1⟩ := res
      refine Or.inr ⟨cols, s1, rfl, ?_⟩
      unfold rows.Columns at hC
      by_cases h0 : s.columns.length = 0
      · rw [if_pos h0] at hC
        cases hrd : s.receiveData P with
        | error e => rw [hrd] at hC; cases hC
        | ok res1 =>
          obtain ⟨r0, s2⟩ := res1
          rw [hrd] at hC
          cases hC
          have hr := receiveDataOn_reads P _ s r0 s1 hrd
          exact ⟨hr.2 hc, fun _ => hr.1, fun hne => absurd (List.length_eq_zero.mp h0) hne⟩
      · rw [if_neg h0] at hC
        cases hC
        exact ⟨hc, fun hcol => absurd (by simp [hcol]) h0, fun _ => ⟨rfl, rfl⟩⟩

/-- The stream left by the desynchronisation of `desyncWire`. -/
theorem C10_after_desync_witness :
    desyncStream.ch.closed = true ∧
    (desyncStream.NextResultSet.2.ch = desyncStream.ch ∧ desyncStream.Close.2.ch = desyncStream.ch ∧
    ((∃ e, desyncStream.Next native [] = .error e ∧ e ≠ .outOfFuel) ∨
      ∃ err s1 d1, desyncStream.Next native [] = .ok (err, s1, d1) ∧ s1.ch.closed = true ∧
        (desyncStream.allDataIsReceived = false →
          desyncStream.values.length ≤ desyncStream.index + 1 →
          desyncStream.ch.reads < s1.ch.reads) ∧
        (desyncStream.allDataIsReceived = true ∨
          desyncStream.index + 1 < desyncStream.values.length → s1.ch = desyncStream.ch)) ∧
    ((∃ e, desyncStream.Columns native = .error e ∧ e ≠ .outOfFuel) ∨
      ∃ cols s1, desyncStream.Columns native = .ok (cols, s1) ∧ s1.ch.closed = true ∧
        (desyncStream.columns = [] → desyncStream.ch.reads < s1.ch.reads) ∧
        (desyncStream.columns ≠ [] → s1 = desyncStream ∧ cols = desyncStream.columns))) :=
  ⟨rfl, C10_after_desync native desyncStream [] rfl⟩

/-- C10 as stated fails: over `desyncWire` the first `Next` hits the unknown tag
9 and leaves `desyncStream` (connection closed, one decoder operation made); the
second `Next` on the same stream makes another decoder operation: it reads the
end-of-stream marker that follows the unknown tag, sets the terminated flag and
returns `io.EOF`; `Columns` on the same stream reads that marker as well. -/
theorem C10_counterexample :
    (rows.fresh desyncWire).Next native [] =
        .ok (some (Error.errorf "unexpected packet [9] from server"), desyncStream, []) ∧
      (desyncStream.Next native []).map
          (fun r => (r.1, r.2.1.ch.reads, r.2.1.ch.wire, r.2.1.allDataIsReceived)) =
        .ok (some Error.EOF, 2, [], true) ∧
      (desyncStream.Columns native).map (fun r => (r.1, r.2.ch.reads, r.2.ch.wire)) =
        .ok ([], 2, []) := by
  refine ⟨by rfl, by rfl, by rfl⟩

/-! ## Propagation of errors -/

theorem rows.nextBegin_begins (P : Protocol) {s t : rows} (h : rows.Begins P s t) :
    ∀ fuel, s.ch.wire.length < fuel →
      ∃ fuel1, t.ch.wire.length < fuel1 ∧ rows.nextBegin P fuel s = rows.nextBegin P fuel1 t := by
  induction h with
  | here s => intro fuel hf; exact ⟨fuel, hf, rfl⟩
  | @turn s s1 t hle hd hrd _ ih =>
    intro fuel hf
    cases fuel with
    | zero => omega
    | succ k =>
      have hlt := (rows.receiveData_untouched P s none s1 hrd).2 rfl
      obtain ⟨fuel1, h1, h2⟩ := ih k (by omega)
      refine ⟨fuel1, h1, ?_⟩
      rw [rows.nextBegin_turn P k s hle hd, hrd]
      exact h2

theorem rows.readAhead_aheads (P : Protocol) {s t : rows} (h : rows.Aheads P s t) :
    ∀ fuel, s.ch.wire.length < fuel →
      ∃ fuel1, t.ch.wire.length < fuel1 ∧ rows.readAhead P fuel s = rows.readAhead P fuel1 t := by
  induction h with
  | here s => intro fuel hf; exact ⟨fuel, hf, rfl⟩
  | @turn s s1 t hd hv hrd _ ih =>
    intro fuel hf
    cases fuel with
    | zero => omega
    | succ k =>
      have hlt := (rows.receiveData_untouched P s none s1 hrd).2 rfl
      obtain ⟨fuel1, h1, h2⟩ := ih k (by omega)
      refine ⟨fuel1, h1, ?_⟩
      rw [rows.readAhead_turn P k s hd hv, hrd]
      exact h2

theorem rows.nextBegin_trace (P : Protocol) :
    ∀ (fuel : Nat) (s : rows) (r : Option Error) (s1 : rows),
      rows.nextBegin P fuel s = .ok (r, s1) →
      (r = none → rows.Begins P s s1 ∧ s1.index < s1.values.length) ∧
      (∀ e, r = some e →
        (e = Error.EOF ∧ rows.Begins P s s1 ∧ s1.values.length ≤ s1.index ∧
          s1.allDataIsReceived = true) ∨
        ∃ t, rows.Begins P s t ∧ t.values.length ≤ t.index ∧ t.allDataIsReceived = false ∧
          t.receiveData P = .ok (some e, s1)) := by
  intro fuel
  induction fuel with
  | zero => intro s r s1 h; cases h
  | succ fuel ih =>
    intro s r s1 h
    unfold rows.nextBegin at h
    split_ifs at h with h1 h2
    · cases h
      refine ⟨fun h0 => (by cases h0), ?_⟩
      intro e he
      cases he
      exact Or.inl ⟨rfl, rows.Begins.here s, h1, h2⟩
    · have hd : s.allDataIsReceived = false := by simpa using h2
      cases hrd : s.receiveData P with
      | error f => rw [hrd] at h; cases h
      | ok res =>
        obtain ⟨r0, s2⟩ := res
        rw [hrd] at h
        cases r0 with
        | some err =>
          cases h
          refine ⟨fun h0 => (by cases h0), ?_⟩
          intro e he
          cases he
          exact Or.inr ⟨s, rows.Begins.here s, h1, hd, hrd⟩
        | none =>
          have hrec := ih s2 r s1 h
          refine ⟨fun h0 => ?_, ?_⟩
          · exact ⟨rows.Begins.turn h1 hd hrd (hrec.1 h0).1, (hrec.1 h0).2⟩
          · intro e he
            rcases hrec.2 e he with ⟨g1, g2, g3, g4⟩ | ⟨t, g1, g2, g3, g4⟩
            · exact Or.inl ⟨g1, rows.Begins.turn h1 hd hrd g2, g3, g4⟩
            · exact Or.inr ⟨t, rows.Begins.turn h1 hd hrd g1, g2, g3, g4⟩
    · cases h
      refine ⟨fun _ => ⟨rows.Begins.here s, Nat.lt_of_not_le h1⟩, ?_⟩
      intro e he
      cases he

theorem rows.readAhead_trace (P : Protocol) :
    ∀ (fuel : Nat) (s : rows) (e : Error) (s1 : rows),
      rows.readAhead P fuel s = .ok (some e, s1) →
      ∃ u, rows.Aheads P s u ∧ u.allDataIsReceived = false ∧ u.values = [] ∧
        u.receiveData P = .ok (some e, s1) := by
  intro fuel
  induction fuel with
  | zero => intro s e s1 h; cases h
  | succ fuel ih =>
    intro s e s1 h
    unfold rows.readAhead at h
    split_ifs at h with h1
    · have hg : s.allDataIsReceived = false ∧ s.values = [] := by
        simpa [List.length_eq_zero] using h1
      cases hrd : s.receiveData P with
      | error f => rw [hrd] at h; cases h
      | ok res =>
        obtain ⟨r0, s2⟩ := res
        rw [hrd] at h
        cases r0 with
        | some err =>
          cases h
          exact ⟨s, rows.Aheads.here s, hg.1, hg.2, hrd⟩
        | none =>
          obtain ⟨u, g1, g2, g3, g4⟩ := ih s2 e s1 h
          exact ⟨u, rows.Aheads.turn hg.1 hg.2 hrd g1, g2, g3, g4⟩
    · cases h

/-- C15, the code against the claim. For `Next` the claim holds. (1) When a
dispatch cycle of the `begin:` loop fails, `Next` returns exactly its error,
with the stream as that cycle left it and `dest` left alone. (2) When a
dispatch cycle of the read-ahead loop fails, after the row at the cursor has
been copied into `dest`, `Next` returns exactly its error, with the stream as
that cycle left it. (3) An error that `Next` returns is `io.EOF` on a stream
found terminated, or the error of a failed cycle of one of the two loops. For
`Columns` it fails. (4) On unresolved column names `Columns` returns the column
list that its dispatch cycle left, whatever the cycle returned. (5) The failing
input: over `failedQueryWire` the dispatch cycle fails with the server
exception; `Next` on the fresh stream returns that exception, `Columns` on the
fresh stream returns the empty list, which is also what it returns over
`endOnlyWire`, where its cycle returns nil, and the `Next` that follows it
returns `io.EOF`. -/
theorem C15_error_propagation (P : Protocol) :
    (∀ (s t t1 : rows) (dest : List Value) (e : Error), rows.Begins P s t →
      t.values.length ≤ t.index → t.allDataIsReceived = false →
      t.receiveData P = .ok (some e, t1) → s.Next P dest = .ok (some e, t1, dest)) ∧
    (∀ (s t u u1 : rows) (dest row d1 : List Value) (e : Error), rows.Begins P s t →
      sliceAt t.values t.index = .ok row → copyRow row dest = .ok d1 →
      t.values.length ≤ t.index + 1 →
      rows.Aheads P { t with index := t.index + 1, values := [] } u →
      u.allDataIsReceived = false → u.values = [] →
      u.receiveData P = .ok (some e, u1) → s.Next P dest = .ok (some e, u1, d1)) ∧
    (∀ (s : rows) (dest : List Value) (e : Error) (s1 : rows) (d1 : List Value),
      s.Next P dest = .ok (some e, s1, d1) →
      (e = Error.EOF ∧ d1 = dest ∧ rows.Begins P s s1 ∧ s1.values.length ≤ s1.index ∧
        s1.allDataIsReceived = true) ∨
      (d1 = dest ∧ ∃ t, rows.Begins P s t ∧ t.values.length ≤ t.index ∧
        t.allDataIsReceived = false ∧ t.receiveData P = .ok (some e, s1)) ∨
      (∃ t row u, rows.Begins P s t ∧ sliceAt t.values t.index = .ok row ∧
        copyRow row dest = .ok d1 ∧ t.values.length ≤ t.index + 1 ∧
        rows.Aheads P { t with index := t.index + 1, values := [] } u ∧
        u.allDataIsReceived = false ∧ u.values = [] ∧
        u.receiveData P = .ok (some e, s1))) ∧
    (∀ (s : rows) (r : Option Error) (s1 : rows), s.columns = [] →
      s.receiveData P = .ok (r, s1) → s.Columns P = .ok (s1.columns, s1)) ∧
    (((rows.fresh failedQueryWire).receiveData native).map Prod.fst
        = .ok (some (Error.exception 60 "Table does not exist")) ∧
      ((rows.fresh failedQueryWire).Next native [Value.null]).map Prod.fst
        = .ok (some (Error.exception 60 "Table does not exist")) ∧
      ((rows.fresh failedQueryWire).Columns native).map Prod.fst = .ok [] ∧
      ((rows.fresh endOnlyWire).receiveData native).map Prod.fst = .ok none ∧
      ((rows.fresh endOnlyWire).Columns native).map Prod.fst = .ok [] ∧
      (match (rows.fresh failedQueryWire).Columns native with
        | .ok (_, s) =>
          match s.Next native [Value.null] with
          | .ok (r, _, _) => some r
          | .error _ => none
        | .error _ => none) = some (some Error.EOF)) := by
  refine ⟨?_, ?_, ?_, ?_, ⟨by rfl, by rfl, by rfl, by rfl, by rfl, by rfl⟩⟩
  · intro s t t1 dest e hb hle hd hrd
    obtain ⟨fuel1, h1, h2⟩ := rows.nextBegin_begins P hb (s.ch.wire.length + 1) (Nat.lt_succ_self _)
    unfold rows.Next
    rw [h2]
    cases fuel1 with
    | zero => omega
    | succ k => rw [rows.nextBegin_turn P k t hle hd, hrd]
  · intro s t u u1 dest row d1 e hb hrow hcopy hlast ha hd hv hrd
    obtain ⟨fuel1, h1, h2⟩ := rows.nextBegin_begins P hb (s.ch.wire.length + 1) (Nat.lt_succ_self _)
    have hi : t.index < t.values.length := by
      by_contra hge
      rw [sliceAt_of_le _ _ (Nat.le_of_not_lt hge)] at hrow
      cases hrow
    unfold rows.Next
    rw [h2]
    cases fuel1 with
    | zero => omega
    | succ k =>
      rw [rows.nextBegin_row P k t hi]
      simp only []
      unfold rows.nextRow
      rw [hrow]
      simp only []
      rw [hcopy]
      simp only []
      rw [if_pos hlast]
      obtain ⟨fuel2, h3, h4⟩ := rows.readAhead_aheads P ha (t.ch.wire.length + 1)
        (Nat.lt_succ_self _)
      rw [h4]
      cases fuel2 with
      | zero => omega
      | succ k2 => rw [rows.readAhead_turn P k2 u hd hv, hrd]
  · intro s dest e s1 d1 h
    unfold rows.Next at h
    cases h1 : rows.nextBegin P (s.ch.wire.length + 1) s with
    | error f => rw [h1] at h; cases h
    | ok res =>
      obtain ⟨r0, s2⟩ := res
      rw [h1] at h
      have htr := rows.nextBegin_trace P _ s r0 s2 h1
      cases r0 with
      | some err =>
        cases h
        rcases htr.2 e rfl with ⟨g1, g2, g3, g4⟩ | ⟨t, g1, g2, g3, g4⟩
        · exact Or.inl ⟨g1, rfl, g2, g3, g4⟩
        · exact Or.inr (Or.inl ⟨rfl, t, g1, g2, g3, g4⟩)
      | none =>
        have hb := (htr.1 rfl).1
        simp only [] at h
        unfold rows.nextRow at h
        cases h2 : sliceAt s2.values s2.index with
        | error f => rw [h2] at h; cases h
        | ok row =>
          rw [h2] at h
          simp only [] at h
          cases h3 : copyRow row dest with
          | error f => rw [h3] at h; cases h
          | ok dest1 =>
            rw [h3] at h
            simp only [] at h
            split_ifs at h with hlast
            · cases h4 : rows.readAhead P (s2.ch.wire.length + 1)
                  { s2 with index := s2.index + 1, values := [] } with
              | error f => rw [h4] at h; cases h
              | ok res =>
                obtain ⟨r1, s3⟩ := res
                rw [h4] at h
                cases r1 with
                | some err =>
                  cases h
                  obtain ⟨u, g1, g2, g3, g4⟩ := rows.readAhead_trace P _ _ e s1 h4
                  exact Or.inr (Or.inr ⟨s2, row, u, hb, h2, h3, hlast, g1, g2, g3, g4⟩)
                | none => cases h
            · cases h
  · intro s r s1 hcol hrd
    unfold rows.Columns
    rw [if_pos (by simp [hcol]), hrd]

end ClickHouse
